import Mathlib

/-!
# TRD tracklet parser: `TrackletsParser::Parse` and `TrackletsParser::swapByteOrder`

Shallow embedding of `Detectors/TRD/reconstruction/src/TrackletsParser.cxx`.

* 32-bit words are natural numbers below `2 ^ 32`; left shifts are reduced
  modulo `2 ^ 32` as unsigned arithmetic does.
* The caller's `std::array` is a `List Nat`; the iterators `mStartParse`,
  `mEndParse` and the loop cursor `word` are indices into it.  A load from an
  index outside the array has no defined result: the embedding returns `none`.
  This holds for every load of `Parse`, the one at line 142 included, whose
  value is not used.
* The members `mTrackletMCMHeader` and `mTrackletMCMData` are pointers to a
  word of the array.  Such a pointer is `some i` when it designates the array
  word at index `i` and `none` when it designates no word of the array (a
  parser object on which no call has set it).  A read through the pointer
  loads the word the array holds at that index at the time of the read, so it
  sees the byte swap that line 122 makes in place; a read through a pointer
  that designates no array word has no defined result.  A pointer that an
  earlier call has left is taken to designate a word of the array of this
  call.
* `mWordsRead` and `mTrackletsFound` are `int` counters bounded by the array
  size; they are natural numbers here.  `mDetector * 2 + mRobSide` is computed
  in `Int`.
* Only the behaviour with the diagnostic switches (`mVerbose`,
  `mHeaderVerbose`, `mDataVerbose`) off is embedded; `LOG(warn)` output is not
  part of the state.  `mTrackletHCHeader` is written at line 159 and read only
  by diagnostics, so it is not part of the state either.
-/

namespace o2.trd

/-! ## The embedding -/

namespace constants

/-- Modelled from the spec: the declaration of `constants::TRACKLETENDMARKER`
is not in the source file; the spec gives `END_MARKER = 0x10001000`, the
literal that line 133 of the source compares with. -/
def TRACKLETENDMARKER : Nat := 0x10001000

end constants

/-- The enumeration of parser states used by `Parse` (names as in the source). -/
inductive TrackletParserState
  | StateTrackletHCHeader
  | StateTrackletMCMHeader
  | StateTrackletMCMData
  | StatePadding
  | StateTrackletEndMarker
  | StateFinished
  deriving DecidableEq, Repr

/-- The arguments of `mTracklets.emplace_back(4, hcid, padrow, col, pos, slope, q0, q1, q2)`
(line 222), in that order. -/
structure Tracklet64 where
  format : Int
  hcid : Int
  padrow : Int
  col : Int
  pos : Int
  slope : Int
  q0 : Int
  q1 : Int
  q2 : Int
  deriving DecidableEq, Repr

/-- The declarations of `DataFormatsTRD/RawData.h` that `Parse` uses and that
are not in the source file: the padding constant, the bit-field readers of
`TrackletMCMHeader` and `TrackletMCMData`, `getNumberofTracklets` and
`getQFromRaw`.  They are parameters of the embedding; the readers take the
word that the pointer they are given designates. -/
structure RawData where
  CRUPADDING32 : Nat
  getNumberofTracklets : Nat → Int
  getQFromRaw : Nat → Nat → Int → Int → Int
  padrow : Nat → Int
  col : Nat → Int
  pos : Nat → Int
  slope : Nat → Int

/-- The members of `TrackletsParser` that `Parse` reads or writes.  The two
pointer members hold the index of the array word they designate, `none` when
they designate no word of the array. -/
structure TrackletsParser where
  mData : List Nat
  mStartParse : Nat
  mEndParse : Nat
  mTrackletHCHeaderState : Int
  mIgnoreTrackletHCHeader : Bool
  mByteOrderFix : Bool
  mDetector : Int
  mRobSide : Int
  mState : TrackletParserState
  mCurrentLink : Int
  mWordsRead : Nat
  mTrackletsFound : Nat
  mTracklets : List Tracklet64
  mTrackletMCMHeader : Option Nat
  mTrackletMCMData : Option Nat
  deriving DecidableEq, Repr

/-- What one pass through the body of the `for` loop does: it executes a
`return` statement with a value, or it reaches the end of the body with the
updated members and the updated locals `mcmtrackletcount` and
`headertrackletcount`. -/
inductive Outcome
  | ret (value : Nat) (p : TrackletsParser)
  | next (p : TrackletsParser) (mcmtrackletcount headertrackletcount : Int)
  deriving DecidableEq, Repr

/-- Lines 30-36: `ui = (ui >> 24) | ((ui << 8) & 0x00FF0000) | ((ui >> 8) & 0x0000FF00) | (ui << 24)`
on `unsigned int`. -/
def swapByteOrder (ui : Nat) : Nat :=
  (ui >>> 24) ||| (((ui <<< 8) % 2 ^ 32) &&& 0x00FF0000) |||
    ((ui >>> 8) &&& 0x0000FF00) ||| ((ui <<< 24) % 2 ^ 32)

/-- Lines 121-124: the value a stored word is examined as, byte-swapped when
`mByteOrderFix` is set and as stored otherwise. -/
def normalize (mByteOrderFix : Bool) (w : Nat) : Nat :=
  if mByteOrderFix then swapByteOrder w else w

/-- Line 122: `swapByteOrder(*word)` under `mByteOrderFix` writes the swapped
value `w` back into the array at the cursor. -/
def storeSwapped (p : TrackletsParser) (word w : Nat) : TrackletsParser :=
  if p.mByteOrderFix then { p with mData := p.mData.set word w } else p

/-- The read `*mTrackletMCMHeader` (lines 197-213): the word the array holds
where the pointer designates; no result when the pointer designates no word of
the array. -/
def headerWord (p : TrackletsParser) : Option Nat :=
  match p.mTrackletMCMHeader with
  | some i => p.mData[i]?
  | none => none

/-- Lines 110-246: the body of the `for` loop with the cursor at index `word`. -/
def parseWord (rd : RawData) (p : TrackletsParser) (word : Nat)
    (mcmtrackletcount headertrackletcount : Int) : Option Outcome :=
  if p.mState = TrackletParserState.StateFinished then
    some (Outcome.ret p.mWordsRead p)
  else
    -- lines 117-119: nextwordcopy = *nextword, then *word is used
    match p.mData[word + 1]?, p.mData[word]? with
    | some nextraw, some raw =>
      -- lines 121-124: *word is swapped in place, the lookahead in its copy
      let w := normalize p.mByteOrderFix raw
      let nextwordcopy := normalize p.mByteOrderFix nextraw
      let p1 : TrackletsParser := storeSwapped p word w
      if w = 0x10001000 ∧ nextwordcopy = 0x10001000 then
        -- lines 137-144; line 142 loads `*hchword` from `word + 2`
        let p2 : TrackletsParser :=
          { p1 with mWordsRead := p1.mWordsRead + 2,
                    mState := TrackletParserState.StateTrackletEndMarker }
        match p2.mData[word + 2]? with
        | some _ => some (Outcome.ret p2.mWordsRead p2)
        | none => none
      else if w = rd.CRUPADDING32 then
        some (Outcome.next { p1 with mState := TrackletParserState.StatePadding,
                                     mWordsRead := p1.mWordsRead + 1 }
          mcmtrackletcount headertrackletcount)
      else if (w &&& (0x1 <<< 11)) ≠ 0 ∧ p1.mIgnoreTrackletHCHeader = false ∧
          p1.mState = TrackletParserState.StateTrackletHCHeader then
        some (Outcome.next { p1 with mWordsRead := p1.mWordsRead + 1,
                                     mState := TrackletParserState.StateTrackletMCMHeader }
          mcmtrackletcount headertrackletcount)
      else if (w &&& 0x80000001) ≠ 0 ∧
          p1.mState = TrackletParserState.StateTrackletMCMHeader then
        -- line 172 points at `*word`, which holds `w`; line 179 reads it
        some (Outcome.next { p1 with mTrackletMCMHeader := some word,
                                     mState := TrackletParserState.StateTrackletMCMData,
                                     mWordsRead := p1.mWordsRead + 1 }
          0 (rd.getNumberofTracklets w))
      else
        -- line 186 points at `*word`, which holds `w`
        let p2 : TrackletsParser :=
          { p1 with mState := TrackletParserState.StateTrackletMCMData,
                    mTrackletMCMData := some word,
                    mWordsRead := p1.mWordsRead + 1 }
        -- lines 197-213 read through `mTrackletMCMHeader`
        match headerWord p2 with
        | some header =>
          let q0 := rd.getQFromRaw header w 0 mcmtrackletcount
          let q1 := rd.getQFromRaw header w 1 mcmtrackletcount
          let q2 := rd.getQFromRaw header w 2 mcmtrackletcount
          let padrow := rd.padrow header
          let col := rd.col header
          let pos := rd.pos w
          let slope := rd.slope w
          let hcid : Int := p2.mDetector * 2 + p2.mRobSide
          let p3 : TrackletsParser :=
            { p2 with
              mTracklets := p2.mTracklets ++ [Tracklet64.mk 4 hcid padrow col pos slope q0 q1 q2],
              mTrackletsFound := p2.mTrackletsFound + 1 }
          let count : Int := mcmtrackletcount + 1
          if count = headertrackletcount then
            -- lines 232-238: the stored word after the cursor is compared as it is
            match p3.mData[word + 1]? with
            | some nextdataword =>
              if nextdataword = constants.TRACKLETENDMARKER then
                some (Outcome.next
                  { p3 with mState := TrackletParserState.StateTrackletEndMarker }
                  count headertrackletcount)
              else
                some (Outcome.next
                  { p3 with mState := TrackletParserState.StateTrackletMCMHeader }
                  count headertrackletcount)
            | none => none
          else
            some (Outcome.next p3 count headertrackletcount)
        | none => none
    | _, _ => none

/-- Lines 109 and 247: the `for` loop, `remaining` words before `mEndParse`,
cursor at index `word`.  `Outcome.next` is the exit through the loop condition. -/
def parseLoop (rd : RawData) : Nat → Nat → Int → Int → TrackletsParser → Option Outcome
  | 0, _, mcmtrackletcount, headertrackletcount, p =>
    some (Outcome.next p mcmtrackletcount headertrackletcount)
  | remaining + 1, word, mcmtrackletcount, headertrackletcount, p =>
    match parseWord rd p word mcmtrackletcount headertrackletcount with
    | some (Outcome.next p1 count header) => parseLoop rd remaining (word + 1) count header p1
    | some (Outcome.ret value p1) => some (Outcome.ret value p1)
    | none => none

/-- Lines 80-100: the state `Parse` starts the loop in.  Policy 1 loads the
stored word after `mStartParse` and compares it as it is. -/
def initialState (p : TrackletsParser) : Option TrackletParserState :=
  if p.mTrackletHCHeaderState = 0 then
    some TrackletParserState.StateTrackletMCMHeader
  else if p.mTrackletHCHeaderState = 1 then
    match p.mData[p.mStartParse + 1]? with
    | some nextword =>
      if nextword ≠ constants.TRACKLETENDMARKER then
        some TrackletParserState.StateTrackletHCHeader
      else
        some TrackletParserState.StateTrackletMCMHeader
    | none => none
  else
    some TrackletParserState.StateTrackletHCHeader

/-- Lines 77-100: the counters are reset and the starting state is chosen. -/
def startParser (p : TrackletsParser) : Option TrackletsParser :=
  let p0 : TrackletsParser :=
    { p with mCurrentLink := 0, mWordsRead := 0, mTrackletsFound := 0 }
  match initialState p0 with
  | some s => some { p0 with mState := s }
  | none => none

/-- Lines 38-251: `TrackletsParser::Parse`.  The result is the returned `int`
together with the members after the call.  A cursor that starts behind
`mEndParse` never meets it inside the array, so that case has no result. -/
def Parse (rd : RawData) (p : TrackletsParser) : Option (Nat × TrackletsParser) :=
  match startParser p with
  | none => none
  | some p0 =>
    if p0.mEndParse < p0.mStartParse then
      none
    else
      match parseLoop rd (p0.mEndParse - p0.mStartParse) p0.mStartParse 0 0 p0 with
      | some (Outcome.ret value p1) => some (value, p1)
      | some (Outcome.next p1 _ _) => some (p1.mWordsRead, p1)
      | none => none

/-- Modelled from the spec: `DataFormatsTRD/RawData.h` is not in the source
file and the spec fixes only the interface of its decoders (a declared count
in 0..3, a `PADDING` constant distinct from `END_MARKER`).  This is one
instance of that interface, used only to evaluate `Parse` on concrete regions:
the declared tracklet count is held in bits 1-2 of a module header.  Every
statement with a parameter `rd` holds for all instances. -/
def sampleRawData : RawData where
  CRUPADDING32 := 0xeeeeeeee
  getNumberofTracklets := fun h => ((h >>> 1) % 4 : Nat)
  getQFromRaw := fun h d s i =>
    ((h >>> 3) % 256 : Nat) + ((d >>> 1) % 128 : Nat) + 1000 * s + 100000 * i
  padrow := fun h => ((h >>> 27) % 16 : Nat)
  col := fun h => ((h >>> 25) % 4 : Nat)
  pos := fun d => ((d >>> 22) % 1024 : Nat)
  slope := fun d => ((d >>> 16) % 64 : Nat)

/-- A parser object set up for a call: buffer, cursors and configuration; no
call has been made on it, so its pointer members designate no word, its
counters are zero and it holds no tracklet. -/
def mkParser (mData : List Nat) (mStartParse mEndParse : Nat) (policy : Int)
    (ignore fix : Bool) (mDetector mRobSide : Int) : TrackletsParser where
  mData := mData
  mStartParse := mStartParse
  mEndParse := mEndParse
  mTrackletHCHeaderState := policy
  mIgnoreTrackletHCHeader := ignore
  mByteOrderFix := fix
  mDetector := mDetector
  mRobSide := mRobSide
  mState := TrackletParserState.StateFinished
  mCurrentLink := 0
  mWordsRead := 0
  mTrackletsFound := 0
  mTracklets := []
  mTrackletMCMHeader := none
  mTrackletMCMData := none

/-! ## Notions used in the statements -/

/-- Byte `j` of a word, byte 0 being the least significant. -/
def byteOf (w j : Nat) : Nat :=
  (w >>> (8 * j)) % 256

/-- Number of words between the start and end cursors. -/
def regionLength (p : TrackletsParser) : Nat :=
  p.mEndParse - p.mStartParse

/-- The stored word at offset `j` from the start cursor, examined the way the
loop examines it, equals `END_MARKER`. -/
def endMarkerAt (p : TrackletsParser) (j : Nat) : Prop :=
  (p.mData[p.mStartParse + j]?).map (normalize p.mByteOrderFix) = some 0x10001000

instance (p : TrackletsParser) (j : Nat) : Decidable (endMarkerAt p j) := by
  unfold endMarkerAt; infer_instance

/-- The members that no statement of the loop body assigns. -/
def sameSetup (p q : TrackletsParser) : Prop :=
  q.mStartParse = p.mStartParse ∧ q.mEndParse = p.mEndParse ∧
  q.mTrackletHCHeaderState = p.mTrackletHCHeaderState ∧
  q.mIgnoreTrackletHCHeader = p.mIgnoreTrackletHCHeader ∧
  q.mByteOrderFix = p.mByteOrderFix ∧ q.mDetector = p.mDetector ∧
  q.mRobSide = p.mRobSide

/-- The buffer after the cursor has passed index `word`. -/
def bufferAfter (p : TrackletsParser) (word : Nat) : List Nat :=
  if p.mByteOrderFix then
    p.mData.set word (swapByteOrder ((p.mData[word]?).getD 0))
  else p.mData

/-- The word a read through `mTrackletMCMHeader` gives in the pass with the
cursor at `word`, that is after line 122 has swapped the word at the cursor in
place; `none` when the pointer designates no word of the array. -/
def activeHeader (p : TrackletsParser) (word : Nat) : Option Nat :=
  match p.mTrackletMCMHeader with
  | some i => (bufferAfter p word)[i]?
  | none => none

/-- The word a read through the module header reference of `p` gives after
the cursor has gone from index `word` to index `word + j` while the reference
has not been assigned: the word the array of `p` holds where the reference
designates, byte-swapped when `mByteOrderFix` is set and the cursor has
reached it. -/
def staleHeader (p : TrackletsParser) (word j : Nat) : Option Nat :=
  match p.mTrackletMCMHeader with
  | some i =>
    if p.mByteOrderFix = true ∧ word ≤ i ∧ i ≤ word + j then (p.mData[i]?).map swapByteOrder
    else p.mData[i]?
  | none => none

/-- The module header reference designates a word of the array: a read
through it has a result. -/
def headerSet (p : TrackletsParser) : Prop :=
  headerWord p ≠ none

instance (p : TrackletsParser) : Decidable (headerSet p) := by
  unfold headerSet; infer_instance

/-- The two stored words at indices `k` and `k + 1`, examined the way the loop
examines them, are both end markers. -/
def pairAt (fix : Bool) (buf : List Nat) (k : Nat) : Prop :=
  (buf[k]?).map (normalize fix) = some 0x10001000 ∧
  (buf[k + 1]?).map (normalize fix) = some 0x10001000

instance (fix : Bool) (buf : List Nat) (k : Nat) : Decidable (pairAt fix buf k) := by
  unfold pairAt; infer_instance

/-- Buffer `q.mData` is buffer `p.mData` with the `k` words from index `word`
on byte-swapped in place when `mByteOrderFix` is set, and every other word
as it was. -/
def Swept (p q : TrackletsParser) (word k : Nat) : Prop :=
  q.mData.length = p.mData.length ∧
  ∀ j, q.mData[j]? =
    if p.mByteOrderFix = true ∧ word ≤ j ∧ j < word + k then
      (p.mData[j]?).map swapByteOrder
    else p.mData[j]?

/-- The tracklets of `q` are those of `p` followed by at most `bound` new ones,
each with format 4 and the half-chamber id of the configuration. -/
def Emitted (p q : TrackletsParser) (bound : Nat) : Prop :=
  ∃ new : List Tracklet64, q.mTracklets = p.mTracklets ++ new ∧ new.length ≤ bound ∧
    q.mTrackletsFound = p.mTrackletsFound + new.length ∧
    ∀ t ∈ new, t.format = 4 ∧ t.hcid = p.mDetector * 2 + p.mRobSide

/-- The tracklets of `q` are those `p` held before the call followed by the new
ones of the call, at most `bound` of them, counted by `mTrackletsFound`. -/
def EmittedByCall (p q : TrackletsParser) (bound : Nat) : Prop :=
  ∃ new : List Tracklet64, q.mTracklets = p.mTracklets ++ new ∧ new.length ≤ bound ∧
    q.mTrackletsFound = new.length ∧
    ∀ t ∈ new, t.format = 4 ∧ t.hcid = p.mDetector * 2 + p.mRobSide

/-- The tracklet built at lines 209-222 from the active module header word,
the data word and the index of the data word under its header. -/
def trackletOf (rd : RawData) (hcid : Int) (header data : Nat) (index : Int) : Tracklet64 :=
  Tracklet64.mk 4 hcid (rd.padrow header) (rd.col header) (rd.pos data) (rd.slope data)
    (rd.getQFromRaw header data 0 index) (rd.getQFromRaw header data 1 index)
    (rd.getQFromRaw header data 2 index)

/-- The tracklets of the data words of one module, in stream order: `header`
is the examined header word, the list holds the examined data words and `i`
is the index of the first of them under the header. -/
def dataTracklets (rd : RawData) (hcid : Int) (header : Nat) : Int → List Nat → List Tracklet64
  | _, [] => []
  | i, d :: ds => trackletOf rd hcid header d i :: dataTracklets rd hcid header (i + 1) ds

/-- The stored words of one module: its header followed by its data words. -/
def moduleWords (m : Nat × List Nat) : List Nat :=
  m.1 :: m.2

/-- The tracklets of one module given by its stored words. -/
def moduleTracklets (rd : RawData) (hcid : Int) (fix : Bool) (m : Nat × List Nat) :
    List Tracklet64 :=
  dataTracklets rd hcid (normalize fix m.1) 0 (m.2.map (normalize fix))

/-- The stored words of a sequence of modules. -/
def streamOfModules : List (Nat × List Nat) → List Nat
  | [] => []
  | m :: ms => moduleWords m ++ streamOfModules ms

/-- The tracklets of a sequence of modules, in stream order. -/
def trackletsOfModules (rd : RawData) (hcid : Int) (fix : Bool) :
    List (Nat × List Nat) → List Tracklet64
  | [] => []
  | m :: ms => moduleTracklets rd hcid fix m ++ trackletsOfModules rd hcid fix ms

/-- The number of data words of a sequence of modules. -/
def declaredTotal : List (Nat × List Nat) → Nat
  | [] => 0
  | m :: ms => m.2.length + declaredTotal ms

/-- A module as the stream format has it: the examined header has bit 31 and
bit 0 set and declares as many tracklets as data words follow, at most 3, and
no examined word of the module is `END_MARKER` or `PADDING`. -/
def wellFormedModule (rd : RawData) (fix : Bool) (m : Nat × List Nat) : Prop :=
  normalize fix m.1 &&& 0x80000001 = 0x80000001 ∧
  rd.getNumberofTracklets (normalize fix m.1) = (m.2.length : Int) ∧
  m.2.length ≤ 3 ∧
  ∀ x ∈ moduleWords m, normalize fix x ≠ 0x10001000 ∧ normalize fix x ≠ rd.CRUPADDING32

instance (rd : RawData) (fix : Bool) (m : Nat × List Nat) :
    Decidable (wellFormedModule rd fix m) := by
  unfold wellFormedModule; infer_instance

/-- The branches of the loop body (lines 133, 146, 153, 170 and 183). -/
inductive PassKind
  | endMarker
  | padding
  | hcHeader
  | mcmHeader
  | mcmData
  deriving DecidableEq, Repr

/-- Lines 133, 146, 153 and 170: the branch the loop body takes in the state of
`p` when the examined word is `w` and the examined lookahead is `nextwordcopy`. -/
def passKind (rd : RawData) (p : TrackletsParser) (w nextwordcopy : Nat) : PassKind :=
  if w = 0x10001000 ∧ nextwordcopy = 0x10001000 then PassKind.endMarker
  else if w = rd.CRUPADDING32 then PassKind.padding
  else if (w &&& (0x1 <<< 11)) ≠ 0 ∧ p.mIgnoreTrackletHCHeader = false ∧
      p.mState = TrackletParserState.StateTrackletHCHeader then PassKind.hcHeader
  else if (w &&& 0x80000001) ≠ 0 ∧
      p.mState = TrackletParserState.StateTrackletMCMHeader then PassKind.mcmHeader
  else PassKind.mcmData

/-- The local `mcmtrackletcount` after a pass of the given kind. -/
def nextCount : PassKind → Int → Int
  | PassKind.mcmHeader, _ => 0
  | PassKind.mcmData, c => c + 1
  | _, c => c

/-- The local `headertrackletcount` after a pass of the given kind over the
examined word `w`. -/
def nextDeclared (rd : RawData) : PassKind → Nat → Int → Int
  | PassKind.mcmHeader, w, _ => rd.getNumberofTracklets w
  | _, _, h => h

/-- The member `mState` after a pass of the given kind; `c` and `h` are the
locals before the pass and `nextraw` is the stored word after the cursor. -/
def nextState : PassKind → Int → Int → Nat → TrackletParserState
  | PassKind.endMarker, _, _, _ => TrackletParserState.StateTrackletEndMarker
  | PassKind.padding, _, _, _ => TrackletParserState.StatePadding
  | PassKind.hcHeader, _, _, _ => TrackletParserState.StateTrackletMCMHeader
  | PassKind.mcmHeader, _, _, _ => TrackletParserState.StateTrackletMCMData
  | PassKind.mcmData, c, h, nextraw =>
    if c + 1 = h then
      (if nextraw = constants.TRACKLETENDMARKER then
        TrackletParserState.StateTrackletEndMarker
      else TrackletParserState.StateTrackletMCMHeader)
    else TrackletParserState.StateTrackletMCMData

/-- The tracklets a pass of the given kind appends; `header` is what the read
through `mTrackletMCMHeader` gives in that pass. -/
def emitted (rd : RawData) (hcid : Int) : PassKind → Option Nat → Nat → Int → List Tracklet64
  | PassKind.mcmData, some header, w, c => [trackletOf rd hcid header w c]
  | _, _, _, _ => []

/-- The array index `mTrackletMCMHeader` designates after a pass of the given
kind with the cursor at `word`. -/
def nextHeader : PassKind → Option Nat → Nat → Option Nat
  | PassKind.mcmHeader, _, word => some word
  | _, header, _ => header

/-- The loads of a pass of the given kind, other than the word at the cursor
and the lookahead, succeed: the word at `word + 2` for the end-marker branch
(line 142), the word `mTrackletMCMHeader` designates for the data branch
(lines 197-213). -/
def loadsDefined (p : TrackletsParser) (word : Nat) : PassKind → Prop
  | PassKind.endMarker => p.mData[word + 2]? ≠ none
  | PassKind.mcmData => activeHeader p word ≠ none
  | _ => True

instance (p : TrackletsParser) (word : Nat) (k : PassKind) : Decidable (loadsDefined p word k) := by
  cases k <;> unfold loadsDefined <;> infer_instance

/-- The passes of the loop in order: for each pass that loads the word at the
cursor and the lookahead, the branch it takes, the examined word and what a
read through `mTrackletMCMHeader` gives in that pass.  The list ends with the
pass that returns, with the first pass that has no result, or when `remaining`
words have been passed. -/
def events (rd : RawData) :
    Nat → Nat → Int → Int → TrackletsParser → List (PassKind × Nat × Option Nat)
  | 0, _, _, _, _ => []
  | remaining + 1, word, c, h, p =>
    if p.mState = TrackletParserState.StateFinished then []
    else
      match p.mData[word + 1]?, p.mData[word]? with
      | some nextraw, some raw =>
        (passKind rd p (normalize p.mByteOrderFix raw) (normalize p.mByteOrderFix nextraw),
            normalize p.mByteOrderFix raw, activeHeader p word) ::
          (match parseWord rd p word c h with
            | some (Outcome.next q c1 h1) => events rd remaining (word + 1) c1 h1 q
            | _ => [])
      | _, _ => []

/-- The header word a data pass uses: the word `header` of the most recent
pass of the call that decoded a module header, and before any such pass what
the read through the reference an earlier call left gives (`stale`). -/
def headerFor (header stale : Option Nat) : Option Nat :=
  match header with
  | some w => some w
  | none => stale

/-- The tracklets a sequence of passes appends: one per pass that takes the
data branch, built from the word of the most recent pass that decoded a module
header (`header`, `none` before any, see `headerFor`) and from the number `i`
of data passes since. -/
def expectedTracklets (rd : RawData) (hcid : Int) :
    Option Nat → Int → List (PassKind × Nat × Option Nat) → List Tracklet64
  | _, _, [] => []
  | _, _, (PassKind.mcmHeader, w, _) :: es => expectedTracklets rd hcid (some w) 0 es
  | header, i, (PassKind.mcmData, w, stale) :: es =>
    emitted rd hcid PassKind.mcmData (headerFor header stale) w i ++
      expectedTracklets rd hcid header (i + 1) es
  | header, i, (PassKind.endMarker, _, _) :: es => expectedTracklets rd hcid header i es
  | header, i, (PassKind.padding, _, _) :: es => expectedTracklets rd hcid header i es
  | header, i, (PassKind.hcHeader, _, _) :: es => expectedTracklets rd hcid header i es

/-- The parser an outcome carries. -/
def Outcome.parser : Outcome → TrackletsParser
  | Outcome.ret _ p => p
  | Outcome.next p _ _ => p

/-- The pad row, column, position and slope of the tracklets a sequence of
passes appends: one entry per data pass, pad row and column read from the word
of the most recent header pass (`header`, `none` before any, see `headerFor`),
position and slope read from the data word. -/
def expectedFields (rd : RawData) :
    Option Nat → List (PassKind × Nat × Option Nat) → List (Int × Int × Int × Int)
  | _, [] => []
  | _, (PassKind.mcmHeader, w, _) :: es => expectedFields rd (some w) es
  | header, (PassKind.mcmData, w, stale) :: es =>
    ((headerFor header stale).map
        (fun hd => (rd.padrow hd, rd.col hd, rd.pos w, rd.slope w))).toList ++
      expectedFields rd header es
  | header, (PassKind.endMarker, _, _) :: es => expectedFields rd header es
  | header, (PassKind.padding, _, _) :: es => expectedFields rd header es
  | header, (PassKind.hcHeader, _, _) :: es => expectedFields rd header es

/-- The three charges of the tracklets a sequence of passes appends: one entry
per data pass, computed by `getQFromRaw` from the active header word, the data
word, the slot 0, 1, 2 and the index `i` of the data word; a header pass sets
the index to 0 and a data pass adds 1 to it. -/
def expectedCharges (rd : RawData) :
    Option Nat → Int → List (PassKind × Nat × Option Nat) → List (Int × Int × Int)
  | _, _, [] => []
  | _, _, (PassKind.mcmHeader, w, _) :: es => expectedCharges rd (some w) 0 es
  | header, i, (PassKind.mcmData, w, stale) :: es =>
    ((headerFor header stale).map
        (fun hd => (rd.getQFromRaw hd w 0 i, rd.getQFromRaw hd w 1 i,
          rd.getQFromRaw hd w 2 i))).toList ++
      expectedCharges rd header (i + 1) es
  | header, i, (PassKind.endMarker, _, _) :: es => expectedCharges rd header i es
  | header, i, (PassKind.padding, _, _) :: es => expectedCharges rd header i es
  | header, i, (PassKind.hcHeader, _, _) :: es => expectedCharges rd header i es

/-- No word of the call is processed as module data while `mTrackletMCMHeader`
designates no word of the array: in every pass that takes the data branch the
read through the pointer has a result. -/
def headerAtData (rd : RawData) (p : TrackletsParser) : Prop :=
  ∀ p0 ∈ startParser p,
    ∀ e ∈ events rd (regionLength p) p.mStartParse 0 0 p0,
      e.1 = PassKind.mcmData → e.2.2 ≠ none

instance (rd : RawData) (p : TrackletsParser) : Decidable (headerAtData rd p) := by
  unfold headerAtData; infer_instance

/-- The bit fields of `TrackletMCMHeader` that the `switch` at lines 195-208
reads. -/
inductive PidField
  | pid0
  | pid1
  | pid2
  deriving DecidableEq, Repr

/-- Lines 195-208: the field `switch (mcmtrackletcount)` assigns to `qa`;
`none` is the `default` branch, which only writes a warning. -/
def qaSelection (mcmtrackletcount : Int) : Option PidField :=
  if mcmtrackletcount = 0 then some PidField.pid0
  else if mcmtrackletcount = 1 then some PidField.pid1
  else if mcmtrackletcount = 2 then some PidField.pid2
  else none

/-- The loop is locked in data mode: the per-module counter has reached or
passed the declared count without the test at line 228 having matched, and the
state is one in which neither header branch can be taken. -/
def lockedIn (p : TrackletsParser) (c h : Int) : Prop :=
  h ≤ c ∧ (p.mState = TrackletParserState.StateTrackletMCMData ∨
    p.mState = TrackletParserState.StatePadding)

/-- The number of stored words among the `k` words from index `word` on that
are not examined as `pad`. -/
def nonPaddingCount (pad : Nat) (fix : Bool) (buf : List Nat) : Nat → Nat → Nat
  | _, 0 => 0
  | word, k + 1 =>
    (if (buf[word]?).map (normalize fix) = some pad then 0 else 1) +
      nonPaddingCount pad fix buf (word + 1) k

instance (p : TrackletsParser) (c h : Int) : Decidable (lockedIn p c h) := by
  unfold lockedIn; infer_instance

/-- Two parser objects in the same place of two runs over the same array with
the same configuration: they agree on array, configuration, state and counters;
and when `E` holds (the runs started with the same module header reference)
they agree on the module header reference and have appended the same tracklets
to the sequences `a` and `b` they started with. -/
def Agree (E : Prop) (a b : List Tracklet64) (p p1 : TrackletsParser) : Prop :=
  p1.mData = p.mData ∧ sameSetup p p1 ∧ p1.mState = p.mState ∧
  p1.mWordsRead = p.mWordsRead ∧ p1.mTrackletsFound = p.mTrackletsFound ∧
  (E → p1.mTrackletMCMHeader = p.mTrackletMCMHeader ∧
    ∃ new : List Tracklet64, p.mTracklets = a ++ new ∧ p1.mTracklets = b ++ new)

/-- Two runs in step with the cursor at index `word`: `pA` normalizes
(`mByteOrderFix` is set) and `pB` does not, the stored words of `pB` from the
cursor on are the byte-swapped stored words of `pA`, the module header
reference is the same in both and, when set, designates a word before the
cursor that the two arrays hold alike, and the other members agree except
`mState`, which may differ between `StateTrackletEndMarker` and
`StateTrackletMCMHeader` when the word at the cursor of `pB` has neither of
the bits `0x80000001`. -/
def InStep (word : Nat) (pA pB : TrackletsParser) : Prop :=
  pA.mByteOrderFix = true ∧ pB.mByteOrderFix = false ∧
  (∀ j, word ≤ j → pB.mData[j]? = (pA.mData[j]?).map swapByteOrder) ∧
  pB.mIgnoreTrackletHCHeader = pA.mIgnoreTrackletHCHeader ∧
  pB.mDetector = pA.mDetector ∧ pB.mRobSide = pA.mRobSide ∧
  pB.mWordsRead = pA.mWordsRead ∧ pB.mTrackletsFound = pA.mTrackletsFound ∧
  pB.mTracklets = pA.mTracklets ∧ pB.mTrackletMCMHeader = pA.mTrackletMCMHeader ∧
  (∀ i, pA.mTrackletMCMHeader = some i → i < word ∧ pB.mData[i]? = pA.mData[i]?) ∧
  (pB.mState = pA.mState ∨
    ((pA.mState = TrackletParserState.StateTrackletEndMarker ∨
        pA.mState = TrackletParserState.StateTrackletMCMHeader) ∧
      (pB.mState = TrackletParserState.StateTrackletEndMarker ∨
        pB.mState = TrackletParserState.StateTrackletMCMHeader) ∧
      ∀ w, pB.mData[word]? = some w → w &&& 0x80000001 = 0))

/-! ## Byte order -/

theorem testBit_mask16 (j : Nat) :
    Nat.testBit 0x00FF0000 j = (decide (16 ≤ j) && decide (j < 24)) := by
  have h : (0x00FF0000 : Nat) = (2 ^ 8 - 1) <<< 16 := by decide
  rw [h, Nat.testBit_shiftLeft, Nat.testBit_two_pow_sub_one]
  by_cases h1 : 16 ≤ j <;> by_cases h2 : j < 24 <;> simp [h1, h2] <;> omega

theorem testBit_mask8 (j : Nat) :
    Nat.testBit 0x0000FF00 j = (decide (8 ≤ j) && decide (j < 16)) := by
  have h : (0x0000FF00 : Nat) = (2 ^ 8 - 1) <<< 8 := by decide
  rw [h, Nat.testBit_shiftLeft, Nat.testBit_two_pow_sub_one]
  by_cases h1 : 8 ≤ j <;> by_cases h2 : j < 16 <;> simp [h1, h2] <;> omega

theorem testBit_high (w k : Nat) (hw : w < 2 ^ 32) (hk : 32 ≤ k) : w.testBit k = false :=
  Nat.testBit_lt_two_pow (lt_of_lt_of_le hw (Nat.pow_le_pow_right (by decide) hk))

/-- Bit `j` of the swapped word, in terms of the bits of the argument. -/
theorem testBit_swapByteOrder (w j : Nat) (hw : w < 2 ^ 32) :
    (swapByteOrder w).testBit j =
      if j < 8 then w.testBit (j + 24)
      else if j < 16 then w.testBit (j + 8)
      else if j < 24 then w.testBit (j - 8)
      else if j < 32 then w.testBit (j - 24)
      else false := by
  have hhi := testBit_high w
  unfold swapByteOrder
  simp only [Nat.testBit_or, Nat.testBit_and, Nat.testBit_shiftRight, Nat.testBit_shiftLeft,
    Nat.testBit_mod_two_pow, testBit_mask16, testBit_mask8]
  by_cases h1 : j < 8
  · have a0 : 24 + j = j + 24 := by omega
    have a1 : ¬ (16 ≤ j) := by omega
    have a2 : ¬ (8 ≤ j) := by omega
    have a3 : ¬ (j ≥ 24) := by omega
    simp [h1, a1, a2, a3, a0]
  · by_cases h2 : j < 16
    · have a1 : ¬ (16 ≤ j) := by omega
      have a2 : (8 ≤ j) := by omega
      have a3 : ¬ (j ≥ 24) := by omega
      have a4 : 32 ≤ 24 + j := by omega
      have a5 : 8 + j = j + 8 := by omega
      simp [h1, h2, a1, a2, a3, a5, hhi _ hw a4]
    · by_cases h3 : j < 24
      · have a1 : (16 ≤ j) := by omega
        have a2 : (8 ≤ j) := by omega
        have a3 : ¬ (j ≥ 24) := by omega
        have a4 : 32 ≤ 24 + j := by omega
        have a5 : j < 32 := by omega
        simp [h1, h2, h3, a1, a2, a3, a5, hhi _ hw a4]
      · by_cases h4 : j < 32
        · have a3 : (j ≥ 24) := by omega
          have a4 : 32 ≤ 24 + j := by omega
          simp [h1, h2, h3, h4, a3, hhi _ hw a4]
        · have a4 : 32 ≤ 24 + j := by omega
          simp [h1, h2, h3, h4, hhi _ hw a4]

theorem swapByteOrder_lt (w : Nat) (hw : w < 2 ^ 32) : swapByteOrder w < 2 ^ 32 := by
  apply Nat.lt_pow_two_of_testBit
  intro i hi
  rw [testBit_swapByteOrder w i hw]
  have h0 : ¬ (i < 32) := by omega
  have h1 : ¬ (i < 8) := by omega
  have h2 : ¬ (i < 16) := by omega
  have h3 : ¬ (i < 24) := by omega
  simp [h0, h1, h2, h3]

theorem testBit_byteOf (w j i : Nat) :
    (byteOf w j).testBit i = (decide (i < 8) && w.testBit (8 * j + i)) := by
  unfold byteOf
  have h : (256 : Nat) = 2 ^ 8 := by decide
  rw [h, Nat.testBit_mod_two_pow, Nat.testBit_shiftRight]

/-- C8: `swapByteOrder` is self-inverse on 32-bit words. -/
theorem swapByteOrder_involutive (w : Nat) (hw : w < 2 ^ 32) :
    swapByteOrder (swapByteOrder w) = w := by
  apply Nat.eq_of_testBit_eq
  intro i
  rw [testBit_swapByteOrder _ i (swapByteOrder_lt w hw)]
  split_ifs with h1 h2 h3 h4
  · rw [testBit_swapByteOrder w _ hw]
    have b1 : ¬ (i + 24 < 8) := by omega
    have b2 : ¬ (i + 24 < 16) := by omega
    have b3 : ¬ (i + 24 < 24) := by omega
    have b4 : (i + 24 < 32) := by omega
    simp [b1, b2, b3, b4]
  · rw [testBit_swapByteOrder w _ hw]
    have b1 : ¬ (i + 8 < 8) := by omega
    have b2 : ¬ (i + 8 < 16) := by omega
    have b3 : (i + 8 < 24) := by omega
    simp [b1, b2, b3]
  · rw [testBit_swapByteOrder w _ hw]
    have b1 : ¬ (i - 8 < 8) := by omega
    have b2 : (i - 8 < 16) := by omega
    have b3 : i - 8 + 8 = i := by omega
    simp [b1, b2, b3]
  · rw [testBit_swapByteOrder w _ hw]
    have b1 : (i - 24 < 8) := by omega
    have b3 : i - 24 + 24 = i := by omega
    simp [b1, b3]
  · exact (testBit_high w i hw (by omega)).symm

/-- Witness for C8 at the word `0x12345678`. -/
theorem swapByteOrder_involutive_witness :
    (0x12345678 : Nat) < 2 ^ 32 ∧ swapByteOrder (swapByteOrder 0x12345678) = 0x12345678 :=
  ⟨by decide, swapByteOrder_involutive 0x12345678 (by decide)⟩

/-- C9: `swapByteOrder` reverses the four bytes of a 32-bit word (byte `j` of
the result is byte `3 - j` of the argument, and the result is again a 32-bit
word); the loop examines a stored word through `swapByteOrder` when
`mByteOrderFix` is set, and when it is not set the word is examined as it is
stored and the array is not written. -/
theorem swapByteOrder_reverses_bytes (w : Nat) (hw : w < 2 ^ 32) :
    (∀ j, j ≤ 3 → byteOf (swapByteOrder w) j = byteOf w (3 - j)) ∧
    swapByteOrder w < 2 ^ 32 ∧
    normalize true w = swapByteOrder w ∧ normalize false w = w ∧
    (∀ (p : TrackletsParser) (word : Nat), p.mByteOrderFix = false →
      normalize p.mByteOrderFix w = w ∧ storeSwapped p word w = p) := by
  refine ⟨?_, swapByteOrder_lt w hw, rfl, rfl, fun p word hf => by
    unfold storeSwapped normalize
    simp [hf]⟩
  intro j hj
  apply Nat.eq_of_testBit_eq
  intro i
  rw [testBit_byteOf, testBit_byteOf, testBit_swapByteOrder w _ hw]
  by_cases hi : i < 8
  · have hj4 : j = 0 ∨ j = 1 ∨ j = 2 ∨ j = 3 := by omega
    rcases hj4 with rfl | rfl | rfl | rfl
    · have c1 : 8 * 0 + i < 8 := by omega
      have c2 : 8 * 0 + i + 24 = 8 * (3 - 0) + i := by omega
      simp only [c1, c2, if_true]
    · have c1 : ¬ (8 * 1 + i < 8) := by omega
      have c2 : 8 * 1 + i < 16 := by omega
      have c3 : 8 * 1 + i + 8 = 8 * (3 - 1) + i := by omega
      simp only [c1, c2, c3, if_true, if_false]
    · have c1 : ¬ (8 * 2 + i < 8) := by omega
      have c2 : ¬ (8 * 2 + i < 16) := by omega
      have c3 : 8 * 2 + i < 24 := by omega
      have c4 : 8 * 2 + i - 8 = 8 * (3 - 2) + i := by omega
      simp only [c1, c2, c3, c4, if_true, if_false]
    · have c1 : ¬ (8 * 3 + i < 8) := by omega
      have c2 : ¬ (8 * 3 + i < 16) := by omega
      have c3 : ¬ (8 * 3 + i < 24) := by omega
      have c4 : 8 * 3 + i < 32 := by omega
      have c5 : 8 * 3 + i - 24 = 8 * (3 - 3) + i := by omega
      simp only [c1, c2, c3, c4, c5, if_true, if_false]
  · simp [hi]

/-- Witness for C9 at the word `0x12345678`, whose bytes are 0x12 0x34 0x56 0x78. -/
theorem swapByteOrder_reverses_bytes_witness :
    (0x12345678 : Nat) < 2 ^ 32 ∧ swapByteOrder 0x12345678 = 0x78563412 ∧
    ((∀ j, j ≤ 3 → byteOf (swapByteOrder 0x12345678) j = byteOf 0x12345678 (3 - j)) ∧
      swapByteOrder 0x12345678 < 2 ^ 32 ∧
      normalize true 0x12345678 = swapByteOrder 0x12345678 ∧
      normalize false 0x12345678 = 0x12345678 ∧
      (∀ (p : TrackletsParser) (word : Nat), p.mByteOrderFix = false →
        normalize p.mByteOrderFix 0x12345678 = 0x12345678 ∧
        storeSwapped p word 0x12345678 = p)) :=
  ⟨by decide, by decide, swapByteOrder_reverses_bytes 0x12345678 (by decide)⟩

/-! ## One pass through the loop body -/

theorem sameSetup_refl (p : TrackletsParser) : sameSetup p p :=
  ⟨rfl, rfl, rfl, rfl, rfl, rfl, rfl⟩

theorem sameSetup_trans {p q r : TrackletsParser} (h1 : sameSetup p q) (h2 : sameSetup q r) :
    sameSetup p r := by
  obtain ⟨a1, a2, a3, a4, a5, a6, a7⟩ := h1
  obtain ⟨b1, b2, b3, b4, b5, b6, b7⟩ := h2
  exact ⟨b1.trans a1, b2.trans a2, b3.trans a3, b4.trans a4, b5.trans a5, b6.trans a6,
    b7.trans a7⟩

@[simp] theorem storeSwapped_mState (p : TrackletsParser) (word w : Nat) :
    (storeSwapped p word w).mState = p.mState := by
  unfold storeSwapped; split <;> rfl

@[simp] theorem storeSwapped_mWordsRead (p : TrackletsParser) (word w : Nat) :
    (storeSwapped p word w).mWordsRead = p.mWordsRead := by
  unfold storeSwapped; split <;> rfl

@[simp] theorem storeSwapped_mTracklets (p : TrackletsParser) (word w : Nat) :
    (storeSwapped p word w).mTracklets = p.mTracklets := by
  unfold storeSwapped; split <;> rfl

@[simp] theorem storeSwapped_mTrackletsFound (p : TrackletsParser) (word w : Nat) :
    (storeSwapped p word w).mTrackletsFound = p.mTrackletsFound := by
  unfold storeSwapped; split <;> rfl

@[simp] theorem storeSwapped_mTrackletMCMHeader (p : TrackletsParser) (word w : Nat) :
    (storeSwapped p word w).mTrackletMCMHeader = p.mTrackletMCMHeader := by
  unfold storeSwapped; split <;> rfl

@[simp] theorem storeSwapped_mTrackletMCMData (p : TrackletsParser) (word w : Nat) :
    (storeSwapped p word w).mTrackletMCMData = p.mTrackletMCMData := by
  unfold storeSwapped; split <;> rfl

@[simp] theorem storeSwapped_mStartParse (p : TrackletsParser) (word w : Nat) :
    (storeSwapped p word w).mStartParse = p.mStartParse := by
  unfold storeSwapped; split <;> rfl

@[simp] theorem storeSwapped_mEndParse (p : TrackletsParser) (word w : Nat) :
    (storeSwapped p word w).mEndParse = p.mEndParse := by
  unfold storeSwapped; split <;> rfl

@[simp] theorem storeSwapped_policy (p : TrackletsParser) (word w : Nat) :
    (storeSwapped p word w).mTrackletHCHeaderState = p.mTrackletHCHeaderState := by
  unfold storeSwapped; split <;> rfl

@[simp] theorem storeSwapped_ignore (p : TrackletsParser) (word w : Nat) :
    (storeSwapped p word w).mIgnoreTrackletHCHeader = p.mIgnoreTrackletHCHeader := by
  unfold storeSwapped; split <;> rfl

@[simp] theorem storeSwapped_fix (p : TrackletsParser) (word w : Nat) :
    (storeSwapped p word w).mByteOrderFix = p.mByteOrderFix := by
  unfold storeSwapped; split <;> rfl

@[simp] theorem storeSwapped_mDetector (p : TrackletsParser) (word w : Nat) :
    (storeSwapped p word w).mDetector = p.mDetector := by
  unfold storeSwapped; split <;> rfl

@[simp] theorem storeSwapped_mRobSide (p : TrackletsParser) (word w : Nat) :
    (storeSwapped p word w).mRobSide = p.mRobSide := by
  unfold storeSwapped; split <;> rfl

@[simp] theorem storeSwapped_mCurrentLink (p : TrackletsParser) (word w : Nat) :
    (storeSwapped p word w).mCurrentLink = p.mCurrentLink := by
  unfold storeSwapped; split <;> rfl

theorem storeSwapped_getElem_ne (p : TrackletsParser) (word w j : Nat) (hj : j ≠ word) :
    (storeSwapped p word w).mData[j]? = p.mData[j]? := by
  unfold storeSwapped
  split
  · exact List.getElem?_set_ne (Ne.symm hj)
  · rfl

theorem storeSwapped_mData (p : TrackletsParser) (word raw : Nat)
    (hw : p.mData[word]? = some raw) :
    (storeSwapped p word (normalize p.mByteOrderFix raw)).mData = bufferAfter p word := by
  unfold storeSwapped bufferAfter normalize
  cases p.mByteOrderFix <;> simp [hw]

/-- The read through `mTrackletMCMHeader` after line 122. -/
theorem headerWord_storeSwapped (p : TrackletsParser) (word raw : Nat)
    (hw : p.mData[word]? = some raw) :
    headerWord (storeSwapped p word (normalize p.mByteOrderFix raw)) = activeHeader p word := by
  unfold headerWord activeHeader
  rw [storeSwapped_mTrackletMCMHeader, storeSwapped_mData p word raw hw]

theorem parseWord_finished (rd : RawData) (p : TrackletsParser) (word : Nat) (c h : Int)
    (hfin : p.mState = TrackletParserState.StateFinished) :
    parseWord rd p word c h = some (Outcome.ret p.mWordsRead p) := by
  unfold parseWord
  rw [if_pos hfin]

/-- A pass that has a result has loaded both of its words from the array. -/
theorem parseWord_loads {rd : RawData} {p : TrackletsParser} {word : Nat} {c h : Int}
    {o : Outcome} (hfin : p.mState ≠ TrackletParserState.StateFinished)
    (hstep : parseWord rd p word c h = some o) :
    ∃ raw nextraw, p.mData[word]? = some raw ∧ p.mData[word + 1]? = some nextraw := by
  unfold parseWord at hstep
  rw [if_neg hfin] at hstep
  cases hn : p.mData[word + 1]? with
  | none => simp [hn] at hstep
  | some nextraw =>
    cases hw : p.mData[word]? with
    | none => simp [hn, hw] at hstep
    | some raw => exact ⟨raw, nextraw, rfl, rfl⟩

/-- A pass has no result when one of its two loads leaves the array. -/
theorem parseWord_none_of_load {rd : RawData} {p : TrackletsParser} {word : Nat} {c h : Int}
    (hfin : p.mState ≠ TrackletParserState.StateFinished)
    (hload : p.mData[word]? = none ∨ p.mData[word + 1]? = none) :
    parseWord rd p word c h = none := by
  cases hstep : parseWord rd p word c h with
  | none => rfl
  | some o =>
    obtain ⟨raw, nextraw, hw, hn⟩ := parseWord_loads hfin hstep
    rcases hload with hl | hl
    · rw [hl] at hw
      cases hw
    · rw [hl] at hn
      cases hn

/-- A pass whose two loads at the cursor succeed, described by the branch it
takes: it has no result when the further load of that branch fails, and
otherwise it does what the branch says. -/
theorem parseWord_by_kind (rd : RawData) (p : TrackletsParser) (word raw nextraw : Nat)
    (c h : Int)
    (hfin : p.mState ≠ TrackletParserState.StateFinished)
    (hw : p.mData[word]? = some raw) (hn : p.mData[word + 1]? = some nextraw) :
    (¬ loadsDefined p word (passKind rd p (normalize p.mByteOrderFix raw)
        (normalize p.mByteOrderFix nextraw)) ∧ parseWord rd p word c h = none) ∨
    (loadsDefined p word (passKind rd p (normalize p.mByteOrderFix raw)
        (normalize p.mByteOrderFix nextraw)) ∧
    ∃ q, q.mData = bufferAfter p word ∧ sameSetup p q ∧
      q.mState = nextState (passKind rd p (normalize p.mByteOrderFix raw)
        (normalize p.mByteOrderFix nextraw)) c h nextraw ∧
      q.mTracklets = p.mTracklets ++ emitted rd (p.mDetector * 2 + p.mRobSide)
        (passKind rd p (normalize p.mByteOrderFix raw) (normalize p.mByteOrderFix nextraw))
        (activeHeader p word) (normalize p.mByteOrderFix raw) c ∧
      q.mTrackletsFound = p.mTrackletsFound + (emitted rd (p.mDetector * 2 + p.mRobSide)
        (passKind rd p (normalize p.mByteOrderFix raw) (normalize p.mByteOrderFix nextraw))
        (activeHeader p word) (normalize p.mByteOrderFix raw) c).length ∧
      q.mTrackletMCMHeader = nextHeader (passKind rd p (normalize p.mByteOrderFix raw)
        (normalize p.mByteOrderFix nextraw)) p.mTrackletMCMHeader word ∧
      ((passKind rd p (normalize p.mByteOrderFix raw) (normalize p.mByteOrderFix nextraw)
          = PassKind.endMarker ∧ q.mWordsRead = p.mWordsRead + 2 ∧
          parseWord rd p word c h = some (Outcome.ret (p.mWordsRead + 2) q)) ∨
        (passKind rd p (normalize p.mByteOrderFix raw) (normalize p.mByteOrderFix nextraw)
          ≠ PassKind.endMarker ∧ q.mWordsRead = p.mWordsRead + 1 ∧
          parseWord rd p word c h = some (Outcome.next q
            (nextCount (passKind rd p (normalize p.mByteOrderFix raw)
              (normalize p.mByteOrderFix nextraw)) c)
            (nextDeclared rd (passKind rd p (normalize p.mByteOrderFix raw)
              (normalize p.mByteOrderFix nextraw)) (normalize p.mByteOrderFix raw) h))))) := by
  have hb := storeSwapped_mData p word raw hw
  have hpeek := (storeSwapped_getElem_ne p word (normalize p.mByteOrderFix raw) (word + 1)
    (by omega)).trans hn
  have hthird := storeSwapped_getElem_ne p word (normalize p.mByteOrderFix raw) (word + 2)
    (by omega)
  have hhdr := headerWord_storeSwapped p word raw hw
  have hhdr2 : ∀ (s : TrackletParserState) (d : Option Nat) (n : Nat),
      headerWord { storeSwapped p word (normalize p.mByteOrderFix raw) with
        mState := s, mTrackletMCMData := d, mWordsRead := n } = activeHeader p word :=
    fun _ _ _ => hhdr
  unfold parseWord passKind
  rw [if_neg hfin]
  simp only [hw, hn, hhdr2]
  simp only [hpeek, hthird, storeSwapped_ignore, storeSwapped_mState, storeSwapped_mWordsRead]
  split_ifs with h1 h2 h3 h4 h5 h6
  · cases h2x : p.mData[word + 2]? with
    | none =>
      left
      exact ⟨by simp [loadsDefined, h2x], rfl⟩
    | some third =>
      right
      refine ⟨by simp [loadsDefined, h2x], _, ?_, ?_, ?_, ?_, ?_, ?_, Or.inl ⟨rfl, ?_, rfl⟩⟩
      · exact hb
      · simp [sameSetup]
      · rfl
      · simp [emitted]
      · simp [emitted]
      · simp [nextHeader]
      · simp
  · right
    refine ⟨trivial, _, ?_, ?_, ?_, ?_, ?_, ?_, Or.inr ⟨by decide, ?_, rfl⟩⟩
    · exact hb
    · simp [sameSetup]
    · simp [nextState]
    · simp [emitted]
    · simp [emitted]
    · simp [nextHeader]
    · simp
  · right
    refine ⟨trivial, _, ?_, ?_, ?_, ?_, ?_, ?_, Or.inr ⟨by decide, ?_, rfl⟩⟩
    · exact hb
    · simp [sameSetup]
    · simp [nextState]
    · simp [emitted]
    · simp [emitted]
    · simp [nextHeader]
    · simp
  · right
    refine ⟨trivial, _, ?_, ?_, ?_, ?_, ?_, ?_, Or.inr ⟨by decide, ?_, rfl⟩⟩
    · exact hb
    · simp [sameSetup]
    · simp [nextState]
    · simp [emitted]
    · simp [emitted]
    · simp [nextHeader]
    · simp
  all_goals
    cases hx : activeHeader p word with
    | none =>
      left
      exact ⟨by simp [loadsDefined, hx], rfl⟩
    | some header =>
      right
      refine ⟨by simp [loadsDefined, hx], _, ?_, ?_, ?_, ?_, ?_, ?_,
        Or.inr ⟨by decide, ?_, rfl⟩⟩
      · exact hb
      · simp [sameSetup]
      · simp [nextState, *]
      · simp [emitted, trackletOf]
      · simp [emitted]
      · simp [nextHeader]
      · simp

theorem passKind_endMarker_iff (rd : RawData) (p : TrackletsParser) (w nextwordcopy : Nat) :
    passKind rd p w nextwordcopy = PassKind.endMarker ↔
      (w = 0x10001000 ∧ nextwordcopy = 0x10001000) := by
  unfold passKind
  split_ifs with h1 <;> simp [h1]

theorem nextState_ne_finished (k : PassKind) (c h : Int) (nextraw : Nat) :
    nextState k c h nextraw ≠ TrackletParserState.StateFinished := by
  cases k <;> simp only [nextState] <;> (try split_ifs) <;> decide

theorem emitted_length (rd : RawData) (hcid : Int) (k : PassKind) (header : Option Nat)
    (w : Nat) (c : Int) :
    (emitted rd hcid k header w c).length =
      if k = PassKind.mcmData ∧ header ≠ none then 1 else 0 := by
  cases k <;> cases header <;> simp [emitted]

/-- A pass that has a result, described by the branch it takes. -/
theorem parseWord_some_by_kind {rd : RawData} {p : TrackletsParser} {word : Nat} {c h : Int}
    {o : Outcome} (hfin : p.mState ≠ TrackletParserState.StateFinished)
    (hstep : parseWord rd p word c h = some o) :
    ∃ raw nextraw, p.mData[word]? = some raw ∧ p.mData[word + 1]? = some nextraw ∧
      loadsDefined p word (passKind rd p (normalize p.mByteOrderFix raw)
        (normalize p.mByteOrderFix nextraw)) ∧
      o.parser.mData = bufferAfter p word ∧ sameSetup p o.parser ∧
      o.parser.mState = nextState (passKind rd p (normalize p.mByteOrderFix raw)
        (normalize p.mByteOrderFix nextraw)) c h nextraw ∧
      o.parser.mTracklets = p.mTracklets ++ emitted rd (p.mDetector * 2 + p.mRobSide)
        (passKind rd p (normalize p.mByteOrderFix raw) (normalize p.mByteOrderFix nextraw))
        (activeHeader p word) (normalize p.mByteOrderFix raw) c ∧
      o.parser.mTrackletsFound = p.mTrackletsFound + (emitted rd (p.mDetector * 2 + p.mRobSide)
        (passKind rd p (normalize p.mByteOrderFix raw) (normalize p.mByteOrderFix nextraw))
        (activeHeader p word) (normalize p.mByteOrderFix raw) c).length ∧
      o.parser.mTrackletMCMHeader = nextHeader (passKind rd p (normalize p.mByteOrderFix raw)
        (normalize p.mByteOrderFix nextraw)) p.mTrackletMCMHeader word ∧
      ((passKind rd p (normalize p.mByteOrderFix raw) (normalize p.mByteOrderFix nextraw)
          = PassKind.endMarker ∧ o.parser.mWordsRead = p.mWordsRead + 2 ∧
          o = Outcome.ret (p.mWordsRead + 2) o.parser) ∨
        (passKind rd p (normalize p.mByteOrderFix raw) (normalize p.mByteOrderFix nextraw)
          ≠ PassKind.endMarker ∧ o.parser.mWordsRead = p.mWordsRead + 1 ∧
          o = Outcome.next o.parser
            (nextCount (passKind rd p (normalize p.mByteOrderFix raw)
              (normalize p.mByteOrderFix nextraw)) c)
            (nextDeclared rd (passKind rd p (normalize p.mByteOrderFix raw)
              (normalize p.mByteOrderFix nextraw)) (normalize p.mByteOrderFix raw) h))) := by
  obtain ⟨raw, nextraw, hw, hn⟩ := parseWord_loads hfin hstep
  rcases parseWord_by_kind rd p word raw nextraw c h hfin hw hn with
    ⟨-, hnone⟩ | ⟨hld, q, a1, a2, a3, a4, a5, a6, a7⟩
  · rw [hnone] at hstep
    cases hstep
  · rcases a7 with ⟨hk, hwr, heq⟩ | ⟨hk, hwr, heq⟩
    · rw [heq] at hstep
      simp only [Option.some.injEq] at hstep
      subst hstep
      exact ⟨raw, nextraw, hw, hn, hld, a1, a2, a3, a4, a5, a6, Or.inl ⟨hk, hwr, rfl⟩⟩
    · rw [heq] at hstep
      simp only [Option.some.injEq] at hstep
      subst hstep
      exact ⟨raw, nextraw, hw, hn, hld, a1, a2, a3, a4, a5, a6, Or.inr ⟨hk, hwr, rfl⟩⟩

/-- A pass that reaches the end of the loop body, described by the branch it
takes. -/
theorem parseWord_next_by_kind {rd : RawData} {p q : TrackletsParser} {word : Nat}
    {c h c1 h1 : Int} (hstep : parseWord rd p word c h = some (Outcome.next q c1 h1)) :
    ∃ raw nextraw, p.mData[word]? = some raw ∧ p.mData[word + 1]? = some nextraw ∧
      passKind rd p (normalize p.mByteOrderFix raw) (normalize p.mByteOrderFix nextraw)
        ≠ PassKind.endMarker ∧
      c1 = nextCount (passKind rd p (normalize p.mByteOrderFix raw)
        (normalize p.mByteOrderFix nextraw)) c ∧
      h1 = nextDeclared rd (passKind rd p (normalize p.mByteOrderFix raw)
        (normalize p.mByteOrderFix nextraw)) (normalize p.mByteOrderFix raw) h ∧
      q.mState = nextState (passKind rd p (normalize p.mByteOrderFix raw)
        (normalize p.mByteOrderFix nextraw)) c h nextraw ∧
      q.mTracklets = p.mTracklets ++ emitted rd (p.mDetector * 2 + p.mRobSide)
        (passKind rd p (normalize p.mByteOrderFix raw) (normalize p.mByteOrderFix nextraw))
        (activeHeader p word) (normalize p.mByteOrderFix raw) c ∧
      q.mTrackletMCMHeader = nextHeader (passKind rd p (normalize p.mByteOrderFix raw)
        (normalize p.mByteOrderFix nextraw)) p.mTrackletMCMHeader word ∧
      loadsDefined p word (passKind rd p (normalize p.mByteOrderFix raw)
        (normalize p.mByteOrderFix nextraw)) := by
  have hfin : p.mState ≠ TrackletParserState.StateFinished := by
    intro hf
    rw [parseWord_finished rd p word c h hf] at hstep
    cases hstep
  obtain ⟨raw, nextraw, hw, hn, hld, a1, a2, a3, a4, a5, a6, a7⟩ :=
    parseWord_some_by_kind hfin hstep
  rcases a7 with ⟨-, -, heq⟩ | ⟨hk, -, heq⟩
  · cases heq
  · simp only [Outcome.parser, Outcome.next.injEq, true_and] at heq
    exact ⟨raw, nextraw, hw, hn, hk, heq.1, heq.2, a3, a4, a6, hld⟩

/-- What a pass that reaches the end of the loop body has done. -/
theorem parseWord_next {rd : RawData} {p q : TrackletsParser} {word : Nat} {c h c1 h1 : Int}
    (hstep : parseWord rd p word c h = some (Outcome.next q c1 h1)) :
    word + 1 < p.mData.length ∧
    p.mState ≠ TrackletParserState.StateFinished ∧
    q.mState ≠ TrackletParserState.StateFinished ∧
    ¬ ((p.mData[word]?).map (normalize p.mByteOrderFix) = some 0x10001000 ∧
       (p.mData[word + 1]?).map (normalize p.mByteOrderFix) = some 0x10001000) ∧
    q.mData = bufferAfter p word ∧
    q.mWordsRead = p.mWordsRead + 1 ∧
    sameSetup p q ∧
    ((q.mTracklets = p.mTracklets ∧ q.mTrackletsFound = p.mTrackletsFound) ∨
      ∃ t : Tracklet64, q.mTracklets = p.mTracklets ++ [t] ∧
        q.mTrackletsFound = p.mTrackletsFound + 1 ∧
        t.format = 4 ∧ t.hcid = p.mDetector * 2 + p.mRobSide) := by
  have hfin : p.mState ≠ TrackletParserState.StateFinished := by
    intro hf
    rw [parseWord_finished rd p word c h hf] at hstep
    cases hstep
  obtain ⟨raw, nextraw, hw, hn, hld, a1, a2, a3, a4, a5, a6, a7⟩ :=
    parseWord_some_by_kind hfin hstep
  simp only [Outcome.parser] at a1 a2 a3 a4 a5 a6 a7
  have hlt : word + 1 < p.mData.length := by
    by_contra hge
    rw [List.getElem?_eq_none (by omega)] at hn
    cases hn
  rcases a7 with ⟨-, -, heq⟩ | ⟨hk, hwr, -⟩
  · cases heq
  · refine ⟨hlt, hfin, by rw [a3]; exact nextState_ne_finished _ _ _ _, ?_, a1, hwr, a2, ?_⟩
    · intro hp
      rw [hw, hn] at hp
      simp only [Option.map_some', Option.some.injEq] at hp
      exact hk ((passKind_endMarker_iff rd p _ _).2 hp)
    · generalize passKind rd p (normalize p.mByteOrderFix raw)
        (normalize p.mByteOrderFix nextraw) = k at a4 a5
      cases k <;> cases hx : activeHeader p word <;>
        simp only [hx, emitted, List.append_nil, List.length_nil, List.length_singleton,
          Nat.add_zero] at a4 a5
      all_goals first
        | exact Or.inl ⟨a4, a5⟩
        | exact Or.inr ⟨_, a4, a5, rfl, rfl⟩

/-- The module header reference after a pass that reaches the end of the loop
body: as before, or the cursor. -/
theorem parseWord_next_header {rd : RawData} {p q : TrackletsParser} {word : Nat}
    {c h c1 h1 : Int} (hstep : parseWord rd p word c h = some (Outcome.next q c1 h1)) :
    q.mTrackletMCMHeader = p.mTrackletMCMHeader ∨ q.mTrackletMCMHeader = some word := by
  obtain ⟨raw, nextraw, -, -, -, -, -, -, -, a6, -⟩ := parseWord_next_by_kind hstep
  rw [a6]
  cases passKind rd p (normalize p.mByteOrderFix raw) (normalize p.mByteOrderFix nextraw) <;>
    simp [nextHeader]

/-- What a pass that executes the `return` of the end-marker branch has done. -/
theorem parseWord_ret {rd : RawData} {p q : TrackletsParser} {word v : Nat} {c h : Int}
    (hfin : p.mState ≠ TrackletParserState.StateFinished)
    (hstep : parseWord rd p word c h = some (Outcome.ret v q)) :
    word + 2 < p.mData.length ∧
    ((p.mData[word]?).map (normalize p.mByteOrderFix) = some 0x10001000 ∧
       (p.mData[word + 1]?).map (normalize p.mByteOrderFix) = some 0x10001000) ∧
    v = p.mWordsRead + 2 ∧
    q.mWordsRead = p.mWordsRead + 2 ∧
    q.mState = TrackletParserState.StateTrackletEndMarker ∧
    q.mData = bufferAfter p word ∧
    sameSetup p q ∧
    q.mTracklets = p.mTracklets ∧ q.mTrackletsFound = p.mTrackletsFound ∧
    q.mTrackletMCMHeader = p.mTrackletMCMHeader := by
  obtain ⟨raw, nextraw, hw, hn, hld, a1, a2, a3, a4, a5, a6, a7⟩ :=
    parseWord_some_by_kind hfin hstep
  simp only [Outcome.parser] at a1 a2 a3 a4 a5 a6 a7
  rcases a7 with ⟨hk, hwr, heq⟩ | ⟨-, -, heq⟩
  · simp only [Outcome.ret.injEq, and_true] at heq
    rw [hk] at a3 a4 a5 a6 hld
    simp only [emitted, List.append_nil, List.length_nil, Nat.add_zero, nextState,
      nextHeader, loadsDefined] at a3 a4 a5 a6 hld
    have hlt : word + 2 < p.mData.length := by
      by_contra hge
      exact hld (List.getElem?_eq_none (by omega))
    refine ⟨hlt, ?_, heq, hwr, a3, a1, a2, a4, a5, a6⟩
    rw [hw, hn]
    simp only [Option.map_some', Option.some.injEq]
    exact (passKind_endMarker_iff rd p _ _).1 hk
  · cases heq

/-- With the loads of its branch inside the array the loop body has a result,
and it is the end-marker `return` exactly when the two examined words are end
markers. -/
theorem parseWord_defined (rd : RawData) (p : TrackletsParser) (word raw nextraw : Nat)
    (c h : Int)
    (hfin : p.mState ≠ TrackletParserState.StateFinished)
    (hw : p.mData[word]? = some raw) (hn : p.mData[word + 1]? = some nextraw)
    (hld : loadsDefined p word (passKind rd p (normalize p.mByteOrderFix raw)
      (normalize p.mByteOrderFix nextraw))) :
    ((normalize p.mByteOrderFix raw = 0x10001000 ∧
        normalize p.mByteOrderFix nextraw = 0x10001000) ∧
      ∃ q, parseWord rd p word c h = some (Outcome.ret (p.mWordsRead + 2) q)) ∨
    (¬ (normalize p.mByteOrderFix raw = 0x10001000 ∧
        normalize p.mByteOrderFix nextraw = 0x10001000) ∧
      ∃ q c1 h1, parseWord rd p word c h = some (Outcome.next q c1 h1)) := by
  rcases parseWord_by_kind rd p word raw nextraw c h hfin hw hn with
    ⟨hnl, -⟩ | ⟨-, q, -, -, -, -, -, -, a7⟩
  · exact absurd hld hnl
  · rcases a7 with ⟨hk, -, heq⟩ | ⟨hk, -, heq⟩
    · exact Or.inl ⟨(passKind_endMarker_iff rd p _ _).1 hk, q, heq⟩
    · exact Or.inr ⟨fun hp => hk ((passKind_endMarker_iff rd p _ _).2 hp), q, _, _, heq⟩

/-! ## The loop -/

theorem bufferAfter_length (p : TrackletsParser) (word : Nat) :
    (bufferAfter p word).length = p.mData.length := by
  unfold bufferAfter
  split <;> simp

theorem bufferAfter_getElem (p : TrackletsParser) (word j : Nat) :
    (bufferAfter p word)[j]? =
      if p.mByteOrderFix = true ∧ word ≤ j ∧ j < word + 1 then
        (p.mData[j]?).map swapByteOrder
      else p.mData[j]? := by
  unfold bufferAfter
  by_cases hfix : p.mByteOrderFix = true
  · by_cases hj : j = word
    · subst hj
      by_cases hlt : j < p.mData.length
      · simp [hfix, List.getElem?_set_self hlt, List.getElem?_eq_getElem hlt]
      · have hn : p.mData[j]? = none := List.getElem?_eq_none (by omega)
        simp [hfix, hn, List.getElem?_set]
        omega
    · have h2 : ¬ (word ≤ j ∧ j < word + 1) := by omega
      simp [hfix, h2, List.getElem?_set_ne (Ne.symm hj)]
  · simp [hfix]

theorem Swept_zero (p : TrackletsParser) (word : Nat) : Swept p p word 0 := by
  refine ⟨rfl, fun j => ?_⟩
  have h : ¬ (p.mByteOrderFix = true ∧ word ≤ j ∧ j < word + 0) := by omega
  rw [if_neg h]

theorem Swept_step {p p1 q : TrackletsParser} {word k : Nat}
    (hfix : p1.mByteOrderFix = p.mByteOrderFix)
    (h1 : p1.mData = bufferAfter p word) (h2 : Swept p1 q (word + 1) k) :
    Swept p q word (k + 1) := by
  obtain ⟨hl, hg⟩ := h2
  refine ⟨by rw [hl, h1, bufferAfter_length], fun j => ?_⟩
  rw [hg j, h1, bufferAfter_getElem, hfix]
  by_cases hf : p.mByteOrderFix = true
  · by_cases ha : j = word
    · have c1 : ¬ (word + 1 ≤ j ∧ j < word + 1 + k) := by omega
      have c2 : word ≤ j ∧ j < word + 1 := by omega
      have c3 : word ≤ j ∧ j < word + (k + 1) := by omega
      simp [hf, c1, c2, c3]
    · by_cases hb : word + 1 ≤ j ∧ j < word + 1 + k
      · have c2 : ¬ (word ≤ j ∧ j < word + 1) := by omega
        have c3 : word ≤ j ∧ j < word + (k + 1) := by omega
        rw [if_pos ⟨hf, hb⟩, if_neg (fun hx => c2 hx.2), if_pos ⟨hf, c3⟩]
      · have c2 : ¬ (word ≤ j ∧ j < word + 1) := by omega
        have c3 : ¬ (word ≤ j ∧ j < word + (k + 1)) := by omega
        rw [if_neg (fun hx => hb hx.2), if_neg (fun hx => c2 hx.2), if_neg (fun hx => c3 hx.2)]
  · simp [hf]

theorem Swept_getElem_ge {p q : TrackletsParser} {word k : Nat} (h : Swept p q word k)
    (j : Nat) (hj : word + k ≤ j) : q.mData[j]? = p.mData[j]? := by
  rw [h.2 j]
  have c : ¬ (p.mByteOrderFix = true ∧ word ≤ j ∧ j < word + k) := by omega
  rw [if_neg c]

theorem pairAt_of_swept {p q : TrackletsParser} {word k : Nat} (h : Swept p q word k)
    (j : Nat) (hj : word + k ≤ j) (fix : Bool) :
    pairAt fix q.mData j ↔ pairAt fix p.mData j := by
  unfold pairAt
  rw [Swept_getElem_ge h j hj, Swept_getElem_ge h (j + 1) (by omega)]

theorem Emitted_zero (p : TrackletsParser) : Emitted p p 0 :=
  ⟨[], by simp, by simp, by simp, by simp⟩

theorem Emitted_step {p p1 q : TrackletsParser} {k : Nat}
    (hs : sameSetup p p1)
    (h1 : (p1.mTracklets = p.mTracklets ∧ p1.mTrackletsFound = p.mTrackletsFound) ∨
      ∃ t : Tracklet64, p1.mTracklets = p.mTracklets ++ [t] ∧
        p1.mTrackletsFound = p.mTrackletsFound + 1 ∧
        t.format = 4 ∧ t.hcid = p.mDetector * 2 + p.mRobSide)
    (h2 : Emitted p1 q k) : Emitted p q (k + 1) := by
  obtain ⟨new, e1, e2, e3, e4⟩ := h2
  obtain ⟨-, -, -, -, -, hd, hr⟩ := hs
  rw [hd, hr] at e4
  rcases h1 with ⟨a1, a2⟩ | ⟨t, a1, a2, a3, a4⟩
  · exact ⟨new, by rw [e1, a1], by omega, by rw [e3, a2], e4⟩
  · refine ⟨t :: new, by rw [e1, a1]; simp, by simp; omega, by rw [e3, a2]; simp; omega, ?_⟩
    intro u hu
    rcases List.mem_cons.1 hu with rfl | hu
    · exact ⟨a3, a4⟩
    · exact e4 u hu

/-- What `k` passes that all reach the end of the loop body have done. -/
theorem parseLoop_next {rd : RawData} :
    ∀ (k word : Nat) (c h : Int) (p q : TrackletsParser) (c1 h1 : Int),
      parseLoop rd k word c h p = some (Outcome.next q c1 h1) →
      (k = 0 ∨ word + k < p.mData.length) ∧
      (p.mState ≠ TrackletParserState.StateFinished →
        q.mState ≠ TrackletParserState.StateFinished) ∧
      (∀ j, word ≤ j → j < word + k → ¬ pairAt p.mByteOrderFix p.mData j) ∧
      q.mWordsRead = p.mWordsRead + k ∧
      sameSetup p q ∧ Swept p q word k ∧ Emitted p q k := by
  intro k
  induction k with
  | zero =>
    intro word c h p q c1 h1 hrun
    simp only [parseLoop, Option.some.injEq, Outcome.next.injEq] at hrun
    obtain ⟨rfl, rfl, rfl⟩ := hrun
    exact ⟨Or.inl rfl, fun hf => hf, fun j h1 h2 => by omega, rfl, sameSetup_refl _,
      Swept_zero _ _, Emitted_zero _⟩
  | succ k ih =>
    intro word c h p q c1 h1 hrun
    rw [parseLoop] at hrun
    cases hstep : parseWord rd p word c h with
    | none => simp [hstep] at hrun
    | some o =>
      cases o with
      | ret v p1 => simp [hstep] at hrun
      | next p1 c2 h2 =>
        simp only [hstep] at hrun
        obtain ⟨a1, a2, a3, a4, a5, a6, a7, a8⟩ := parseWord_next hstep
        obtain ⟨b1, b2, b3, b4, b5, b6, b7⟩ := ih (word + 1) c2 h2 p1 q c1 h1 hrun
        have hfix : p1.mByteOrderFix = p.mByteOrderFix := a7.2.2.2.2.1
        have hlen : p1.mData.length = p.mData.length := by rw [a5, bufferAfter_length]
        have hsw1 : Swept p p1 word 1 := Swept_step hfix a5 (Swept_zero _ _)
        refine ⟨Or.inr ?_, fun _ => b2 a3, ?_, by rw [b4, a6]; omega, sameSetup_trans a7 b5,
          Swept_step hfix a5 b6, Emitted_step a7 a8 b7⟩
        · rcases b1 with rfl | b1
          · omega
          · rw [hlen] at b1; omega
        · intro j hj1 hj2
          by_cases hjw : j = word
          · subst hjw
            exact a4
          · have := b3 j (by omega) (by omega)
            rw [hfix, pairAt_of_swept hsw1 j (by omega)] at this
            exact this

theorem Swept_snoc {p q0 q : TrackletsParser} {word k : Nat}
    (hfix : q0.mByteOrderFix = p.mByteOrderFix)
    (h1 : Swept p q0 word k) (h2 : q.mData = bufferAfter q0 (word + k)) :
    Swept p q word (k + 1) := by
  obtain ⟨hl, hg⟩ := h1
  refine ⟨by rw [h2, bufferAfter_length, hl], fun j => ?_⟩
  rw [h2, bufferAfter_getElem, hfix, hg j]
  by_cases hf : p.mByteOrderFix = true
  · by_cases ha : j = word + k
    · have c1 : ¬ (word ≤ j ∧ j < word + k) := by omega
      have c2 : word + k ≤ j ∧ j < word + k + 1 := by omega
      have c3 : word ≤ j ∧ j < word + (k + 1) := by omega
      rw [if_pos ⟨hf, c2⟩, if_neg (fun hx => c1 hx.2), if_pos ⟨hf, c3⟩]
    · have c2 : ¬ (word + k ≤ j ∧ j < word + k + 1) := by omega
      rw [if_neg (fun hx => c2 hx.2)]
      by_cases hb : word ≤ j ∧ j < word + k
      · have c3 : word ≤ j ∧ j < word + (k + 1) := by omega
        rw [if_pos ⟨hf, hb⟩, if_pos ⟨hf, c3⟩]
      · have c3 : ¬ (word ≤ j ∧ j < word + (k + 1)) := by omega
        rw [if_neg (fun hx => hb hx.2), if_neg (fun hx => c3 hx.2)]
  · simp [hf]

/-- The loop over `a + b` words is the loop over `a` words followed, when none
of them returned, by the loop over the next `b` words. -/
theorem parseLoop_add (rd : RawData) :
    ∀ (a b word : Nat) (c h : Int) (p : TrackletsParser),
      parseLoop rd (a + b) word c h p =
        match parseLoop rd a word c h p with
        | some (Outcome.next q c1 h1) => parseLoop rd b (word + a) c1 h1 q
        | some (Outcome.ret v q) => some (Outcome.ret v q)
        | none => none := by
  intro a
  induction a with
  | zero =>
    intro b word c h p
    simp [parseLoop]
  | succ a ih =>
    intro b word c h p
    rw [Nat.succ_add, parseLoop, parseLoop]
    cases hstep : parseWord rd p word c h with
    | none => rfl
    | some o =>
      cases o with
      | ret v p1 => rfl
      | next p1 c2 h2 =>
        simp only
        rw [ih b (word + 1) c2 h2 p1]
        have e : word + 1 + a = word + (a + 1) := by omega
        rw [e]

theorem parseLoop_add_next {rd : RawData} {a word : Nat} {c h c1 h1 : Int}
    {p q : TrackletsParser} (b : Nat)
    (hrun : parseLoop rd a word c h p = some (Outcome.next q c1 h1)) :
    parseLoop rd (a + b) word c h p = parseLoop rd b (word + a) c1 h1 q := by
  rw [parseLoop_add, hrun]

/-- A loop that returns from inside has made `i` full passes and returned in
the pass after them. -/
theorem parseLoop_ret_split {rd : RawData} :
    ∀ (r word : Nat) (c h : Int) (p q : TrackletsParser) (v : Nat),
      parseLoop rd r word c h p = some (Outcome.ret v q) →
      ∃ (i : Nat) (q0 : TrackletsParser) (c0 h0 : Int), i < r ∧
        parseLoop rd i word c h p = some (Outcome.next q0 c0 h0) ∧
        parseWord rd q0 (word + i) c0 h0 = some (Outcome.ret v q) := by
  intro r
  induction r with
  | zero =>
    intro word c h p q v hrun
    simp [parseLoop] at hrun
  | succ r ih =>
    intro word c h p q v hrun
    rw [parseLoop] at hrun
    cases hstep : parseWord rd p word c h with
    | none => simp [hstep] at hrun
    | some o =>
      cases o with
      | ret v1 p1 =>
        simp only [hstep, Option.some.injEq, Outcome.ret.injEq] at hrun
        obtain ⟨rfl, rfl⟩ := hrun
        exact ⟨0, p, c, h, by omega, by simp [parseLoop], by simpa using hstep⟩
      | next p1 c2 h2 =>
        simp only [hstep] at hrun
        obtain ⟨i, q0, c0, h0, hi, hrun0, hlast⟩ := ih (word + 1) c2 h2 p1 q v hrun
        refine ⟨i + 1, q0, c0, h0, by omega, ?_, ?_⟩
        · rw [parseLoop, hstep]
          exact hrun0
        · have e : word + (i + 1) = word + 1 + i := by omega
          rw [e]
          exact hlast

theorem events_cons (rd : RawData) (p : TrackletsParser) (r word raw nextraw : Nat) (c h : Int)
    (hfin : p.mState ≠ TrackletParserState.StateFinished)
    (hw : p.mData[word]? = some raw) (hn : p.mData[word + 1]? = some nextraw) :
    events rd (r + 1) word c h p =
      (passKind rd p (normalize p.mByteOrderFix raw) (normalize p.mByteOrderFix nextraw),
          normalize p.mByteOrderFix raw, activeHeader p word) ::
        (match parseWord rd p word c h with
          | some (Outcome.next q c1 h1) => events rd r (word + 1) c1 h1 q
          | _ => []) := by
  rw [events, if_neg hfin]
  simp only [hw, hn]

/-- The loop has a result when the lookahead of every pass is inside the
array, the word after every end-marker pair is inside the array, and the read
through `mTrackletMCMHeader` has a result in every pass that takes the data
branch. -/
theorem parseLoop_defined (rd : RawData) :
    ∀ (r word : Nat) (c h : Int) (p : TrackletsParser),
      p.mState ≠ TrackletParserState.StateFinished →
      (r = 0 ∨ word + r < p.mData.length) →
      (∀ j, word ≤ j → j < word + r → pairAt p.mByteOrderFix p.mData j →
        (∀ i, word ≤ i → i < j → ¬ pairAt p.mByteOrderFix p.mData i) →
        j + 2 < p.mData.length) →
      (∀ e ∈ events rd r word c h p, e.1 = PassKind.mcmData → e.2.2 ≠ none) →
      ∃ o, parseLoop rd r word c h p = some o := by
  intro r
  induction r with
  | zero =>
    intro word c h p _ _ _ _
    exact ⟨_, rfl⟩
  | succ r ih =>
    intro word c h p hfin hlen hthird hhdr
    have hlt : word + 1 < p.mData.length := by omega
    have hn : p.mData[word + 1]? = some (p.mData[word + 1]) := List.getElem?_eq_getElem hlt
    have hw : p.mData[word]? = some (p.mData[word]) := List.getElem?_eq_getElem (by omega)
    rw [events_cons rd p r word _ _ c h hfin hw hn] at hhdr
    have hld : loadsDefined p word (passKind rd p (normalize p.mByteOrderFix (p.mData[word]))
        (normalize p.mByteOrderFix (p.mData[word + 1]))) := by
      have h0 := hhdr _ (List.mem_cons_self _ _)
      have hp := passKind_endMarker_iff rd p (normalize p.mByteOrderFix (p.mData[word]))
        (normalize p.mByteOrderFix (p.mData[word + 1]))
      generalize passKind rd p (normalize p.mByteOrderFix (p.mData[word]))
        (normalize p.mByteOrderFix (p.mData[word + 1])) = k at h0 hp ⊢
      cases k
      case endMarker =>
        have h2 := hthird word (le_refl _) (by omega) (by
          unfold pairAt
          rw [hw, hn]
          simp only [Option.map_some', Option.some.injEq]
          exact hp.1 rfl) (fun i h1 h2 => by omega)
        unfold loadsDefined
        rw [List.getElem?_eq_getElem h2]
        simp
      case mcmData => exact h0 rfl
      all_goals exact trivial
    rw [parseLoop]
    rcases parseWord_defined rd p word _ _ c h hfin hw hn hld with
      ⟨_, q, hq⟩ | ⟨hnp, q, c1, h1, hq⟩
    · rw [hq]
      exact ⟨_, rfl⟩
    · rw [hq]
      have hnp0 : ¬ pairAt p.mByteOrderFix p.mData word := by
        unfold pairAt
        rw [hw, hn]
        simpa using hnp
      obtain ⟨-, -, a3, -, a5, -, a7, -⟩ := parseWord_next hq
      have hfix : q.mByteOrderFix = p.mByteOrderFix := a7.2.2.2.2.1
      have hsw1 : Swept p q word 1 := Swept_step hfix a5 (Swept_zero _ _)
      apply ih (word + 1) c1 h1 q a3
      · right
        rw [a5, bufferAfter_length]
        omega
      · intro j hj1 hj2 hp hfirst
        rw [hfix, pairAt_of_swept hsw1 j (by omega)] at hp
        rw [a5, bufferAfter_length]
        refine hthird j (by omega) (by omega) hp (fun i hi1 hi2 => ?_)
        by_cases hiw : i = word
        · rw [hiw]
          exact hnp0
        · have := hfirst i (by omega) hi2
          rw [hfix, pairAt_of_swept hsw1 i (by omega)] at this
          exact this
      · intro e he
        apply hhdr e
        rw [hq]
        exact List.mem_cons_of_mem _ he

/-- What a loop that returns from inside has done: `i` full passes over words
that start no end-marker pair, then the pair at `word + i`. -/
theorem parseLoop_ret {rd : RawData} {r word : Nat} {c h : Int} {p q : TrackletsParser}
    {v : Nat} (hfin : p.mState ≠ TrackletParserState.StateFinished)
    (hrun : parseLoop rd r word c h p = some (Outcome.ret v q)) :
    ∃ i, i < r ∧ word + i + 2 < p.mData.length ∧
      (∀ j, word ≤ j → j < word + i → ¬ pairAt p.mByteOrderFix p.mData j) ∧
      pairAt p.mByteOrderFix p.mData (word + i) ∧
      v = p.mWordsRead + i + 2 ∧ q.mWordsRead = v ∧
      q.mState = TrackletParserState.StateTrackletEndMarker ∧
      sameSetup p q ∧ Swept p q word (i + 1) ∧ Emitted p q i := by
  obtain ⟨i, q0, c0, h0, hi, hrun0, hlast⟩ := parseLoop_ret_split r word c h p q v hrun
  obtain ⟨b1, b2, b3, b4, b5, b6, b7⟩ := parseLoop_next i word c h p q0 c0 h0 hrun0
  obtain ⟨a1, a2, a3, a4, a5, a6, a7, a8, a9, -⟩ := parseWord_ret (b2 hfin) hlast
  have hfix : q0.mByteOrderFix = p.mByteOrderFix := b5.2.2.2.2.1
  have hpair : pairAt p.mByteOrderFix p.mData (word + i) := by
    rw [← pairAt_of_swept b6 (word + i) (le_refl _), ← hfix]
    exact a2
  refine ⟨i, hi, by rw [← b6.1]; exact a1, b3, hpair, by rw [a3, b4], by rw [a4, a3],
    a5, sameSetup_trans b5 a7, Swept_snoc hfix b6 a6, ?_⟩
  obtain ⟨new, e1, e2, e3, e4⟩ := b7
  exact ⟨new, by rw [a8, e1], e2, by rw [a9, e3], e4⟩


/-- The passes of a shorter loop are passes of the longer loop. -/
theorem events_mem_add (rd : RawData) :
    ∀ (a b word : Nat) (c h : Int) (p : TrackletsParser) (e : PassKind × Nat × Option Nat),
      e ∈ events rd a word c h p → e ∈ events rd (a + b) word c h p := by
  intro a
  induction a with
  | zero =>
    intro b word c h p e he
    simp [events] at he
  | succ a ih =>
    intro b word c h p e he
    by_cases hfin : p.mState = TrackletParserState.StateFinished
    · rw [events, if_pos hfin] at he
      simp at he
    · cases hn : p.mData[word + 1]? with
      | none =>
        rw [events, if_neg hfin] at he
        simp [hn] at he
      | some nextraw =>
        cases hw : p.mData[word]? with
        | none =>
          rw [events, if_neg hfin] at he
          simp [hn, hw] at he
        | some raw =>
          rw [events_cons rd p a word raw nextraw c h hfin hw hn] at he
          rw [Nat.succ_add, events_cons rd p (a + b) word raw nextraw c h hfin hw hn]
          rcases List.mem_cons.1 he with he | he
          · rw [he]
            exact List.mem_cons_self _ _
          · apply List.mem_cons_of_mem
            cases hstep : parseWord rd p word c h with
            | none => simp [hstep] at he
            | some o =>
              cases o with
              | ret v q => simp [hstep] at he
              | next q c1 h1 =>
                simp only [hstep] at he ⊢
                exact ih b (word + 1) c1 h1 q e he
/-! ## The branches of the loop body -/

/-- The loads of a pass in terms of the words from the cursor on. -/
theorem getElem_of_drop {buf : List Nat} {word raw nextraw : Nat} {rest : List Nat}
    (h : buf.drop word = raw :: nextraw :: rest) :
    buf[word]? = some raw ∧ buf[word + 1]? = some nextraw := by
  have h0 := List.getElem?_drop (L := buf) (i := word) (j := 0)
  have h1 := List.getElem?_drop (L := buf) (i := word) (j := 1)
  rw [h] at h0 h1
  simp at h0 h1
  exact ⟨h0.symm, h1.symm⟩

/-- The word after the lookahead in terms of the words from the cursor on. -/
theorem getElem_third_of_drop {buf : List Nat} {word raw nextraw third : Nat} {rest : List Nat}
    (h : buf.drop word = raw :: nextraw :: third :: rest) :
    buf[word + 2]? = some third := by
  have h2 := List.getElem?_drop (L := buf) (i := word) (j := 2)
  rw [h] at h2
  simp at h2
  exact h2.symm

/-- The words after the cursor are not touched by the pass at the cursor. -/
theorem bufferAfter_drop (p : TrackletsParser) (word : Nat) :
    (bufferAfter p word).drop (word + 1) = p.mData.drop (word + 1) := by
  apply List.ext_getElem?
  intro j
  rw [List.getElem?_drop, List.getElem?_drop, bufferAfter_getElem]
  have c : ¬ (word ≤ word + 1 + j ∧ word + 1 + j < word + 1) := by omega
  rw [if_neg (fun hx => c hx.2)]

theorem drop_succ_of_drop {buf : List Nat} {word raw : Nat} {rest : List Nat}
    (h : buf.drop word = raw :: rest) : buf.drop (word + 1) = rest := by
  have e : buf.drop (word + 1) = (buf.drop word).drop 1 := by
    rw [List.drop_drop, Nat.add_comm]
  rw [e, h]
  rfl

/-- Lines 146-150: a padding word. -/
theorem parseWord_padding (rd : RawData) (p : TrackletsParser) (word raw nextraw : Nat)
    (c h : Int)
    (hfin : p.mState ≠ TrackletParserState.StateFinished)
    (hw : p.mData[word]? = some raw) (hn : p.mData[word + 1]? = some nextraw)
    (hpair : ¬ (normalize p.mByteOrderFix raw = 0x10001000 ∧
      normalize p.mByteOrderFix nextraw = 0x10001000))
    (hpad : normalize p.mByteOrderFix raw = rd.CRUPADDING32) :
    ∃ q, parseWord rd p word c h = some (Outcome.next q c h) ∧
      q.mData = bufferAfter p word ∧ q.mWordsRead = p.mWordsRead + 1 ∧ sameSetup p q ∧
      q.mState = TrackletParserState.StatePadding ∧
      q.mTracklets = p.mTracklets ∧ q.mTrackletsFound = p.mTrackletsFound ∧
      q.mTrackletMCMHeader = p.mTrackletMCMHeader := by
  have hk : passKind rd p (normalize p.mByteOrderFix raw) (normalize p.mByteOrderFix nextraw)
      = PassKind.padding := by
    unfold passKind
    rw [if_neg hpair, if_pos hpad]
  rcases parseWord_by_kind rd p word raw nextraw c h hfin hw hn with
    ⟨hnl, -⟩ | ⟨-, q, a1, a2, a3, a4, a5, a6, a7⟩
  · rw [hk] at hnl
    exact absurd trivial hnl
  · rw [hk] at a3 a4 a5 a6 a7
    rcases a7 with ⟨hx, -, -⟩ | ⟨-, hwr, heq⟩
    · cases hx
    · exact ⟨q, heq, a1, hwr, a2, a3, by simpa [emitted] using a4, by simpa [emitted] using a5,
        a6⟩

/-- Lines 153-168: a half-chamber header. -/
theorem parseWord_hcheader (rd : RawData) (p : TrackletsParser) (word raw nextraw : Nat)
    (c h : Int)
    (hst : p.mState = TrackletParserState.StateTrackletHCHeader)
    (hign : p.mIgnoreTrackletHCHeader = false)
    (hw : p.mData[word]? = some raw) (hn : p.mData[word + 1]? = some nextraw)
    (hpair : ¬ (normalize p.mByteOrderFix raw = 0x10001000 ∧
      normalize p.mByteOrderFix nextraw = 0x10001000))
    (hpad : normalize p.mByteOrderFix raw ≠ rd.CRUPADDING32)
    (hbit : normalize p.mByteOrderFix raw &&& (0x1 <<< 11) ≠ 0) :
    ∃ q, parseWord rd p word c h = some (Outcome.next q c h) ∧
      q.mData = bufferAfter p word ∧ q.mWordsRead = p.mWordsRead + 1 ∧ sameSetup p q ∧
      q.mState = TrackletParserState.StateTrackletMCMHeader ∧
      q.mTracklets = p.mTracklets ∧ q.mTrackletsFound = p.mTrackletsFound ∧
      q.mTrackletMCMHeader = p.mTrackletMCMHeader := by
  have hfin : p.mState ≠ TrackletParserState.StateFinished := by rw [hst]; decide
  have hk : passKind rd p (normalize p.mByteOrderFix raw) (normalize p.mByteOrderFix nextraw)
      = PassKind.hcHeader := by
    unfold passKind
    rw [if_neg hpair, if_neg hpad, if_pos ⟨hbit, hign, hst⟩]
  rcases parseWord_by_kind rd p word raw nextraw c h hfin hw hn with
    ⟨hnl, -⟩ | ⟨-, q, a1, a2, a3, a4, a5, a6, a7⟩
  · rw [hk] at hnl
    exact absurd trivial hnl
  · rw [hk] at a3 a4 a5 a6 a7
    rcases a7 with ⟨hx, -, -⟩ | ⟨-, hwr, heq⟩
    · cases hx
    · exact ⟨q, heq, a1, hwr, a2, a3, by simpa [emitted] using a4, by simpa [emitted] using a5,
        a6⟩

/-- Lines 170-182: a module header. -/
theorem parseWord_mcmheader (rd : RawData) (p : TrackletsParser) (word raw nextraw : Nat)
    (c h : Int)
    (hst : p.mState = TrackletParserState.StateTrackletMCMHeader)
    (hw : p.mData[word]? = some raw) (hn : p.mData[word + 1]? = some nextraw)
    (hpair : ¬ (normalize p.mByteOrderFix raw = 0x10001000 ∧
      normalize p.mByteOrderFix nextraw = 0x10001000))
    (hpad : normalize p.mByteOrderFix raw ≠ rd.CRUPADDING32)
    (hbits : normalize p.mByteOrderFix raw &&& 0x80000001 ≠ 0) :
    ∃ q, parseWord rd p word c h = some (Outcome.next q 0
        (rd.getNumberofTracklets (normalize p.mByteOrderFix raw))) ∧
      q.mData = bufferAfter p word ∧ q.mWordsRead = p.mWordsRead + 1 ∧ sameSetup p q ∧
      q.mState = TrackletParserState.StateTrackletMCMData ∧
      q.mTracklets = p.mTracklets ∧ q.mTrackletsFound = p.mTrackletsFound ∧
      q.mTrackletMCMHeader = some word := by
  have hfin : p.mState ≠ TrackletParserState.StateFinished := by rw [hst]; decide
  have hk : passKind rd p (normalize p.mByteOrderFix raw) (normalize p.mByteOrderFix nextraw)
      = PassKind.mcmHeader := by
    unfold passKind
    rw [if_neg hpair, if_neg hpad, if_neg (by rw [hst]; simp), if_pos ⟨hbits, hst⟩]
  rcases parseWord_by_kind rd p word raw nextraw c h hfin hw hn with
    ⟨hnl, -⟩ | ⟨-, q, a1, a2, a3, a4, a5, a6, a7⟩
  · rw [hk] at hnl
    exact absurd trivial hnl
  · rw [hk] at a3 a4 a5 a6 a7
    rcases a7 with ⟨hx, -, -⟩ | ⟨-, hwr, heq⟩
    · cases hx
    · exact ⟨q, heq, a1, hwr, a2, a3, by simpa [emitted] using a4, by simpa [emitted] using a5,
        a6⟩

/-- Lines 184-243: a word taken as module data, when the read through
`mTrackletMCMHeader` gives `header`. -/
theorem parseWord_mcmdata (rd : RawData) (p : TrackletsParser) (word raw nextraw header : Nat)
    (c h : Int)
    (hfin : p.mState ≠ TrackletParserState.StateFinished)
    (hw : p.mData[word]? = some raw) (hn : p.mData[word + 1]? = some nextraw)
    (hhdr : activeHeader p word = some header)
    (hpair : ¬ (normalize p.mByteOrderFix raw = 0x10001000 ∧
      normalize p.mByteOrderFix nextraw = 0x10001000))
    (hpad : normalize p.mByteOrderFix raw ≠ rd.CRUPADDING32)
    (hnhc : ¬ (normalize p.mByteOrderFix raw &&& (0x1 <<< 11) ≠ 0 ∧
      p.mIgnoreTrackletHCHeader = false ∧
      p.mState = TrackletParserState.StateTrackletHCHeader))
    (hnmcm : ¬ (normalize p.mByteOrderFix raw &&& 0x80000001 ≠ 0 ∧
      p.mState = TrackletParserState.StateTrackletMCMHeader)) :
    ∃ q, parseWord rd p word c h = some (Outcome.next q (c + 1) h) ∧
      q.mData = bufferAfter p word ∧ q.mWordsRead = p.mWordsRead + 1 ∧ sameSetup p q ∧
      q.mState = (if c + 1 = h then
          (if nextraw = constants.TRACKLETENDMARKER then
            TrackletParserState.StateTrackletEndMarker
          else TrackletParserState.StateTrackletMCMHeader)
        else TrackletParserState.StateTrackletMCMData) ∧
      q.mTracklets = p.mTracklets ++ [trackletOf rd (p.mDetector * 2 + p.mRobSide)
        header (normalize p.mByteOrderFix raw) c] ∧
      q.mTrackletsFound = p.mTrackletsFound + 1 ∧
      q.mTrackletMCMHeader = p.mTrackletMCMHeader := by
  have hk : passKind rd p (normalize p.mByteOrderFix raw) (normalize p.mByteOrderFix nextraw)
      = PassKind.mcmData := by
    unfold passKind
    rw [if_neg hpair, if_neg hpad, if_neg hnhc, if_neg hnmcm]
  rcases parseWord_by_kind rd p word raw nextraw c h hfin hw hn with
    ⟨hnl, -⟩ | ⟨-, q, a1, a2, a3, a4, a5, a6, a7⟩
  · rw [hk] at hnl
    exfalso
    apply hnl
    unfold loadsDefined
    rw [hhdr]
    simp
  · rw [hk, hhdr] at a4 a5
    rw [hk] at a3 a6 a7
    rcases a7 with ⟨hx, -, -⟩ | ⟨-, hwr, heq⟩
    · cases hx
    · exact ⟨q, heq, a1, hwr, a2, a3, a4, a5, a6⟩

/-! ## Well-formed streams -/

theorem parseLoop_step_next {rd : RawData} {p p1 : TrackletsParser} {word : Nat}
    {c h c1 h1 : Int} (r : Nat)
    (hstep : parseWord rd p word c h = some (Outcome.next p1 c1 h1)) :
    parseLoop rd (r + 1) word c h p = parseLoop rd r (word + 1) c1 h1 p1 := by
  rw [parseLoop, hstep]

theorem parseLoop_step_ret {rd : RawData} {p p1 : TrackletsParser} {word v : Nat}
    {c h : Int} (r : Nat)
    (hstep : parseWord rd p word c h = some (Outcome.ret v p1)) :
    parseLoop rd (r + 1) word c h p = some (Outcome.ret v p1) := by
  rw [parseLoop, hstep]

theorem dataTracklets_length (rd : RawData) (hcid : Int) (header : Nat) :
    ∀ (ds : List Nat) (i : Int), (dataTracklets rd hcid header i ds).length = ds.length := by
  intro ds
  induction ds with
  | nil => intro i; rfl
  | cons d ds ih => intro i; simp [dataTracklets, ih]

/-- The read through a module header reference that designates a word before
the cursor. -/
theorem activeHeader_of_lt (p : TrackletsParser) (word i hd : Nat)
    (hp : p.mTrackletMCMHeader = some i) (hi : i < word) (hv : p.mData[i]? = some hd) :
    activeHeader p word = some hd := by
  unfold activeHeader
  rw [hp]
  simp only
  rw [bufferAfter_getElem, if_neg (by omega)]
  exact hv

/-- The word at the cursor after the pass. -/
theorem bufferAfter_self (p : TrackletsParser) (word raw : Nat)
    (hw : p.mData[word]? = some raw) :
    (bufferAfter p word)[word]? = some (normalize p.mByteOrderFix raw) := by
  rw [bufferAfter_getElem, hw]
  unfold normalize
  cases p.mByteOrderFix <;> simp

/-- The passes over the data words of a module whose header declared as many
tracklets as there are data words left; the module header reference designates
the word at index `i`, before the cursor, which holds `hd`. -/
theorem data_run (rd : RawData) (i hd : Nat) :
    ∀ (ds : List Nat) (d word : Nat) (c h : Int) (p : TrackletsParser) (nxt : Nat)
      (tail : List Nat),
      p.mData.drop word = (d :: ds) ++ nxt :: tail →
      p.mState = TrackletParserState.StateTrackletMCMData →
      p.mTrackletMCMHeader = some i → i < word → p.mData[i]? = some hd →
      c + 1 + (ds.length : Int) = h →
      (∀ x ∈ d :: ds, normalize p.mByteOrderFix x ≠ 0x10001000 ∧
        normalize p.mByteOrderFix x ≠ rd.CRUPADDING32) →
      ∃ q, parseLoop rd (ds.length + 1) word c h p = some (Outcome.next q h h) ∧
        q.mData.drop (word + (ds.length + 1)) = nxt :: tail ∧
        q.mWordsRead = p.mWordsRead + (ds.length + 1) ∧ sameSetup p q ∧
        q.mState = (if nxt = constants.TRACKLETENDMARKER then
            TrackletParserState.StateTrackletEndMarker
          else TrackletParserState.StateTrackletMCMHeader) ∧
        q.mTracklets = p.mTracklets ++ dataTracklets rd (p.mDetector * 2 + p.mRobSide)
          hd c ((d :: ds).map (normalize p.mByteOrderFix)) ∧
        q.mTrackletsFound = p.mTrackletsFound + (ds.length + 1) := by
  intro ds
  induction ds with
  | nil =>
    intro d word c h p nxt tail hdrop hst hptr hi hv hc hx
    have hfin : p.mState ≠ TrackletParserState.StateFinished := by rw [hst]; decide
    obtain ⟨hw, hn⟩ := getElem_of_drop hdrop
    have hd0 := hx d (List.mem_cons_self _ _)
    obtain ⟨q, e0, e1, e2, e3, e4, e5, e6, -⟩ := parseWord_mcmdata rd p word d nxt hd c h hfin
      hw hn (activeHeader_of_lt p word i hd hptr hi hv) (fun hp => hd0.1 hp.1) hd0.2
      (by rw [hst]; simp) (by rw [hst]; simp)
    have hc1 : c + 1 = h := by simpa using hc
    refine ⟨q, ?_, ?_, e2, e3, by rw [e4, if_pos hc1], ?_, e6⟩
    · rw [parseLoop_step_next _ e0, hc1]
      rfl
    · show List.drop (word + 1) q.mData = nxt :: tail
      rw [e1, bufferAfter_drop]
      exact drop_succ_of_drop hdrop
    · rw [e5]
      rfl
  | cons d1 ds ih =>
    intro d word c h p nxt tail hdrop hst hptr hi hv hc hx
    have hfin : p.mState ≠ TrackletParserState.StateFinished := by rw [hst]; decide
    obtain ⟨hw, hn⟩ := getElem_of_drop hdrop
    have hd0 := hx d (List.mem_cons_self _ _)
    obtain ⟨q1, e0, e1, e2, e3, e4, e5, e6, e7⟩ := parseWord_mcmdata rd p word d d1 hd c h hfin
      hw hn (activeHeader_of_lt p word i hd hptr hi hv) (fun hp => hd0.1 hp.1) hd0.2
      (by rw [hst]; simp) (by rw [hst]; simp)
    have hc1 : ¬ (c + 1 = h) := by
      simp only [List.length_cons, Nat.cast_add, Nat.cast_one] at hc
      omega
    rw [if_neg hc1] at e4
    have hfix : q1.mByteOrderFix = p.mByteOrderFix := e3.2.2.2.2.1
    have hdrop1 : q1.mData.drop (word + 1) = (d1 :: ds) ++ nxt :: tail := by
      rw [e1, bufferAfter_drop]
      exact drop_succ_of_drop hdrop
    have hv1 : q1.mData[i]? = some hd := by
      rw [e1, bufferAfter_getElem, if_neg (by omega)]
      exact hv
    obtain ⟨q, f0, f1, f2, f3, f4, f5, f6⟩ := ih d1 (word + 1) (c + 1) h q1 nxt tail hdrop1 e4
      (e7.trans hptr) (by omega) hv1
      (by simp only [List.length_cons, Nat.cast_add, Nat.cast_one] at hc; omega)
      (by
        intro x hxm
        rw [hfix]
        exact hx x (List.mem_cons_of_mem _ hxm))
    refine ⟨q, ?_, ?_, ?_, sameSetup_trans e3 f3, f4, ?_, ?_⟩
    · rw [List.length_cons, parseLoop_step_next _ e0]
      exact f0
    · rw [← f1]
      congr 1
      simp only [List.length_cons]
      omega
    · rw [f2, e2]
      simp only [List.length_cons]
      omega
    · rw [f5, e5, hfix, e3.2.2.2.2.2.1, e3.2.2.2.2.2.2, List.append_assoc]
      rfl
    · rw [f6, e6]
      simp only [List.length_cons]
      omega

theorem streamOfModules_length :
    ∀ ms : List (Nat × List Nat), (streamOfModules ms).length = ms.length + declaredTotal ms := by
  intro ms
  induction ms with
  | nil => rfl
  | cons m ms ih =>
    simp only [streamOfModules, moduleWords, declaredTotal, List.length_append,
      List.length_cons, ih]
    omega

theorem trackletsOfModules_length (rd : RawData) (hcid : Int) (fix : Bool) :
    ∀ ms : List (Nat × List Nat),
      (trackletsOfModules rd hcid fix ms).length = declaredTotal ms := by
  intro ms
  induction ms with
  | nil => rfl
  | cons m ms ih =>
    simp [trackletsOfModules, moduleTracklets, declaredTotal, dataTracklets_length, ih]

/-- A stored word whose examined value is a module header is not the end
marker as stored either. -/
theorem raw_header_ne_endmarker (fix : Bool) (M : Nat)
    (hb : normalize fix M &&& 0x80000001 = 0x80000001)
    (hne : normalize fix M ≠ 0x10001000) : M ≠ constants.TRACKLETENDMARKER := by
  intro h
  subst h
  cases fix
  · exact hne rfl
  · revert hb
    decide

/-- The passes over one module with at least one data word, entered in
`StateTrackletMCMHeader`. -/
theorem module_run (rd : RawData) (M d : Nat) (ds : List Nat) (word : Nat) (c h : Int)
    (p : TrackletsParser) (nxt : Nat) (tail : List Nat)
    (hdrop : p.mData.drop word = moduleWords (M, d :: ds) ++ nxt :: tail)
    (hst : p.mState = TrackletParserState.StateTrackletMCMHeader)
    (hwf : wellFormedModule rd p.mByteOrderFix (M, d :: ds)) :
    ∃ q c1 h1, parseLoop rd (ds.length + 1 + 1) word c h p = some (Outcome.next q c1 h1) ∧
      q.mData.drop (word + (ds.length + 1 + 1)) = nxt :: tail ∧
      q.mWordsRead = p.mWordsRead + (ds.length + 1 + 1) ∧ sameSetup p q ∧
      q.mState = (if nxt = constants.TRACKLETENDMARKER then
          TrackletParserState.StateTrackletEndMarker
        else TrackletParserState.StateTrackletMCMHeader) ∧
      q.mTracklets = p.mTracklets ++ moduleTracklets rd (p.mDetector * 2 + p.mRobSide)
        p.mByteOrderFix (M, d :: ds) ∧
      q.mTrackletsFound = p.mTrackletsFound + (ds.length + 1) := by
  obtain ⟨w1, w2, w3, w4⟩ := hwf
  simp only at w1 w2 w3
  obtain ⟨hw, hn⟩ := getElem_of_drop hdrop
  have hM := w4 M (List.mem_cons_self _ _)
  obtain ⟨q1, e0, e1, e2, e3, e4, e5, e6, e7⟩ := parseWord_mcmheader rd p word M d c h hst hw hn
    (fun hp => hM.1 hp.1) hM.2 (by rw [w1]; decide)
  have hfix : q1.mByteOrderFix = p.mByteOrderFix := e3.2.2.2.2.1
  have hdrop1 : q1.mData.drop (word + 1) = (d :: ds) ++ nxt :: tail := by
    rw [e1, bufferAfter_drop]
    exact drop_succ_of_drop hdrop
  have hv1 : q1.mData[word]? = some (normalize p.mByteOrderFix M) := by
    rw [e1]
    exact bufferAfter_self p word M hw
  obtain ⟨q, f0, f1, f2, f3, f4, f5, f6⟩ := data_run rd word (normalize p.mByteOrderFix M)
    ds d (word + 1) 0
    (rd.getNumberofTracklets (normalize p.mByteOrderFix M)) q1 nxt tail hdrop1 e4
    e7 (by omega) hv1
    (by rw [w2]; simp only [List.length_cons, Nat.cast_add, Nat.cast_one]; omega)
    (by
      intro x hxm
      rw [hfix]
      exact w4 x (List.mem_cons_of_mem _ hxm))
  refine ⟨q, rd.getNumberofTracklets (normalize p.mByteOrderFix M),
    rd.getNumberofTracklets (normalize p.mByteOrderFix M), ?_, ?_, ?_,
    sameSetup_trans e3 f3, f4, ?_, ?_⟩
  · rw [parseLoop_step_next _ e0]
    exact f0
  · rw [← f1]
    congr 1
    omega
  · rw [f2, e2]
    omega
  · rw [f5, e5, hfix, e3.2.2.2.2.2.1, e3.2.2.2.2.2.2]
    rfl
  · rw [f6, e6]

/-- The passes over a sequence of modules, each with at least one data word. -/
theorem modules_run (rd : RawData) :
    ∀ (ms : List (Nat × List Nat)) (word : Nat) (c h : Int) (p : TrackletsParser) (E1 : Nat)
      (tail : List Nat),
      p.mData.drop word = streamOfModules ms ++ E1 :: tail →
      p.mState ≠ TrackletParserState.StateFinished →
      (ms ≠ [] → p.mState = TrackletParserState.StateTrackletMCMHeader) →
      (∀ m ∈ ms, wellFormedModule rd p.mByteOrderFix m ∧ 1 ≤ m.2.length) →
      ∃ q c1 h1,
        parseLoop rd (streamOfModules ms).length word c h p = some (Outcome.next q c1 h1) ∧
        q.mData.drop (word + (streamOfModules ms).length) = E1 :: tail ∧
        q.mWordsRead = p.mWordsRead + (streamOfModules ms).length ∧ sameSetup p q ∧
        q.mState ≠ TrackletParserState.StateFinished ∧
        q.mTracklets = p.mTracklets ++
          trackletsOfModules rd (p.mDetector * 2 + p.mRobSide) p.mByteOrderFix ms ∧
        q.mTrackletsFound = p.mTrackletsFound + declaredTotal ms := by
  intro ms
  induction ms with
  | nil =>
    intro word c h p E1 tail hdrop hfin _ _
    exact ⟨p, c, h, rfl, by simpa [streamOfModules] using hdrop, rfl, sameSetup_refl _, hfin,
      by simp [trackletsOfModules], rfl⟩
  | cons m ms ih =>
    intro word c h p E1 tail hdrop hfin hst hwf
    obtain ⟨M, dsAll⟩ := m
    have hm := hwf (M, dsAll) (List.mem_cons_self _ _)
    cases dsAll with
    | nil =>
      exfalso
      have := hm.2
      simp at this
    | cons d ds =>
      have hnext : ∃ nxt tail1, streamOfModules ms ++ E1 :: tail = nxt :: tail1 ∧
          (ms ≠ [] → nxt ≠ constants.TRACKLETENDMARKER) := by
        cases ms with
        | nil => exact ⟨E1, tail, rfl, fun hx => absurd rfl hx⟩
        | cons m1 ms1 =>
          refine ⟨m1.1, m1.2 ++ streamOfModules ms1 ++ E1 :: tail, ?_, fun _ => ?_⟩
          · simp [streamOfModules, moduleWords]
          · have hm1 := (hwf m1 (List.mem_cons_of_mem _ (List.mem_cons_self _ _))).1
            exact raw_header_ne_endmarker p.mByteOrderFix m1.1 hm1.1
              (hm1.2.2.2 m1.1 (List.mem_cons_self _ _)).1
      obtain ⟨nxt, tail1, hnt, hne⟩ := hnext
      have hdrop0 : p.mData.drop word = moduleWords (M, d :: ds) ++ nxt :: tail1 := by
        rw [hdrop, ← hnt]
        simp [streamOfModules]
      obtain ⟨q1, c1, h1, e0, e1, e2, e3, e4, e5, e6⟩ := module_run rd M d ds word c h p nxt
        tail1 hdrop0 (hst (List.cons_ne_nil _ _)) hm.1
      have hfix : q1.mByteOrderFix = p.mByteOrderFix := e3.2.2.2.2.1
      have hfin1 : q1.mState ≠ TrackletParserState.StateFinished := by
        rw [e4]
        split <;> decide
      obtain ⟨q, c2, h2, f0, f1, f2, f3, f4, f5, f6⟩ := ih (word + (ds.length + 1 + 1)) c1 h1
        q1 E1 tail (by rw [e1, hnt]) hfin1
        (by
          intro hms
          rw [e4, if_neg (hne hms)])
        (by
          intro m1 hm1
          rw [hfix]
          exact hwf m1 (List.mem_cons_of_mem _ hm1))
      have hlen : (streamOfModules ((M, d :: ds) :: ms)).length =
          (ds.length + 1 + 1) + (streamOfModules ms).length := by
        simp [streamOfModules, moduleWords]
        omega
      refine ⟨q, c2, h2, ?_, ?_, ?_, sameSetup_trans e3 f3, f4, ?_, ?_⟩
      · rw [hlen, parseLoop_add, e0]
        exact f0
      · rw [hlen, ← f1]
        congr 1
        omega
      · rw [hlen, f2, e2]
        omega
      · rw [f5, e5, hfix, e3.2.2.2.2.2.1, e3.2.2.2.2.2.2, List.append_assoc]
        rfl
      · rw [f6, e6]
        simp only [declaredTotal, List.length_cons]
        omega

/-! ## The whole call -/

/-- What lines 77-100 leave: cleared counters, a starting state that is not
`StateFinished`, everything else as before the call. -/
theorem startParser_some {p p0 : TrackletsParser} (h : startParser p = some p0) :
    p0.mData = p.mData ∧ sameSetup p p0 ∧ p0.mWordsRead = 0 ∧ p0.mTrackletsFound = 0 ∧
    p0.mTracklets = p.mTracklets ∧ p0.mState ≠ TrackletParserState.StateFinished ∧
    (p.mTrackletHCHeaderState = 1 → p.mStartParse + 1 < p.mData.length) := by
  unfold startParser initialState at h
  simp only at h
  split_ifs at h with h0 h1
  · simp only [Option.some.injEq] at h
    subst h
    exact ⟨rfl, sameSetup_refl _, rfl, rfl, rfl, by simp, fun hx => by omega⟩
  · cases hn : p.mData[p.mStartParse + 1]? with
    | none => simp [hn] at h
    | some nw =>
      have hlt : p.mStartParse + 1 < p.mData.length := by
        by_contra hge
        rw [List.getElem?_eq_none (by omega)] at hn
        cases hn
      simp only [hn] at h
      split_ifs at h
      all_goals
        simp only [Option.some.injEq] at h
        subst h
        exact ⟨rfl, sameSetup_refl _, rfl, rfl, rfl, by simp, fun _ => hlt⟩
  · simp only [Option.some.injEq] at h
    subst h
    exact ⟨rfl, sameSetup_refl _, rfl, rfl, rfl, by simp, fun hx => absurd hx h1⟩

/-- Lines 77-100 have a result unless policy 1 loads from outside the array. -/
theorem startParser_defined (p : TrackletsParser)
    (hprobe : p.mTrackletHCHeaderState = 1 → p.mStartParse + 1 < p.mData.length) :
    ∃ p0, startParser p = some p0 := by
  unfold startParser initialState
  simp only
  split_ifs with h0 h1
  · exact ⟨_, rfl⟩
  · rw [List.getElem?_eq_getElem (hprobe h1)]
    simp only
    split_ifs <;> exact ⟨_, rfl⟩
  · exact ⟨_, rfl⟩

/-- Under policy 2 the loop starts in `StateTrackletHCHeader`. -/
theorem startParser_always (p : TrackletsParser) (hpol : p.mTrackletHCHeaderState = 2) :
    ∃ p0, startParser p = some p0 ∧
      p0.mState = TrackletParserState.StateTrackletHCHeader := by
  unfold startParser initialState
  simp [hpol]

theorem endMarker_pair_iff (p : TrackletsParser) (j : Nat) :
    (endMarkerAt p j ∧ endMarkerAt p (j + 1)) ↔
      pairAt p.mByteOrderFix p.mData (p.mStartParse + j) := by
  unfold endMarkerAt pairAt
  rw [← Nat.add_assoc]

/-- The two ways a call ends.  Either it returns from the end-marker branch
in pass `i`, or the cursor reaches `mEndParse`. -/
theorem Parse_spec {rd : RawData} {p q : TrackletsParser} {v : Nat}
    (h : Parse rd p = some (v, q)) :
    p.mStartParse ≤ p.mEndParse ∧ q.mWordsRead = v ∧ sameSetup p q ∧
    ((∃ i, i < regionLength p ∧ p.mStartParse + i + 2 < p.mData.length ∧
        (∀ j, j < i → ¬ (endMarkerAt p j ∧ endMarkerAt p (j + 1))) ∧
        (endMarkerAt p i ∧ endMarkerAt p (i + 1)) ∧ v = i + 2 ∧
        q.mState = TrackletParserState.StateTrackletEndMarker ∧
        Swept p q p.mStartParse (i + 1) ∧ EmittedByCall p q i) ∨
      ((∀ j, j < regionLength p → ¬ (endMarkerAt p j ∧ endMarkerAt p (j + 1))) ∧
        v = regionLength p ∧ (regionLength p = 0 ∨ p.mEndParse < p.mData.length) ∧
        Swept p q p.mStartParse (regionLength p) ∧ EmittedByCall p q (regionLength p))) := by
  unfold Parse at h
  cases hs : startParser p with
  | none => simp [hs] at h
  | some p0 =>
    obtain ⟨s1, s2, s3, s4, s5, s6, -⟩ := startParser_some hs
    have e1 : p0.mStartParse = p.mStartParse := s2.1
    have e2 : p0.mEndParse = p.mEndParse := s2.2.1
    have e3 : p0.mByteOrderFix = p.mByteOrderFix := s2.2.2.2.2.1
    simp only [hs, e1, e2] at h
    by_cases hle : p.mEndParse < p.mStartParse
    · simp [hle] at h
    · rw [if_neg hle] at h
      have hpair : ∀ j, (endMarkerAt p j ∧ endMarkerAt p (j + 1)) ↔
          pairAt p0.mByteOrderFix p0.mData (p.mStartParse + j) := by
        intro j
        rw [endMarker_pair_iff, e3, s1]
      have hsw : ∀ k, Swept p0 q p.mStartParse k → Swept p q p.mStartParse k := by
        intro k hk
        unfold Swept at hk ⊢
        rw [s1, e3] at hk
        exact hk
      have hem : ∀ k, Emitted p0 q k → EmittedByCall p q k := by
        intro k ⟨new, a1, a2, a3, a4⟩
        refine ⟨new, by rw [a1, s5], a2, ?_, ?_⟩
        · rw [a3, s4]; omega
        · rw [s2.2.2.2.2.2.1, s2.2.2.2.2.2.2] at a4
          exact a4
      refine ⟨by omega, ?_⟩
      cases hrun : parseLoop rd (p.mEndParse - p.mStartParse) p.mStartParse 0 0 p0 with
      | none => simp [hrun] at h
      | some o =>
        cases o with
        | ret v1 q1 =>
          simp only [hrun, Option.some.injEq, Prod.mk.injEq] at h
          obtain ⟨rfl, rfl⟩ := h
          obtain ⟨i, b1, b2, b3, b4, b5, b6, b7, b8, b9, b10⟩ := parseLoop_ret s6 hrun
          refine ⟨b6, sameSetup_trans s2 b8, Or.inl ⟨i, b1, by rw [← s1]; exact b2, ?_,
            (hpair i).2 b4, by rw [b5, s3]; omega, b7, hsw _ b9, hem _ b10⟩⟩
          intro j hj hp
          exact b3 (p.mStartParse + j) (by omega) (by omega) ((hpair j).1 hp)
        | next q1 c1 h1 =>
          simp only [hrun, Option.some.injEq, Prod.mk.injEq] at h
          obtain ⟨rfl, rfl⟩ := h
          obtain ⟨b1, b2, b3, b4, b5, b6, b7⟩ := parseLoop_next _ _ _ _ _ _ _ _ hrun
          refine ⟨rfl, sameSetup_trans s2 b5, Or.inr ⟨?_, by rw [b4, s3]; simp [regionLength],
            ?_, hsw _ b6, hem _ b7⟩⟩
          · intro j hj hp
            exact b3 (p.mStartParse + j) (by omega) (by unfold regionLength at hj; omega)
              ((hpair j).1 hp)
          · unfold regionLength
            rcases b1 with b1 | b1
            · exact Or.inl b1
            · right
              rw [s1] at b1
              omega

theorem startParser_header {p p0 : TrackletsParser} (h : startParser p = some p0) :
    p0.mTrackletMCMHeader = p.mTrackletMCMHeader := by
  unfold startParser at h
  simp only at h
  cases hi : initialState { p with mCurrentLink := 0, mWordsRead := 0, mTrackletsFound := 0 } with
  | none => simp [hi] at h
  | some s =>
    simp only [hi, Option.some.injEq] at h
    subst h
    rfl

/-- A call is the loop run from the state that lines 77-100 leave. -/
theorem Parse_loop {rd : RawData} {p q : TrackletsParser} {v : Nat}
    (h : Parse rd p = some (v, q)) :
    ∃ p0 o, startParser p = some p0 ∧
      parseLoop rd (regionLength p) p.mStartParse 0 0 p0 = some o ∧ o.parser = q := by
  unfold Parse at h
  cases hs : startParser p with
  | none => simp [hs] at h
  | some p0 =>
    obtain ⟨-, s2, -⟩ := startParser_some hs
    have e1 : p0.mStartParse = p.mStartParse := s2.1
    have e2 : p0.mEndParse = p.mEndParse := s2.2.1
    simp only [hs, e1, e2] at h
    by_cases hle : p.mEndParse < p.mStartParse
    · simp [hle] at h
    · rw [if_neg hle] at h
      cases hrun : parseLoop rd (p.mEndParse - p.mStartParse) p.mStartParse 0 0 p0 with
      | none => simp [hrun] at h
      | some o =>
        refine ⟨p0, o, rfl, hrun, ?_⟩
        cases o with
        | ret v1 q1 =>
          simp only [hrun, Option.some.injEq, Prod.mk.injEq] at h
          exact h.2
        | next q1 c1 h1 =>
          simp only [hrun, Option.some.injEq, Prod.mk.injEq] at h
          exact h.2

/-- A call has a result when the array holds the word after the region (the
lookahead of the last pass), the word after the first end-marker pair (the
load of line 142), under policy 1 the word after the start cursor, and when
the read through `mTrackletMCMHeader` has a result in every pass that takes
the data branch. -/
theorem Parse_defined (rd : RawData) (p : TrackletsParser)
    (hreg : p.mStartParse ≤ p.mEndParse)
    (hbuf : regionLength p = 0 ∨ p.mEndParse < p.mData.length)
    (hthird : ∀ j, j < regionLength p → (endMarkerAt p j ∧ endMarkerAt p (j + 1)) →
      (∀ i, i < j → ¬ (endMarkerAt p i ∧ endMarkerAt p (i + 1))) →
      p.mStartParse + j + 2 < p.mData.length)
    (hprobe : p.mTrackletHCHeaderState = 1 → p.mStartParse + 1 < p.mData.length)
    (hhdr : headerAtData rd p) :
    ∃ v q, Parse rd p = some (v, q) := by
  obtain ⟨p0, hs⟩ := startParser_defined p hprobe
  obtain ⟨s1, s2, s3, s4, s5, s6, -⟩ := startParser_some hs
  have e1 : p0.mStartParse = p.mStartParse := s2.1
  have e2 : p0.mEndParse = p.mEndParse := s2.2.1
  have e3 : p0.mByteOrderFix = p.mByteOrderFix := s2.2.2.2.2.1
  unfold Parse
  simp only [hs, e1, e2]
  rw [if_neg (by omega)]
  have hlen : p.mEndParse - p.mStartParse = 0 ∨
      p.mStartParse + (p.mEndParse - p.mStartParse) < p0.mData.length := by
    unfold regionLength at hbuf
    rcases hbuf with hb | hb
    · exact Or.inl hb
    · right
      rw [s1]
      omega
  have hpair : ∀ j, (endMarkerAt p j ∧ endMarkerAt p (j + 1)) ↔
      pairAt p0.mByteOrderFix p0.mData (p.mStartParse + j) := by
    intro j
    rw [endMarker_pair_iff, e3, s1]
  obtain ⟨o, ho⟩ := parseLoop_defined rd _ p.mStartParse 0 0 p0 s6 hlen
    (by
      intro j hj1 hj2 hp hfirst
      obtain ⟨k, rfl⟩ : ∃ k, j = p.mStartParse + k := ⟨j - p.mStartParse, by omega⟩
      rw [s1]
      refine hthird k (by unfold regionLength; omega) ((hpair k).2 hp) (fun i hi hpi => ?_)
      exact hfirst (p.mStartParse + i) (by omega) (by omega) ((hpair i).1 hpi))
    (hhdr p0 hs)
  rw [ho]
  cases o with
  | ret v q => exact ⟨_, _, rfl⟩
  | next q c1 h1 => exact ⟨_, _, rfl⟩

/-- A module header reference that designates a word of the array when the
call starts does so in every pass. -/
theorem headerAtData_of_headerSet_loop (rd : RawData) :
    ∀ (r word : Nat) (c h : Int) (p : TrackletsParser),
      (∃ i, p.mTrackletMCMHeader = some i ∧ i < p.mData.length) →
      ∀ e ∈ events rd r word c h p, e.2.2 ≠ none := by
  intro r
  induction r with
  | zero =>
    intro word c h p _ e he
    simp [events] at he
  | succ r ih =>
    intro word c h p hset e he
    by_cases hfin : p.mState = TrackletParserState.StateFinished
    · rw [events, if_pos hfin] at he
      simp at he
    · cases hn : p.mData[word + 1]? with
      | none =>
        rw [events, if_neg hfin] at he
        simp [hn] at he
      | some nextraw =>
        cases hw : p.mData[word]? with
        | none =>
          rw [events, if_neg hfin] at he
          simp [hn, hw] at he
        | some raw =>
          rw [events_cons rd p r word raw nextraw c h hfin hw hn] at he
          rcases List.mem_cons.1 he with he | he
          · rw [he]
            obtain ⟨i, hi, hlt⟩ := hset
            simp only [activeHeader, hi]
            rw [List.getElem?_eq_getElem (by rw [bufferAfter_length]; exact hlt)]
            simp
          · cases hstep : parseWord rd p word c h with
            | none => simp [hstep] at he
            | some o =>
              cases o with
              | ret v q => simp [hstep] at he
              | next q c1 h1 =>
                simp only [hstep] at he
                refine ih (word + 1) c1 h1 q ?_ e he
                obtain ⟨a1, -, -, -, a5, -, -, -⟩ := parseWord_next hstep
                obtain ⟨i, hi, hlt⟩ := hset
                rcases parseWord_next_header hstep with hh | hh
                · exact ⟨i, hh.trans hi, by rw [a5, bufferAfter_length]; exact hlt⟩
                · exact ⟨word, hh, by rw [a5, bufferAfter_length]; omega⟩

/-- A parser whose module header reference designates a word of the array when
the call starts processes no data word without one. -/
theorem headerAtData_of_headerSet (rd : RawData) (p : TrackletsParser) (hset : headerSet p) :
    headerAtData rd p := by
  intro p0 hp0 e he _
  have hs : startParser p = some p0 := hp0
  obtain ⟨s1, -⟩ := startParser_some hs
  refine headerAtData_of_headerSet_loop rd _ _ _ _ p0 ?_ e he
  rw [startParser_header hs, s1]
  unfold headerSet headerWord at hset
  cases hi : p.mTrackletMCMHeader with
  | none =>
    rw [hi] at hset
    exact absurd rfl hset
  | some i =>
    rw [hi] at hset
    refine ⟨i, rfl, ?_⟩
    by_contra hge
    exact hset (List.getElem?_eq_none (by omega))

/-! ## The claims about the whole call -/

/-- C3, as stated, fails.  In the region `[H][END][END]` that fills its array
the first pair of end markers is at offset 1, inside the region, and the
end-marker branch loads the word after the pair (line 142), which the array
does not hold; in the region `[D][END][END]` parsed under policy 0 by a parser
on which no module header has been decoded, the word before the pair is taken
as module data with no module header to read.  In both the call has no
result. -/
theorem Parse_end_marker_pair_counterexample :
    (1 + 1 < regionLength (mkParser [0x800, 0x10001000, 0x10001000] 0 3 2 false false 7 1) ∧
      (endMarkerAt (mkParser [0x800, 0x10001000, 0x10001000] 0 3 2 false false 7 1) 1 ∧
        endMarkerAt (mkParser [0x800, 0x10001000, 0x10001000] 0 3 2 false false 7 1) (1 + 1)) ∧
      ¬ endMarkerAt (mkParser [0x800, 0x10001000, 0x10001000] 0 3 2 false false 7 1) 0 ∧
      Parse sampleRawData (mkParser [0x800, 0x10001000, 0x10001000] 0 3 2 false false 7 1)
        = none) ∧
    (1 + 1 < regionLength (mkParser [0x12344, 0x10001000, 0x10001000, 0] 0 3 0 false false 7 1) ∧
      (endMarkerAt (mkParser [0x12344, 0x10001000, 0x10001000, 0] 0 3 0 false false 7 1) 1 ∧
        endMarkerAt (mkParser [0x12344, 0x10001000, 0x10001000, 0] 0 3 0 false false 7 1)
          (1 + 1)) ∧
      ¬ endMarkerAt (mkParser [0x12344, 0x10001000, 0x10001000, 0] 0 3 0 false false 7 1) 0 ∧
      (mkParser [0x12344, 0x10001000, 0x10001000, 0] 0 3 0 false false 7 1).mTrackletMCMHeader
        = none ∧
      Parse sampleRawData (mkParser [0x12344, 0x10001000, 0x10001000, 0] 0 3 0 false false 7 1)
        = none) := by
  decide

/-- C3, amended: when `i` is the smallest offset with `i + 1` inside the region
at which the examined words at `i` and `i + 1` are both `END_MARKER`, the array
holds the word after that pair, and no pass takes the data branch while
`mTrackletMCMHeader` designates no word of the array, then `Parse` returns
`i + 2` and ends in `StateTrackletEndMarker`; its tracklets and its tracklet
counter are those the loop held when the cursor reached offset `i`, so no word
at offset `i` or later has produced one. -/
theorem Parse_returns_at_first_end_marker_pair (rd : RawData) (p : TrackletsParser) (i : Nat)
    (hi : i + 1 < regionLength p)
    (hpair : endMarkerAt p i ∧ endMarkerAt p (i + 1))
    (hmin : ∀ j, j < i → ¬ (endMarkerAt p j ∧ endMarkerAt p (j + 1)))
    (hbuf : p.mStartParse + i + 2 < p.mData.length)
    (hhdr : headerAtData rd p) :
    ∃ (p0 q0 : TrackletsParser) (c0 h0 : Int) (q : TrackletsParser),
      startParser p = some p0 ∧
      parseLoop rd i p.mStartParse 0 0 p0 = some (Outcome.next q0 c0 h0) ∧
      Parse rd p = some (i + 2, q) ∧ q.mWordsRead = i + 2 ∧
      q.mState = TrackletParserState.StateTrackletEndMarker ∧
      q.mTracklets = q0.mTracklets ∧ q.mTrackletsFound = q0.mTrackletsFound := by
  obtain ⟨p0, hs⟩ := startParser_defined p (fun _ => by omega)
  obtain ⟨s1, s2, s3, s4, s5, s6, -⟩ := startParser_some hs
  have e1 : p0.mStartParse = p.mStartParse := s2.1
  have e2 : p0.mEndParse = p.mEndParse := s2.2.1
  have e3 : p0.mByteOrderFix = p.mByteOrderFix := s2.2.2.2.2.1
  have hpr : ∀ j, (endMarkerAt p j ∧ endMarkerAt p (j + 1)) ↔
      pairAt p0.mByteOrderFix p0.mData (p.mStartParse + j) := by
    intro j
    rw [endMarker_pair_iff, e3, s1]
  have hsplit0 : regionLength p = i + (regionLength p - i) := by omega
  obtain ⟨o, ho⟩ := parseLoop_defined rd i p.mStartParse 0 0 p0 s6
    (Or.inr (by rw [s1]; omega))
    (by
      intro j hj1 hj2 hp _
      obtain ⟨k, rfl⟩ : ∃ k, j = p.mStartParse + k := ⟨j - p.mStartParse, by omega⟩
      exact absurd ((hpr k).2 hp) (hmin k (by omega)))
    (by
      intro e he
      apply hhdr p0 hs e
      rw [hsplit0]
      exact events_mem_add rd _ _ _ _ _ _ e he)
  cases o with
  | ret v1 q1 =>
    exfalso
    obtain ⟨k, b1, b2, b3, b4, -⟩ := parseLoop_ret s6 ho
    exact hmin k b1 ((hpr k).2 b4)
  | next q0 c0 h0 =>
    obtain ⟨b1, b2, b3, b4, b5, b6, b7⟩ := parseLoop_next _ _ _ _ _ _ _ _ ho
    have hfix0 : q0.mByteOrderFix = p0.mByteOrderFix := b5.2.2.2.2.1
    have hp0 : pairAt q0.mByteOrderFix q0.mData (p.mStartParse + i) := by
      rw [pairAt_of_swept b6 _ (le_refl _), hfix0]
      exact (hpr i).1 hpair
    have hlen0 : q0.mData.length = p.mData.length := by rw [b6.1, s1]
    have hw : q0.mData[p.mStartParse + i]? = some (q0.mData[p.mStartParse + i]) :=
      List.getElem?_eq_getElem (by omega)
    have hn : q0.mData[p.mStartParse + i + 1]? = some (q0.mData[p.mStartParse + i + 1]) :=
      List.getElem?_eq_getElem (by omega)
    have hp1 : normalize q0.mByteOrderFix (q0.mData[p.mStartParse + i]) = 0x10001000 ∧
        normalize q0.mByteOrderFix (q0.mData[p.mStartParse + i + 1]) = 0x10001000 := by
      unfold pairAt at hp0
      rw [hw, hn] at hp0
      simpa using hp0
    have hld : loadsDefined q0 (p.mStartParse + i)
        (passKind rd q0 (normalize q0.mByteOrderFix (q0.mData[p.mStartParse + i]))
          (normalize q0.mByteOrderFix (q0.mData[p.mStartParse + i + 1]))) := by
      rw [(passKind_endMarker_iff rd q0 _ _).2 hp1]
      unfold loadsDefined
      rw [List.getElem?_eq_getElem (by omega)]
      simp
    rcases parseWord_defined rd q0 (p.mStartParse + i) _ _ c0 h0 (b2 s6) hw hn hld with
      ⟨_, q, hq⟩ | ⟨hnp, _⟩
    · obtain ⟨a1, a2, a3, a4, a5, a6, a7, a8, a9, -⟩ := parseWord_ret (b2 s6) hq
      refine ⟨p0, q0, c0, h0, q, hs, ho, ?_, by rw [a4, b4, s3]; omega, a5, a8, a9⟩
      unfold Parse
      simp only [hs, e1, e2]
      unfold regionLength at hi
      rw [if_neg (by omega)]
      have hsplit : p.mEndParse - p.mStartParse =
          i + ((p.mEndParse - p.mStartParse - i - 1) + 1) := by omega
      rw [hsplit, parseLoop_add, ho]
      simp only
      rw [parseLoop, hq, b4, s3]
      simp
    · exact absurd hp1 hnp

/-- Witness for C3: the byte-swapped stream `[H][M(count=2)][D0][D1][END][END]`
followed by a padding word, parsed with `mByteOrderFix` set by a parser on
which no call has been made; the first pair of end markers is at offset 4. -/
theorem Parse_returns_at_first_end_marker_pair_witness :
    ∃ (p0 q0 : TrackletsParser) (c0 h0 : Int) (q : TrackletsParser),
      startParser (mkParser [0x00080000, 0x05000080, 0x45230100, 0x20430500, 0x00100010,
        0x00100010, 0xeeeeeeee] 0 6 2 false true 7 1) = some p0 ∧
      parseLoop sampleRawData 4 (mkParser [0x00080000, 0x05000080, 0x45230100, 0x20430500,
        0x00100010, 0x00100010, 0xeeeeeeee] 0 6 2 false true 7 1).mStartParse 0 0 p0
          = some (Outcome.next q0 c0 h0) ∧
      Parse sampleRawData (mkParser [0x00080000, 0x05000080, 0x45230100, 0x20430500,
        0x00100010, 0x00100010, 0xeeeeeeee] 0 6 2 false true 7 1) = some (4 + 2, q) ∧
      q.mWordsRead = 4 + 2 ∧
      q.mState = TrackletParserState.StateTrackletEndMarker ∧
      q.mTracklets = q0.mTracklets ∧ q.mTrackletsFound = q0.mTrackletsFound :=
  Parse_returns_at_first_end_marker_pair sampleRawData
    (mkParser [0x00080000, 0x05000080, 0x45230100, 0x20430500, 0x00100010, 0x00100010,
      0xeeeeeeee] 0 6 2 false true 7 1) 4 (by decide) (by decide) (by decide) (by decide)
    (by decide)

/-- C4, as stated, fails: the one-word region `[END]` holds no two consecutive
end markers, yet with another `END` stored after it `Parse` returns 2, not 1;
on the region `[M(count=1)][D0]` that fills its array the lookahead at the
last word has nothing to load, so the call has no result; and on the region
`[D]`, parsed under policy 0 by a parser on which no module header has been
decoded, the word is taken as module data with no module header to read, so
the call has no result either. -/
theorem Parse_unterminated_counterexample :
    ((∀ j, j < regionLength (mkParser [0x10001000, 0x10001000, 0] 0 1 0 false false 7 1) - 1 →
        ¬ (endMarkerAt (mkParser [0x10001000, 0x10001000, 0] 0 1 0 false false 7 1) j ∧
           endMarkerAt (mkParser [0x10001000, 0x10001000, 0] 0 1 0 false false 7 1) (j + 1))) ∧
      regionLength (mkParser [0x10001000, 0x10001000, 0] 0 1 0 false false 7 1) = 1 ∧
      (Parse sampleRawData (mkParser [0x10001000, 0x10001000, 0] 0 1 0 false false 7 1)).map
        (fun r => r.1) = some 2) ∧
    ((∀ j, j < regionLength (mkParser [0x80000003, 0x12345] 0 2 0 false false 7 1) - 1 →
        ¬ (endMarkerAt (mkParser [0x80000003, 0x12345] 0 2 0 false false 7 1) j ∧
           endMarkerAt (mkParser [0x80000003, 0x12345] 0 2 0 false false 7 1) (j + 1))) ∧
      Parse sampleRawData (mkParser [0x80000003, 0x12345] 0 2 0 false false 7 1) = none) ∧
    ((∀ j, j < regionLength (mkParser [0x12344, 0] 0 1 0 false false 7 1) →
        ¬ (endMarkerAt (mkParser [0x12344, 0] 0 1 0 false false 7 1) j ∧
           endMarkerAt (mkParser [0x12344, 0] 0 1 0 false false 7 1) (j + 1))) ∧
      (mkParser [0x12344, 0] 0 1 0 false false 7 1).mTrackletMCMHeader = none ∧
      Parse sampleRawData (mkParser [0x12344, 0] 0 1 0 false false 7 1) = none) := by
  decide

/-- C4, amended: for every configuration and every region of length `n` that is
followed by at least one more word of the array (under policy 1 the array also
holds the word after the start cursor), in which no pass takes the data branch
while `mTrackletMCMHeader` designates no word of the array: if no offset
`j < n` has end markers at both `j` and `j + 1`, then `Parse` has a result and
returns exactly `n`. -/
theorem Parse_unterminated_returns_length (rd : RawData) (p : TrackletsParser)
    (hreg : p.mStartParse ≤ p.mEndParse)
    (hbuf : p.mEndParse < p.mData.length)
    (hprobe : p.mTrackletHCHeaderState = 1 → p.mStartParse + 1 < p.mData.length)
    (hhdr : headerAtData rd p)
    (hno : ∀ j, j < regionLength p → ¬ (endMarkerAt p j ∧ endMarkerAt p (j + 1))) :
    ∃ q, Parse rd p = some (regionLength p, q) ∧ q.mWordsRead = regionLength p := by
  obtain ⟨v, q, hq⟩ := Parse_defined rd p hreg (Or.inr hbuf)
    (fun j hj hp _ => absurd hp (hno j hj)) hprobe hhdr
  obtain ⟨-, a2, -, a4⟩ := Parse_spec hq
  rcases a4 with ⟨i, b1, -, -, b4, -⟩ | ⟨-, b2, -⟩
  · exact absurd b4 (hno i b1)
  · subst b2
    exact ⟨q, hq, a2⟩

/-- Witness for C4: the region `[M(count=1)][D0]` under policy 0, followed by
one more word in the array and parsed by a parser on which no call has been
made, gives one tracklet and the return value 2. -/
theorem Parse_unterminated_returns_length_witness :
    (Parse sampleRawData (mkParser [0x80000003, 0x12345, 0] 0 2 0 false false 7 1)).map
        (fun r => (r.1, r.2.mTracklets.length)) = some (2, 1) ∧
    ∃ q, Parse sampleRawData (mkParser [0x80000003, 0x12345, 0] 0 2 0 false false 7 1)
        = some (regionLength (mkParser [0x80000003, 0x12345, 0] 0 2 0 false false 7 1), q) ∧
      q.mWordsRead = regionLength (mkParser [0x80000003, 0x12345, 0] 0 2 0 false false 7 1) :=
  ⟨by decide, Parse_unterminated_returns_length sampleRawData
    (mkParser [0x80000003, 0x12345, 0] 0 2 0 false false 7 1) (by decide) (by decide)
    (by decide) (by decide) (by decide)⟩

/-- C5, evaluated where it fails: the region is the two words `[H][END]`, the
array holds another `END` right after it, and `Parse` returns 3 with
`mWordsRead = 3`, one more than the region length. -/
theorem Parse_wordsRead_exceeds_region :
    regionLength (mkParser [0x800, 0x10001000, 0x10001000, 0] 0 2 2 false false 7 1) = 2 ∧
    (Parse sampleRawData (mkParser [0x800, 0x10001000, 0x10001000, 0] 0 2 2 false false 7 1)).map
      (fun r => (r.1, r.2.mWordsRead)) = some (3, 3) := by
  decide

/-- The counter never passes the region length by more than one, and it
passes it only by returning at an end-marker pair whose second word is the
word after the region. -/
theorem Parse_wordsRead_le {rd : RawData} {p q : TrackletsParser} {v : Nat}
    (h : Parse rd p = some (v, q)) :
    q.mWordsRead = v ∧ v ≤ regionLength p + 1 ∧
    (regionLength p < v →
      endMarkerAt p (regionLength p - 1) ∧ endMarkerAt p (regionLength p)) := by
  obtain ⟨-, a2, -, a4⟩ := Parse_spec h
  refine ⟨a2, ?_⟩
  rcases a4 with ⟨i, b1, -, -, b4, b5, -⟩ | ⟨-, b2, -⟩
  · refine ⟨by omega, fun hv => ?_⟩
    have hi : i = regionLength p - 1 := by omega
    have hi2 : i + 1 = regionLength p := by omega
    rw [hi2] at b4
    rw [hi] at b4
    exact b4
  · exact ⟨by omega, fun hv => by omega⟩

/-- C6, as stated, fails: on the one-word region `[H]` that fills its array the
starting state is chosen without a load, and the first pass of the loop takes
its lookahead from index 1, which is the region length: with indexing as
`Option` the pass, and so the call, has no result.  On the region `[H][END]`
followed by one more `END` the last pass finds the pair and loads the word
after it (line 142) from index 3, one past the word that follows the region.
And on the region `[D]` parsed by a parser on which no module header has been
decoded the read through `mTrackletMCMHeader` has no word to load. -/
theorem Parse_reads_counterexample :
    (regionLength (mkParser [0x800] 0 1 2 false false 7 1) = 1 ∧
      (mkParser [0x800] 0 1 2 false false 7 1).mData.length = 1 ∧
      (startParser (mkParser [0x800] 0 1 2 false false 7 1)).isSome = true ∧
      (mkParser [0x800] 0 1 2 false false 7 1).mData[0 + 1]? = none ∧
      (startParser (mkParser [0x800] 0 1 2 false false 7 1)).bind
        (fun p0 => parseWord sampleRawData p0 0 0 0) = none ∧
      Parse sampleRawData (mkParser [0x800] 0 1 2 false false 7 1) = none) ∧
    (regionLength (mkParser [0x800, 0x10001000, 0x10001000] 0 2 2 false false 7 1) = 2 ∧
      (mkParser [0x800, 0x10001000, 0x10001000] 0 2 2 false false 7 1).mData.length = 3 ∧
      (mkParser [0x800, 0x10001000, 0x10001000] 0 2 2 false false 7 1).mData[1 + 2]? = none ∧
      Parse sampleRawData (mkParser [0x800, 0x10001000, 0x10001000] 0 2 2 false false 7 1)
        = none) ∧
    (regionLength (mkParser [0x12344, 0, 0] 0 1 0 false false 7 1) = 1 ∧
      headerWord (mkParser [0x12344, 0, 0] 0 1 0 false false 7 1) = none ∧
      Parse sampleRawData (mkParser [0x12344, 0, 0] 0 1 0 false false 7 1) = none) := by
  decide

/-- C6, amended: for every non-empty region and every configuration, every
load of `Parse` from the cursor (lookahead, policy-1 probe, peek after the last
data word of a module, the word after an end-marker pair) is at an offset of at
most the region length plus one, that is inside the region or at one of the
two words that follow it, and the one other load is the read through
`mTrackletMCMHeader` in a pass that takes the data branch: whenever the array
holds two words after the region and that read has a word to load, no load
fails and `Parse` has a result. -/
theorem Parse_reads_within_two_past_region (rd : RawData) (p : TrackletsParser)
    (hne : p.mStartParse < p.mEndParse)
    (hbuf : p.mEndParse + 1 < p.mData.length)
    (hhdr : headerAtData rd p) :
    ∃ v q, Parse rd p = some (v, q) :=
  Parse_defined rd p (by omega) (Or.inr (by omega))
    (fun j hj _ _ => by unfold regionLength at hj; omega) (fun _ => by omega) hhdr

/-- Witness for C6: the region `[H][END]` followed by `[END]` and one more
word. -/
theorem Parse_reads_within_two_past_region_witness :
    ∃ v q, Parse sampleRawData (mkParser [0x800, 0x10001000, 0x10001000, 0] 0 2 2 false false 7 1)
      = some (v, q) :=
  Parse_reads_within_two_past_region sampleRawData
    (mkParser [0x800, 0x10001000, 0x10001000, 0] 0 2 2 false false 7 1)
    (by decide) (by decide) (by decide)

/-- C7, as stated, fails: with `mByteOrderFix` set the array after the call
differs from the array before it. -/
theorem Parse_buffer_counterexample :
    (Parse sampleRawData (mkParser [0x00080000, 0x03000080, 0x45230100, 0x00100010,
        0x00100010, 0xeeeeeeee] 0 5 2 false true 7 1)).map (fun r => r.2.mData)
      = some [0x00000800, 0x80000003, 0x00012345, 0x10001000, 0x00100010, 0xeeeeeeee] ∧
    [0x00000800, 0x80000003, 0x00012345, 0x10001000, 0x00100010, 0xeeeeeeee] ≠
      (mkParser [0x00080000, 0x03000080, 0x45230100, 0x00100010, 0x00100010, 0xeeeeeeee]
        0 5 2 false true 7 1).mData := by
  decide

/-- C7, amended: the array keeps its length; with `mByteOrderFix` off its
contents after `Parse` are its contents before; with `mByteOrderFix` on the
words the cursor has reached are replaced by their byte-swapped values and
every other word, in particular the lookahead and every word outside the
region, is as it was.  The words the cursor has reached are the first `i + 1`
words of the region when the call returns `i + 2` at the first end-marker pair,
at offset `i`, and all words of the region when there is no such pair and the
call returns the region length. -/
theorem Parse_buffer_effect (rd : RawData) (p q : TrackletsParser) (v : Nat)
    (h : Parse rd p = some (v, q)) :
    q.mData.length = p.mData.length ∧
    (p.mByteOrderFix = false → q.mData = p.mData) ∧
    ((∃ i, i < regionLength p ∧ v = i + 2 ∧
        (endMarkerAt p i ∧ endMarkerAt p (i + 1)) ∧
        (∀ j, j < i → ¬ (endMarkerAt p j ∧ endMarkerAt p (j + 1))) ∧
        ∀ j, q.mData[j]? =
          if p.mByteOrderFix = true ∧ p.mStartParse ≤ j ∧ j < p.mStartParse + (i + 1) then
            (p.mData[j]?).map swapByteOrder
          else p.mData[j]?) ∨
      (v = regionLength p ∧
        (∀ j, j < regionLength p → ¬ (endMarkerAt p j ∧ endMarkerAt p (j + 1))) ∧
        ∀ j, q.mData[j]? =
          if p.mByteOrderFix = true ∧ p.mStartParse ≤ j ∧
              j < p.mStartParse + regionLength p then
            (p.mData[j]?).map swapByteOrder
          else p.mData[j]?)) := by
  obtain ⟨-, -, -, a4⟩ := Parse_spec h
  have key : ∃ k, Swept p q p.mStartParse k := by
    rcases a4 with ⟨i, b1, -, -, -, -, -, b8, -⟩ | ⟨-, -, -, b4, -⟩
    · exact ⟨i + 1, b8⟩
    · exact ⟨_, b4⟩
  obtain ⟨k, hl, hg⟩ := key
  refine ⟨hl, fun hf => ?_, ?_⟩
  · apply List.ext_getElem?
    intro j
    rw [hg j]
    simp [hf]
  · rcases a4 with ⟨i, b1, -, b3, b4, b5, -, b8, -⟩ | ⟨b1, b2, -, b4, -⟩
    · exact Or.inl ⟨i, b1, b5, b4, b3, b8.2⟩
    · exact Or.inr ⟨b2, b1, b4.2⟩

/-- Witness for C7: a call with `mByteOrderFix` on over the byte-swapped stream
`[H][M(count=1)][D0][END][END]` followed by a padding word.  The call returns
5 at the pair at offset 3; the four words the cursor has reached are swapped
in place, the second end marker and the padding word are as they were. -/
theorem Parse_buffer_effect_witness :
    ∃ q, Parse sampleRawData (mkParser [0x00080000, 0x03000080, 0x45230100, 0x00100010,
        0x00100010, 0xeeeeeeee] 0 5 2 false true 7 1) = some (5, q) ∧
      q.mData = [0x00000800, 0x80000003, 0x00012345, 0x10001000, 0x00100010, 0xeeeeeeee] ∧
      ((∃ i, i < regionLength (mkParser [0x00080000, 0x03000080, 0x45230100, 0x00100010,
            0x00100010, 0xeeeeeeee] 0 5 2 false true 7 1) ∧ 5 = i + 2 ∧
          (endMarkerAt (mkParser [0x00080000, 0x03000080, 0x45230100, 0x00100010,
              0x00100010, 0xeeeeeeee] 0 5 2 false true 7 1) i ∧
            endMarkerAt (mkParser [0x00080000, 0x03000080, 0x45230100, 0x00100010,
              0x00100010, 0xeeeeeeee] 0 5 2 false true 7 1) (i + 1)) ∧
          (∀ j, j < i → ¬ (endMarkerAt (mkParser [0x00080000, 0x03000080, 0x45230100,
              0x00100010, 0x00100010, 0xeeeeeeee] 0 5 2 false true 7 1) j ∧
            endMarkerAt (mkParser [0x00080000, 0x03000080, 0x45230100, 0x00100010,
              0x00100010, 0xeeeeeeee] 0 5 2 false true 7 1) (j + 1))) ∧
          ∀ j, q.mData[j]? =
            if (mkParser [0x00080000, 0x03000080, 0x45230100, 0x00100010, 0x00100010,
                  0xeeeeeeee] 0 5 2 false true 7 1).mByteOrderFix = true ∧
                (mkParser [0x00080000, 0x03000080, 0x45230100, 0x00100010, 0x00100010,
                  0xeeeeeeee] 0 5 2 false true 7 1).mStartParse ≤ j ∧
                j < (mkParser [0x00080000, 0x03000080, 0x45230100, 0x00100010, 0x00100010,
                  0xeeeeeeee] 0 5 2 false true 7 1).mStartParse + (i + 1) then
              ((mkParser [0x00080000, 0x03000080, 0x45230100, 0x00100010, 0x00100010,
                0xeeeeeeee] 0 5 2 false true 7 1).mData[j]?).map swapByteOrder
            else (mkParser [0x00080000, 0x03000080, 0x45230100, 0x00100010, 0x00100010,
                0xeeeeeeee] 0 5 2 false true 7 1).mData[j]?) ∨
        (5 = regionLength (mkParser [0x00080000, 0x03000080, 0x45230100, 0x00100010,
            0x00100010, 0xeeeeeeee] 0 5 2 false true 7 1) ∧
          (∀ j, j < regionLength (mkParser [0x00080000, 0x03000080, 0x45230100, 0x00100010,
              0x00100010, 0xeeeeeeee] 0 5 2 false true 7 1) →
            ¬ (endMarkerAt (mkParser [0x00080000, 0x03000080, 0x45230100, 0x00100010,
                0x00100010, 0xeeeeeeee] 0 5 2 false true 7 1) j ∧
              endMarkerAt (mkParser [0x00080000, 0x03000080, 0x45230100, 0x00100010,
                0x00100010, 0xeeeeeeee] 0 5 2 false true 7 1) (j + 1))) ∧
          ∀ j, q.mData[j]? =
            if (mkParser [0x00080000, 0x03000080, 0x45230100, 0x00100010, 0x00100010,
                  0xeeeeeeee] 0 5 2 false true 7 1).mByteOrderFix = true ∧
                (mkParser [0x00080000, 0x03000080, 0x45230100, 0x00100010, 0x00100010,
                  0xeeeeeeee] 0 5 2 false true 7 1).mStartParse ≤ j ∧
                j < (mkParser [0x00080000, 0x03000080, 0x45230100, 0x00100010, 0x00100010,
                  0xeeeeeeee] 0 5 2 false true 7 1).mStartParse +
                  regionLength (mkParser [0x00080000, 0x03000080, 0x45230100, 0x00100010,
                    0x00100010, 0xeeeeeeee] 0 5 2 false true 7 1) then
              ((mkParser [0x00080000, 0x03000080, 0x45230100, 0x00100010, 0x00100010,
                0xeeeeeeee] 0 5 2 false true 7 1).mData[j]?).map swapByteOrder
            else (mkParser [0x00080000, 0x03000080, 0x45230100, 0x00100010, 0x00100010,
                0xeeeeeeee] 0 5 2 false true 7 1).mData[j]?)) := by
  have hq : (Parse sampleRawData (mkParser [0x00080000, 0x03000080, 0x45230100, 0x00100010,
      0x00100010, 0xeeeeeeee] 0 5 2 false true 7 1)).isSome = true := by decide
  obtain ⟨⟨v, q⟩, hvq⟩ := Option.isSome_iff_exists.1 hq
  have hv : (Parse sampleRawData (mkParser [0x00080000, 0x03000080, 0x45230100, 0x00100010,
      0x00100010, 0xeeeeeeee] 0 5 2 false true 7 1)).map (fun r => (r.1, r.2.mData))
      = some (5, [0x00000800, 0x80000003, 0x00012345, 0x10001000, 0x00100010, 0xeeeeeeee]) := by
    decide
  rw [hvq] at hv
  simp only [Option.map_some', Option.some.injEq, Prod.mk.injEq] at hv
  obtain ⟨rfl, hd⟩ := hv
  exact ⟨q, hvq, hd, (Parse_buffer_effect sampleRawData _ q 5 hvq).2.2⟩

/-- C10: every tracklet appended by one call of `Parse` has `format = 4` and
`hcid = mDetector * 2 + mRobSide`, a value fixed by the configuration and the
same for all tracklets of the call. -/
theorem Parse_tracklets_format_and_hcid (rd : RawData) (p q : TrackletsParser) (v : Nat)
    (h : Parse rd p = some (v, q)) :
    ∃ new : List Tracklet64, q.mTracklets = p.mTracklets ++ new ∧
      ∀ t ∈ new, t.format = 4 ∧ t.hcid = p.mDetector * 2 + p.mRobSide := by
  obtain ⟨-, -, -, a4⟩ := Parse_spec h
  rcases a4 with ⟨i, -, -, -, -, -, -, -, new, e1, -, -, e4⟩ | ⟨-, -, -, -, new, e1, -, -, e4⟩
  · exact ⟨new, e1, e4⟩
  · exact ⟨new, e1, e4⟩

/-- Witness for C10: a call that appends two tracklets to one left by an
earlier call. -/
theorem Parse_tracklets_format_and_hcid_witness :
    ∃ v q, Parse sampleRawData
        { mkParser [0x800, 0x80000005, 0x12345, 0x54320, 0x10001000, 0x10001000, 0] 0 6 2
            false false 7 1 with mTracklets := [Tracklet64.mk 4 3 0 0 0 0 0 0 0] } = some (v, q) ∧
      q.mTracklets.length = 3 ∧
      ∃ new : List Tracklet64,
        q.mTracklets = [Tracklet64.mk 4 3 0 0 0 0 0 0 0] ++ new ∧
        ∀ t ∈ new, t.format = 4 ∧ t.hcid = 7 * 2 + 1 := by
  have hq : (Parse sampleRawData
      { mkParser [0x800, 0x80000005, 0x12345, 0x54320, 0x10001000, 0x10001000, 0] 0 6 2
          false false 7 1 with mTracklets := [Tracklet64.mk 4 3 0 0 0 0 0 0 0] }).isSome
      = true := by decide
  obtain ⟨⟨v, q⟩, hvq⟩ := Option.isSome_iff_exists.1 hq
  have hlen : (Parse sampleRawData
      { mkParser [0x800, 0x80000005, 0x12345, 0x54320, 0x10001000, 0x10001000, 0] 0 6 2
          false false 7 1 with mTracklets := [Tracklet64.mk 4 3 0 0 0 0 0 0 0] }).map
      (fun r => r.2.mTracklets.length) = some 3 := by decide
  rw [hvq] at hlen
  exact ⟨v, q, hvq, by simpa using hlen,
    Parse_tracklets_format_and_hcid sampleRawData _ q v hvq⟩

/-- C2, as stated, fails.  The region `[H][M(count=2)][D0][D1][END][END]` of
the claim, when it fills its array, has no result: the end-marker branch loads
the word after the pair (line 142).  And under policy 1 a region with no
module, `[H][END][END]`, starts in `StateTrackletMCMHeader`, so `H` is taken as
module data: the call has no result when no module header has been decoded
before, and appends one tracklet when the reference an earlier call left
designates a word of the array. -/
theorem Parse_wellformed_stream_counterexample :
    (wellFormedModule sampleRawData false (0x80000005, [0x12345, 0x54320]) ∧
      [0x800, 0x80000005, 0x12345, 0x54320, 0x10001000, 0x10001000] =
        0x800 :: (streamOfModules [(0x80000005, [0x12345, 0x54320])] ++
          [0x10001000, 0x10001000]) ∧
      Parse sampleRawData (mkParser [0x800, 0x80000005, 0x12345, 0x54320, 0x10001000,
        0x10001000] 0 6 1 false false 7 1) = none ∧
      Parse sampleRawData (mkParser [0x800, 0x80000005, 0x12345, 0x54320, 0x10001000,
        0x10001000] 0 6 2 false false 7 1) = none) ∧
    ([0x800, 0x10001000, 0x10001000] =
        0x800 :: (streamOfModules [] ++ [0x10001000, 0x10001000]) ∧
      Parse sampleRawData (mkParser [0x800, 0x10001000, 0x10001000, 0] 0 3 1 false false 7 1)
        = none ∧
      (Parse sampleRawData
        { mkParser [0x800, 0x10001000, 0x10001000, 0] 0 3 1 false false 7 1
          with mTrackletMCMHeader := some 3 }).map (fun r => (r.1, r.2.mTracklets.length))
        = some (3, 1)) := by
  decide

/-- C2, amended: a region `[H][M_1][D..]...[M_m][D..][END][END]` anywhere in
the array and followed there by at least one more word, under policy 2, or
under policy 1 with at least one module, with the ignore flag off: the
examined `H` has bit 11 set, every module is well formed with a declared count
in {1,2,3} equal to its number of data words, and no examined `H`, `M` or `D`
is `END_MARKER` or `PADDING`.  Whatever an earlier call has left in the parser,
`Parse` returns the region length `1 + m + (k_1 + ... + k_m) + 2`, ends in
`StateTrackletEndMarker`, and appends exactly one tracklet per data word, in
the order of the data words. -/
theorem Parse_wellformed_stream (rd : RawData) (p : TrackletsParser) (pre post : List Nat)
    (H E1 E2 after : Nat) (modules : List (Nat × List Nat))
    (hdata : p.mData = pre ++ (H :: (streamOfModules modules ++ [E1, E2])) ++ after :: post)
    (hstart : p.mStartParse = pre.length)
    (hend : p.mEndParse = pre.length + (1 + (streamOfModules modules).length + 2))
    (hpol : p.mTrackletHCHeaderState = 2 ∨ (p.mTrackletHCHeaderState = 1 ∧ modules ≠ []))
    (hign : p.mIgnoreTrackletHCHeader = false)
    (hH : normalize p.mByteOrderFix H &&& (0x1 <<< 11) ≠ 0 ∧
      normalize p.mByteOrderFix H ≠ 0x10001000 ∧
      normalize p.mByteOrderFix H ≠ rd.CRUPADDING32)
    (hM : ∀ m ∈ modules, wellFormedModule rd p.mByteOrderFix m ∧ 1 ≤ m.2.length)
    (hE : normalize p.mByteOrderFix E1 = 0x10001000 ∧
      normalize p.mByteOrderFix E2 = 0x10001000) :
    ∃ q, Parse rd p = some (regionLength p, q) ∧
      regionLength p = 1 + modules.length + declaredTotal modules + 2 ∧
      q.mState = TrackletParserState.StateTrackletEndMarker ∧
      q.mTracklets = p.mTracklets ++
        trackletsOfModules rd (p.mDetector * 2 + p.mRobSide) p.mByteOrderFix modules ∧
      (trackletsOfModules rd (p.mDetector * 2 + p.mRobSide) p.mByteOrderFix modules).length
        = declaredTotal modules ∧
      q.mTrackletsFound = declaredTotal modules := by
  have hdrop : p.mData.drop pre.length =
      H :: (streamOfModules modules ++ E1 :: E2 :: after :: post) := by
    rw [hdata, List.append_assoc, List.drop_left]
    simp
  -- the word after `H` as stored
  have hnext : ∃ nxt tail1, streamOfModules modules ++ E1 :: E2 :: after :: post = nxt :: tail1 ∧
      (modules ≠ [] → nxt ≠ constants.TRACKLETENDMARKER) := by
    cases modules with
    | nil => exact ⟨E1, E2 :: after :: post, rfl, fun hx => absurd rfl hx⟩
    | cons m1 ms1 =>
      refine ⟨m1.1, m1.2 ++ streamOfModules ms1 ++ E1 :: E2 :: after :: post, ?_, fun _ => ?_⟩
      · simp [streamOfModules, moduleWords]
      · have hm1 := (hM m1 (List.mem_cons_self _ _)).1
        exact raw_header_ne_endmarker p.mByteOrderFix m1.1 hm1.1
          (hm1.2.2.2 m1.1 (List.mem_cons_self _ _)).1
  obtain ⟨nxt, tail1, hnt, hne⟩ := hnext
  have hdrop0 : p.mData.drop pre.length = H :: nxt :: tail1 := by rw [hdrop, hnt]
  obtain ⟨hwH, hnH⟩ := getElem_of_drop hdrop0
  -- lines 77-100
  have hs : ∃ p0, startParser p = some p0 ∧
      p0.mState = TrackletParserState.StateTrackletHCHeader := by
    obtain ⟨p0, hp0⟩ := startParser_defined p (fun _ => by
      rw [hstart]
      by_contra hge
      rw [List.getElem?_eq_none (by omega)] at hnH
      cases hnH)
    refine ⟨p0, hp0, ?_⟩
    unfold startParser initialState at hp0
    simp only at hp0
    rcases hpol with h2 | ⟨h1, hms⟩
    · rw [h2] at hp0
      simp only [show ¬ ((2 : Int) = 0) by decide, show ¬ ((2 : Int) = 1) by decide,
        if_false, Option.some.injEq] at hp0
      rw [← hp0]
    · rw [h1, hstart, hnH] at hp0
      simp only [show ¬ ((1 : Int) = 0) by decide, if_false, if_true, ne_eq, hne hms,
        not_false_eq_true, Option.some.injEq] at hp0
      rw [← hp0]
  obtain ⟨p0, hs, hst0⟩ := hs
  obtain ⟨s1, s2, s3, s4, s5, s6, -⟩ := startParser_some hs
  have e1 : p0.mStartParse = p.mStartParse := s2.1
  have e2 : p0.mEndParse = p.mEndParse := s2.2.1
  have e3 : p0.mByteOrderFix = p.mByteOrderFix := s2.2.2.2.2.1
  -- the pass over `H`
  obtain ⟨q1, a0, a1, a2, a3, a4, a5, a6, -⟩ := parseWord_hcheader rd p0 pre.length H nxt 0 0
    hst0 (by rw [s2.2.2.2.1]; exact hign) (by rw [s1]; exact hwH) (by rw [s1]; exact hnH)
    (by rw [e3]; exact fun hp => hH.2.1 hp.1) (by rw [e3]; exact hH.2.2)
    (by rw [e3]; exact hH.1)
  have hfix1 : q1.mByteOrderFix = p.mByteOrderFix := a3.2.2.2.2.1.trans e3
  have hdrop1 : q1.mData.drop (pre.length + 1) = streamOfModules modules ++ E1 :: E2 :: after :: post := by
    rw [a1, bufferAfter_drop, s1]
    exact drop_succ_of_drop hdrop
  -- the passes over the modules
  obtain ⟨q2, c2, h2, b0, b1, b2, b3, b4, b5, b6⟩ := modules_run rd modules (pre.length + 1)
    0 0 q1 E1 (E2 :: after :: post) hdrop1 (by rw [a4]; decide) (fun _ => a4)
    (by
      intro m hm
      rw [hfix1]
      exact hM m hm)
  have hfix2 : q2.mByteOrderFix = p.mByteOrderFix := b3.2.2.2.2.1.trans hfix1
  -- the pass that meets the end markers
  obtain ⟨hwE, hnE⟩ := getElem_of_drop b1
  have hpE : normalize q2.mByteOrderFix E1 = 0x10001000 ∧
      normalize q2.mByteOrderFix E2 = 0x10001000 := by
    rw [hfix2]
    exact hE
  have hld : loadsDefined q2 (pre.length + 1 + (streamOfModules modules).length)
      (passKind rd q2 (normalize q2.mByteOrderFix E1) (normalize q2.mByteOrderFix E2)) := by
    rw [(passKind_endMarker_iff rd q2 _ _).2 hpE]
    unfold loadsDefined
    rw [getElem_third_of_drop b1]
    simp
  rcases parseWord_defined rd q2 (pre.length + 1 + (streamOfModules modules).length) E1 E2
    c2 h2 b4 hwE hnE hld with ⟨_, q, hq⟩ | ⟨hn, _⟩
  · obtain ⟨r1, r2, r3, r4, r5, r6, r7, r8, r9, -⟩ := parseWord_ret b4 hq
    have hL := streamOfModules_length modules
    have hreg : regionLength p = 1 + (streamOfModules modules).length + 2 := by
      unfold regionLength
      omega
    refine ⟨q, ?_, by rw [hreg, hL]; omega, r5, ?_, trackletsOfModules_length _ _ _ _, ?_⟩
    · unfold Parse
      simp only [hs, e1, e2]
      rw [if_neg (by omega)]
      have hsplit : p.mEndParse - p.mStartParse =
          1 + ((streamOfModules modules).length + (0 + 1 + 1)) := by omega
      have hone : parseLoop rd 1 pre.length 0 0 p0 = some (Outcome.next q1 0 0) := by
        show parseLoop rd (0 + 1) pre.length 0 0 p0 = _
        rw [parseLoop_step_next 0 a0]
        rfl
      rw [hsplit, hstart, parseLoop_add_next _ hone, parseLoop_add_next _ b0,
        parseLoop_step_ret _ hq, hreg, b2, a2, s3]
    · rw [r8, b5, a5, s5, a3.2.2.2.2.2.1, a3.2.2.2.2.2.2, s2.2.2.2.2.2.1, s2.2.2.2.2.2.2, hfix1]
    · rw [r9, b6, a6, s4]
      omega
  · exact absurd hpE hn

/-- Witness for C2: `[H][M(count=2)][D0][D1][0x10001000][0x10001000]`, followed
by one more word, under policy 1 gives the tracklets of `D0` and `D1`, in that
order, and returns 6. -/
theorem Parse_wellformed_stream_witness :
    (Parse sampleRawData (mkParser [0x800, 0x80000005, 0x12345, 0x54320, 0x10001000,
        0x10001000, 0] 0 6 1 false false 7 1)).map (fun r => (r.1, r.2.mTracklets))
      = some (6, [trackletOf sampleRawData 15 0x80000005 0x12345 0,
          trackletOf sampleRawData 15 0x80000005 0x54320 1]) ∧
    ∃ q, Parse sampleRawData (mkParser [0x800, 0x80000005, 0x12345, 0x54320, 0x10001000,
        0x10001000, 0] 0 6 1 false false 7 1)
        = some (regionLength (mkParser [0x800, 0x80000005, 0x12345, 0x54320, 0x10001000,
            0x10001000, 0] 0 6 1 false false 7 1), q) ∧
      regionLength (mkParser [0x800, 0x80000005, 0x12345, 0x54320, 0x10001000,
            0x10001000, 0] 0 6 1 false false 7 1)
        = 1 + [((0x80000005 : Nat), [(0x12345 : Nat), 0x54320])].length +
            declaredTotal [(0x80000005, [0x12345, 0x54320])] + 2 ∧
      q.mState = TrackletParserState.StateTrackletEndMarker ∧
      q.mTracklets = [] ++ trackletsOfModules sampleRawData (7 * 2 + 1) false
        [(0x80000005, [0x12345, 0x54320])] ∧
      (trackletsOfModules sampleRawData (7 * 2 + 1) false
        [(0x80000005, [0x12345, 0x54320])]).length
          = declaredTotal [(0x80000005, [0x12345, 0x54320])] ∧
      q.mTrackletsFound = declaredTotal [(0x80000005, [0x12345, 0x54320])] :=
  ⟨by decide,
    Parse_wellformed_stream sampleRawData
      (mkParser [0x800, 0x80000005, 0x12345, 0x54320, 0x10001000, 0x10001000, 0] 0 6 1
        false false 7 1) [] [] 0x800 0x10001000 0x10001000 0
      [(0x80000005, [0x12345, 0x54320])]
      (by decide) (by decide) (by decide) (by decide) (by decide) (by decide) (by decide)
      (by decide)⟩

/-- For every decoder: in `[H][M0][M1][D][END][END]` under policy 2, where `M0`
declares no tracklet and `M1` declares one, the header `M1` is taken as a data
word of `M0`, and the call appends two tracklets although one is declared. -/
theorem Parse_after_zero_count_header (rd : RawData) (p : TrackletsParser)
    (pre post : List Nat) (H M0 M1 D E1 E2 after : Nat)
    (hdata : p.mData = pre ++ [H, M0, M1, D, E1, E2] ++ after :: post)
    (hstart : p.mStartParse = pre.length)
    (hend : p.mEndParse = pre.length + 6)
    (hpol : p.mTrackletHCHeaderState = 2)
    (hign : p.mIgnoreTrackletHCHeader = false)
    (hH : normalize p.mByteOrderFix H &&& (0x1 <<< 11) ≠ 0 ∧
      normalize p.mByteOrderFix H ≠ 0x10001000 ∧
      normalize p.mByteOrderFix H ≠ rd.CRUPADDING32)
    (hM0 : wellFormedModule rd p.mByteOrderFix (M0, []))
    (hM1 : wellFormedModule rd p.mByteOrderFix (M1, [D]))
    (hE : normalize p.mByteOrderFix E1 = 0x10001000 ∧
      normalize p.mByteOrderFix E2 = 0x10001000) :
    ∃ q, Parse rd p = some (6, q) ∧
      declaredTotal [(M0, []), (M1, [D])] = 1 ∧
      q.mTracklets = p.mTracklets ++
        [trackletOf rd (p.mDetector * 2 + p.mRobSide) (normalize p.mByteOrderFix M0)
            (normalize p.mByteOrderFix M1) 0,
          trackletOf rd (p.mDetector * 2 + p.mRobSide) (normalize p.mByteOrderFix M0)
            (normalize p.mByteOrderFix D) 1] := by
  have hdrop : p.mData.drop pre.length = H :: M0 :: M1 :: D :: E1 :: E2 :: after :: post := by
    rw [hdata, List.append_assoc, List.drop_left]
    simp
  obtain ⟨p0, hs, hst0⟩ := startParser_always p hpol
  obtain ⟨s1, s2, s3, s4, s5, s6, -⟩ := startParser_some hs
  have e1 : p0.mStartParse = p.mStartParse := s2.1
  have e2 : p0.mEndParse = p.mEndParse := s2.2.1
  have e3 : p0.mByteOrderFix = p.mByteOrderFix := s2.2.2.2.2.1
  have hM0w := hM0.2.2.2 M0 (List.mem_cons_self _ _)
  have hM1w := hM1.2.2.2 M1 (List.mem_cons_self _ _)
  have hDw := hM1.2.2.2 D (List.mem_cons_of_mem _ (List.mem_cons_self _ _))
  have hcount0 : rd.getNumberofTracklets (normalize p.mByteOrderFix M0) = 0 := by
    have := hM0.2.1
    simpa using this
  -- the pass over `H`
  obtain ⟨hw0, hn0⟩ := getElem_of_drop hdrop
  obtain ⟨q1, a0, a1, a2, a3, a4, a5, a6, -⟩ := parseWord_hcheader rd p0 pre.length H M0 0 0
    hst0 (by rw [s2.2.2.2.1]; exact hign) (by rw [s1]; exact hw0) (by rw [s1]; exact hn0)
    (by rw [e3]; exact fun hp => hH.2.1 hp.1) (by rw [e3]; exact hH.2.2)
    (by rw [e3]; exact hH.1)
  have f1 : q1.mByteOrderFix = p.mByteOrderFix := a3.2.2.2.2.1.trans e3
  have d1 : q1.mData.drop (pre.length + 1) = M0 :: M1 :: D :: E1 :: E2 :: after :: post := by
    rw [a1, bufferAfter_drop, s1]
    exact drop_succ_of_drop hdrop
  -- the pass over `M0`
  obtain ⟨hw1, hn1⟩ := getElem_of_drop d1
  obtain ⟨q2, b0, b1, b2, b3, b4, b5, b6, b7⟩ := parseWord_mcmheader rd q1 (pre.length + 1) M0
    M1 0 0 a4 hw1 hn1 (by rw [f1]; exact fun hp => hM0w.1 hp.1) (by rw [f1]; exact hM0w.2)
    (by rw [f1, hM0.1]; decide)
  rw [f1, hcount0] at b0
  have f2 : q2.mByteOrderFix = p.mByteOrderFix := b3.2.2.2.2.1.trans f1
  have d2 : q2.mData.drop (pre.length + 1 + 1) = M1 :: D :: E1 :: E2 :: after :: post := by
    rw [b1, bufferAfter_drop]
    exact drop_succ_of_drop d1
  -- the pass over `M1`, in `StateTrackletMCMData`
  obtain ⟨hw2, hn2⟩ := getElem_of_drop d2
  have v2 : q2.mData[pre.length + 1]? = some (normalize p.mByteOrderFix M0) := by
    rw [b1, ← f1]
    exact bufferAfter_self q1 (pre.length + 1) M0 hw1
  obtain ⟨q3, c0, c1, c2, c3, c4, c5, c6, c7⟩ := parseWord_mcmdata rd q2 (pre.length + 1 + 1)
    M1 D (normalize p.mByteOrderFix M0) 0 0 (by rw [b4]; decide) hw2 hn2
    (activeHeader_of_lt q2 _ _ _ b7 (by omega) v2)
    (by rw [f2]; exact fun hp => hM1w.1 hp.1)
    (by rw [f2]; exact hM1w.2) (by rw [b4]; simp) (by rw [b4]; simp)
  rw [if_neg (by decide)] at c4
  have f3 : q3.mByteOrderFix = p.mByteOrderFix := c3.2.2.2.2.1.trans f2
  have d3 : q3.mData.drop (pre.length + 1 + 1 + 1) = D :: E1 :: E2 :: after :: post := by
    rw [c1, bufferAfter_drop]
    exact drop_succ_of_drop d2
  -- the pass over `D`
  obtain ⟨hw3, hn3⟩ := getElem_of_drop d3
  have v3 : q3.mData[pre.length + 1]? = some (normalize p.mByteOrderFix M0) := by
    rw [c1, bufferAfter_getElem, if_neg (by omega)]
    exact v2
  obtain ⟨q4, g0, g1, g2, g3, g4, g5, g6, g7⟩ := parseWord_mcmdata rd q3
    (pre.length + 1 + 1 + 1) D E1 (normalize p.mByteOrderFix M0) (0 + 1) 0
    (by rw [c4]; decide) hw3 hn3
    (activeHeader_of_lt q3 _ _ _ (c7.trans b7) (by omega) v3)
    (by rw [f3]; exact fun hp => hDw.1 hp.1) (by rw [f3]; exact hDw.2)
    (by rw [c4]; simp) (by rw [c4]; simp)
  rw [if_neg (by decide)] at g4
  have f4 : q4.mByteOrderFix = p.mByteOrderFix := g3.2.2.2.2.1.trans f3
  have d4 : q4.mData.drop (pre.length + 1 + 1 + 1 + 1) = E1 :: E2 :: after :: post := by
    rw [g1, bufferAfter_drop]
    exact drop_succ_of_drop d3
  -- the pass that meets the end markers
  obtain ⟨hw4, hn4⟩ := getElem_of_drop d4
  have hfin4 : q4.mState ≠ TrackletParserState.StateFinished := by rw [g4]; decide
  have hpE : normalize q4.mByteOrderFix E1 = 0x10001000 ∧
      normalize q4.mByteOrderFix E2 = 0x10001000 := by
    rw [f4]
    exact hE
  have hld : loadsDefined q4 (pre.length + 1 + 1 + 1 + 1)
      (passKind rd q4 (normalize q4.mByteOrderFix E1) (normalize q4.mByteOrderFix E2)) := by
    rw [(passKind_endMarker_iff rd q4 _ _).2 hpE]
    unfold loadsDefined
    rw [getElem_third_of_drop d4]
    simp
  rcases parseWord_defined rd q4 (pre.length + 1 + 1 + 1 + 1) E1 E2 (0 + 1 + 1) 0 hfin4
    hw4 hn4 hld with ⟨_, q, hq⟩ | ⟨hn, _⟩
  · obtain ⟨r1, r2, r3, r4, r5, r6, r7, r8, r9, -⟩ := parseWord_ret hfin4 hq
    refine ⟨q, ?_, rfl, ?_⟩
    · unfold Parse
      simp only [hs, e1, e2]
      rw [if_neg (by omega)]
      have hsplit : p.mEndParse - p.mStartParse = 0 + 1 + 1 + 1 + 1 + 1 + 1 := by omega
      rw [hsplit, hstart, parseLoop_step_next _ a0, parseLoop_step_next _ b0,
        parseLoop_step_next _ c0, parseLoop_step_next _ g0, parseLoop_step_ret _ hq,
        g2, c2, b2, a2, s3]
    · have hd2 : q2.mDetector = p.mDetector :=
        (b3.2.2.2.2.2.1.trans a3.2.2.2.2.2.1).trans s2.2.2.2.2.2.1
      have hr2 : q2.mRobSide = p.mRobSide :=
        (b3.2.2.2.2.2.2.trans a3.2.2.2.2.2.2).trans s2.2.2.2.2.2.2
      have hd3 : q3.mDetector = p.mDetector := c3.2.2.2.2.2.1.trans hd2
      have hr3 : q3.mRobSide = p.mRobSide := c3.2.2.2.2.2.2.trans hr2
      rw [r8, g5, c5, b5, a5, s5, f3, f2, hd2, hr2, hd3, hr3, List.append_assoc]
      rfl
  · exact absurd hpE hn

/-- C1, evaluated where it fails: `[H][M(count=0)][M(count=1)][D][END][END]`,
followed in the array by one more word, under policy 2 meets the conditions of
the claim and declares one tracklet in total.  `Parse` returns the region
length 6 but emits two tracklets: after the header that declares none the
state stays `StateTrackletMCMData`, so the next header is taken as a data
word. -/
theorem Parse_zero_count_module :
    (∀ m ∈ [((0x80000001 : Nat), ([] : List Nat)), (0x80000003, [0x54320])],
      wellFormedModule sampleRawData false m) ∧
    ((0x800 : Nat) &&& (0x1 <<< 11) ≠ 0 ∧ (0x800 : Nat) ≠ 0x10001000 ∧
      (0x800 : Nat) ≠ sampleRawData.CRUPADDING32) ∧
    (mkParser [0x800, 0x80000001, 0x80000003, 0x54320, 0x10001000, 0x10001000, 0]
        0 6 2 false false 7 1).mData.take 6 =
      0x800 :: (streamOfModules [(0x80000001, []), (0x80000003, [0x54320])] ++
        [0x10001000, 0x10001000]) ∧
    declaredTotal [(0x80000001, []), (0x80000003, [0x54320])] = 1 ∧
    (Parse sampleRawData (mkParser [0x800, 0x80000001, 0x80000003, 0x54320, 0x10001000,
        0x10001000, 0] 0 6 2 false false 7 1)).map
      (fun r => (r.1, r.2.mTracklets, r.2.mTrackletsFound))
      = some (6, [trackletOf sampleRawData 15 0x80000001 0x80000003 0,
          trackletOf sampleRawData 15 0x80000001 0x54320 1], 2) := by
  decide

/-! ## Passes by kind -/

theorem expectedTracklets_cons (rd : RawData) (hcid : Int) (header : Option Nat) (i : Int)
    (k : PassKind) (w : Nat) (stale : Option Nat) (es : List (PassKind × Nat × Option Nat)) :
    expectedTracklets rd hcid header i ((k, w, stale) :: es) =
      emitted rd hcid k (headerFor header stale) w i ++
        expectedTracklets rd hcid (nextHeader k header w) (nextCount k i) es := by
  cases k <;> simp [expectedTracklets, emitted, nextHeader, nextCount]

/-- The module header reference designates the word before the cursor in which
the header `header` was decoded. -/
theorem headerFor_active (p : TrackletsParser) (word : Nat) (header : Option Nat)
    (hinv : ∀ hd, header = some hd →
      ∃ i, p.mTrackletMCMHeader = some i ∧ i < word ∧ p.mData[i]? = some hd) :
    headerFor header (activeHeader p word) = activeHeader p word := by
  cases header with
  | none => rfl
  | some hd =>
    obtain ⟨i, h1, h2, h3⟩ := hinv hd rfl
    rw [activeHeader_of_lt p word i hd h1 h2 h3]
    rfl

/-- The tracklets the loop appends are those of its data passes, in order;
`header` is the word of the most recent module header pass before the loop. -/
theorem parseLoop_tracklets (rd : RawData) :
    ∀ (r word : Nat) (c h : Int) (p : TrackletsParser) (o : Outcome) (header : Option Nat),
      (∀ hd, header = some hd →
        ∃ i, p.mTrackletMCMHeader = some i ∧ i < word ∧ p.mData[i]? = some hd) →
      parseLoop rd r word c h p = some o →
      o.parser.mTracklets = p.mTracklets ++
        expectedTracklets rd (p.mDetector * 2 + p.mRobSide) header c
          (events rd r word c h p) := by
  intro r
  induction r with
  | zero =>
    intro word c h p o header _ hrun
    simp only [parseLoop, Option.some.injEq] at hrun
    subst hrun
    simp [Outcome.parser, events, expectedTracklets]
  | succ r ih =>
    intro word c h p o header hinv hrun
    by_cases hfin : p.mState = TrackletParserState.StateFinished
    · rw [parseLoop, parseWord_finished rd p word c h hfin] at hrun
      simp only [Option.some.injEq] at hrun
      subst hrun
      rw [events, if_pos hfin]
      simp [Outcome.parser, expectedTracklets]
    · cases hstep : parseWord rd p word c h with
      | none =>
        rw [parseLoop, hstep] at hrun
        cases hrun
      | some o1 =>
        cases o1 with
        | ret v q =>
          obtain ⟨raw, nextraw, hw, hn⟩ := parseWord_loads hfin hstep
          obtain ⟨-, a2, -, -, -, -, -, a8, -, -⟩ := parseWord_ret hfin hstep
          rw [hw, hn] at a2
          simp only [Option.map_some', Option.some.injEq] at a2
          rw [events_cons rd p r word raw nextraw c h hfin hw hn, expectedTracklets_cons,
            (passKind_endMarker_iff rd p _ _).2 a2, hstep]
          rw [parseLoop, hstep] at hrun
          simp only [Option.some.injEq] at hrun
          subst hrun
          simp only [Outcome.parser, expectedTracklets, emitted, List.append_nil]
          exact a8
        | next q c1 h1 =>
          obtain ⟨raw, nextraw, hw, hn, hk, hc1, hh1, hst, htr, hhd, hld⟩ :=
            parseWord_next_by_kind hstep
          obtain ⟨-, -, -, -, n5, -, n7, -⟩ := parseWord_next hstep
          rw [events_cons rd p r word raw nextraw c h hfin hw hn, expectedTracklets_cons,
            headerFor_active p word header hinv, hstep]
          rw [parseLoop, hstep] at hrun
          simp only at hrun
          simp only
          rw [ih (word + 1) c1 h1 q o (nextHeader (passKind rd p (normalize p.mByteOrderFix raw)
            (normalize p.mByteOrderFix nextraw)) header (normalize p.mByteOrderFix raw)) ?_ hrun,
            htr, n7.2.2.2.2.2.1, n7.2.2.2.2.2.2, List.append_assoc, hc1]
          intro hd hhd1
          rw [hhd, n5]
          generalize passKind rd p (normalize p.mByteOrderFix raw)
            (normalize p.mByteOrderFix nextraw) = k at hhd1 ⊢
          have hother : ∀ i, i < word → (bufferAfter p word)[i]? = p.mData[i]? := by
            intro i hi
            rw [bufferAfter_getElem, if_neg (by omega)]
          cases k
          case mcmHeader =>
            simp only [nextHeader, Option.some.injEq] at hhd1 ⊢
            subst hhd1
            exact ⟨word, rfl, by omega, bufferAfter_self p word raw hw⟩
          all_goals
            simp only [nextHeader] at hhd1 ⊢
            obtain ⟨i, h1, h2, h3⟩ := hinv hd hhd1
            exact ⟨i, h1, by omega, by rw [hother i h2]; exact h3⟩

/-- In a loop that has a result the read through `mTrackletMCMHeader` has a
result in every pass that takes the data branch. -/
theorem parseLoop_events_defined (rd : RawData) :
    ∀ (r word : Nat) (c h : Int) (p : TrackletsParser) (o : Outcome),
      parseLoop rd r word c h p = some o →
      ∀ e ∈ events rd r word c h p, e.1 = PassKind.mcmData → e.2.2 ≠ none := by
  intro r
  induction r with
  | zero =>
    intro word c h p o _ e he
    simp [events] at he
  | succ r ih =>
    intro word c h p o hrun e he
    by_cases hfin : p.mState = TrackletParserState.StateFinished
    · rw [events, if_pos hfin] at he
      simp at he
    · cases hstep : parseWord rd p word c h with
      | none =>
        rw [parseLoop, hstep] at hrun
        cases hrun
      | some o1 =>
        obtain ⟨raw, nextraw, hw, hn, hld, -⟩ := parseWord_some_by_kind hfin hstep
        rw [events_cons rd p r word raw nextraw c h hfin hw hn] at he
        rcases List.mem_cons.1 he with he | he
        · rw [he]
          intro hk
          simp only at hk
          rw [hk] at hld
          exact hld
        · cases o1 with
          | ret v q => simp [hstep] at he
          | next q c1 h1 =>
            simp only [hstep] at he
            rw [parseLoop, hstep] at hrun
            simp only at hrun
            exact ih _ _ _ _ _ hrun e he

theorem expectedFields_of_tracklets (rd : RawData) (hcid : Int) :
    ∀ (es : List (PassKind × Nat × Option Nat)) (header : Option Nat) (i : Int),
      (expectedTracklets rd hcid header i es).map
          (fun t => (t.padrow, t.col, t.pos, t.slope)) = expectedFields rd header es := by
  intro es
  induction es with
  | nil => intro header i; rfl
  | cons e es ih =>
    intro header i
    obtain ⟨k, w, st⟩ := e
    cases k <;> simp only [expectedTracklets, expectedFields, List.map_append, ih]
    cases headerFor header st <;> simp [emitted, trackletOf]

theorem expectedCharges_of_tracklets (rd : RawData) (hcid : Int) :
    ∀ (es : List (PassKind × Nat × Option Nat)) (header : Option Nat) (i : Int),
      (expectedTracklets rd hcid header i es).map (fun t => (t.q0, t.q1, t.q2))
        = expectedCharges rd header i es := by
  intro es
  induction es with
  | nil => intro header i; rfl
  | cons e es ih =>
    intro header i
    obtain ⟨k, w, st⟩ := e
    cases k <;> simp only [expectedTracklets, expectedCharges, List.map_append, ih]
    cases headerFor header st <;> simp [emitted, trackletOf]

theorem expectedTracklets_length (rd : RawData) (hcid : Int) :
    ∀ (es : List (PassKind × Nat × Option Nat)) (header : Option Nat) (i : Int),
      (∀ e ∈ es, e.1 = PassKind.mcmData → e.2.2 ≠ none) →
      (expectedTracklets rd hcid header i es).length =
        (es.filter (fun e => decide (e.1 = PassKind.mcmData))).length := by
  intro es
  induction es with
  | nil => intro header i _; rfl
  | cons e es ih =>
    intro header i hdef
    obtain ⟨k, w, st⟩ := e
    have htail : ∀ e ∈ es, e.1 = PassKind.mcmData → e.2.2 ≠ none :=
      fun e he => hdef e (List.mem_cons_of_mem _ he)
    cases k
    case mcmData =>
      have hst : st ≠ none := hdef _ (List.mem_cons_self _ _) rfl
      have hf : ∃ hd, headerFor header st = some hd := by
        cases header with
        | some hd => exact ⟨hd, rfl⟩
        | none =>
          cases st with
          | none => exact absurd rfl hst
          | some s => exact ⟨s, rfl⟩
      obtain ⟨hd, hf⟩ := hf
      simp [expectedTracklets, hf, emitted, ih _ _ htail]
    all_goals simp [expectedTracklets, ih _ _ htail]

/-- The words of the passes are the stored words from the cursor on, examined
in order. -/
theorem events_word (rd : RawData) :
    ∀ (r word : Nat) (c h : Int) (p : TrackletsParser) (j : Nat)
      (e : PassKind × Nat × Option Nat),
      (events rd r word c h p)[j]? = some e →
      (p.mData[word + j]?).map (normalize p.mByteOrderFix) = some e.2.1 := by
  intro r
  induction r with
  | zero =>
    intro word c h p j e he
    simp [events] at he
  | succ r ih =>
    intro word c h p j e he
    by_cases hfin : p.mState = TrackletParserState.StateFinished
    · rw [events, if_pos hfin] at he
      simp at he
    · cases hn : p.mData[word + 1]? with
      | none =>
        rw [events, if_neg hfin] at he
        simp [hn] at he
      | some nextraw =>
        cases hw : p.mData[word]? with
        | none =>
          rw [events, if_neg hfin] at he
          simp [hn, hw] at he
        | some raw =>
          rw [events_cons rd p r word raw nextraw c h hfin hw hn] at he
          cases j with
          | zero =>
            simp only [List.getElem?_cons_zero, Option.some.injEq] at he
            subst he
            simp [hw]
          | succ j =>
            simp only [List.getElem?_cons_succ] at he
            cases hstep : parseWord rd p word c h with
            | none => simp [hstep] at he
            | some o =>
              cases o with
              | ret v q => simp [hstep] at he
              | next q c1 h1 =>
                simp only [hstep] at he
                have hq := ih (word + 1) c1 h1 q j e he
                obtain ⟨-, -, -, -, a5, -, a7, -⟩ := parseWord_next hstep
                rw [a7.2.2.2.2.1, a5, bufferAfter_getElem] at hq
                have c0 : ¬ (word ≤ word + 1 + j ∧ word + 1 + j < word + 1) := by omega
                rw [if_neg (fun hx => c0 hx.2)] at hq
                have e0 : word + (j + 1) = word + 1 + j := by omega
                rw [e0]
                exact hq

/-- Before the first pass that decodes a module header, the read through
`mTrackletMCMHeader` gives the word the reference designated when the loop
started, as the array holds it at the time of the pass. -/
theorem events_stale (rd : RawData) :
    ∀ (r word : Nat) (c h : Int) (p : TrackletsParser) (j : Nat)
      (e : PassKind × Nat × Option Nat),
      (events rd r word c h p)[j]? = some e →
      (∀ i, i < j → ∀ e1, (events rd r word c h p)[i]? = some e1 →
        e1.1 ≠ PassKind.mcmHeader) →
      e.2.2 = staleHeader p word j := by
  intro r
  induction r with
  | zero =>
    intro word c h p j e he
    simp [events] at he
  | succ r ih =>
    intro word c h p j e he hbefore
    by_cases hfin : p.mState = TrackletParserState.StateFinished
    · rw [events, if_pos hfin] at he
      simp at he
    · cases hn : p.mData[word + 1]? with
      | none =>
        rw [events, if_neg hfin] at he
        simp [hn] at he
      | some nextraw =>
        cases hw : p.mData[word]? with
        | none =>
          rw [events, if_neg hfin] at he
          simp [hn, hw] at he
        | some raw =>
          rw [events_cons rd p r word raw nextraw c h hfin hw hn] at he hbefore
          cases j with
          | zero =>
            simp only [List.getElem?_cons_zero, Option.some.injEq] at he
            subst he
            simp only [activeHeader, staleHeader]
            cases p.mTrackletMCMHeader with
            | none => rfl
            | some i =>
              simp only
              rw [bufferAfter_getElem]
              have e0 : (word ≤ i ∧ i < word + 1) ↔ (word ≤ i ∧ i ≤ word + 0) := by omega
              simp only [e0]
          | succ j =>
            simp only [List.getElem?_cons_succ] at he
            cases hstep : parseWord rd p word c h with
            | none => simp [hstep] at he
            | some o =>
              cases o with
              | ret v q => simp [hstep] at he
              | next q c1 h1 =>
                simp only [hstep] at he hbefore
                have h0 := hbefore 0 (by omega) _ (List.getElem?_cons_zero)
                simp only at h0
                obtain ⟨raw1, nextraw1, hw1, hn1, -, -, -, -, -, hhd, -⟩ :=
                  parseWord_next_by_kind hstep
                rw [hw] at hw1
                rw [hn] at hn1
                obtain rfl := Option.some.inj hw1
                obtain rfl := Option.some.inj hn1
                obtain ⟨-, -, -, -, n5, -, n7, -⟩ := parseWord_next hstep
                have hptr : q.mTrackletMCMHeader = p.mTrackletMCMHeader := by
                  rw [hhd]
                  generalize passKind rd p (normalize p.mByteOrderFix raw)
                    (normalize p.mByteOrderFix nextraw) = k at h0 ⊢
                  cases k <;> first | rfl | exact absurd rfl h0
                have hq := ih (word + 1) c1 h1 q j e he (by
                  intro i hi e1 he1
                  exact hbefore (i + 1) (by omega) e1 (by simpa using he1))
                rw [hq]
                unfold staleHeader
                rw [hptr, n7.2.2.2.2.1]
                cases p.mTrackletMCMHeader with
                | none => rfl
                | some i =>
                  simp only
                  rw [n5, bufferAfter_getElem]
                  by_cases hf : p.mByteOrderFix = true
                  · by_cases h1 : i < word
                    · have c1 : ¬ (word + 1 ≤ i ∧ i ≤ word + 1 + j) := by omega
                      have c2 : ¬ (word ≤ i ∧ i < word + 1) := by omega
                      have c3 : ¬ (word ≤ i ∧ i ≤ word + (j + 1)) := by omega
                      rw [if_neg (fun hx => c1 hx.2), if_neg (fun hx => c2 hx.2),
                        if_neg (fun hx => c3 hx.2)]
                    · by_cases h2 : i = word
                      · have c1 : ¬ (word + 1 ≤ i ∧ i ≤ word + 1 + j) := by omega
                        have c2 : word ≤ i ∧ i < word + 1 := by omega
                        have c3 : word ≤ i ∧ i ≤ word + (j + 1) := by omega
                        rw [if_neg (fun hx => c1 hx.2), if_pos ⟨hf, c2⟩, if_pos ⟨hf, c3⟩]
                      · by_cases h3 : i ≤ word + 1 + j
                        · have c1 : word + 1 ≤ i ∧ i ≤ word + 1 + j := by omega
                          have c2 : ¬ (word ≤ i ∧ i < word + 1) := by omega
                          have c3 : word ≤ i ∧ i ≤ word + (j + 1) := by omega
                          rw [if_pos ⟨hf, c1⟩, if_neg (fun hx => c2 hx.2), if_pos ⟨hf, c3⟩]
                        · have c1 : ¬ (word + 1 ≤ i ∧ i ≤ word + 1 + j) := by omega
                          have c2 : ¬ (word ≤ i ∧ i < word + 1) := by omega
                          have c3 : ¬ (word ≤ i ∧ i ≤ word + (j + 1)) := by omega
                          rw [if_neg (fun hx => c1 hx.2), if_neg (fun hx => c2 hx.2),
                            if_neg (fun hx => c3 hx.2)]
                  · rw [if_neg (fun hx => hf hx.1), if_neg (fun hx => hf hx.1),
                      if_neg (fun hx => hf hx.1)]

/-- The tracklets of a call are those of the data passes of its loop, and in
each of these passes the read through `mTrackletMCMHeader` has a result. -/
theorem Parse_tracklets_of_events {rd : RawData} {p q : TrackletsParser} {v : Nat}
    (h : Parse rd p = some (v, q)) :
    ∃ p0, startParser p = some p0 ∧
      q.mTracklets = p.mTracklets ++
        expectedTracklets rd (p.mDetector * 2 + p.mRobSide) none 0
          (events rd (regionLength p) p.mStartParse 0 0 p0) ∧
      ∀ e ∈ events rd (regionLength p) p.mStartParse 0 0 p0,
        e.1 = PassKind.mcmData → e.2.2 ≠ none := by
  obtain ⟨p0, o, hs, hrun, ho⟩ := Parse_loop h
  obtain ⟨-, s2, -, -, s5, -, -⟩ := startParser_some hs
  refine ⟨p0, hs, ?_, parseLoop_events_defined rd _ _ _ _ _ _ hrun⟩
  rw [← ho, parseLoop_tracklets rd _ _ _ _ _ _ none (fun hd hx => by cases hx) hrun, s5,
    s2.2.2.2.2.2.1, s2.2.2.2.2.2.2]

/-! ## The claims about the passes of a call -/

/-- C14: the tracklets one call appends are, in stream order, exactly one per
pass that takes the data branch; position and slope of each are read from the
word of that pass, pad row and column from the word of the most recent pass of
the call that decoded a module header.  Before the first such pass of the call
they are read from the word that the reference left by an earlier call
designates, as the array holds it at the time of the pass (`staleHeader`).
The words of the passes are the stored words of the region, examined in
order. -/
theorem Parse_one_tracklet_per_data_word (rd : RawData) (p q : TrackletsParser) (v : Nat)
    (h : Parse rd p = some (v, q)) :
    ∃ (p0 : TrackletsParser) (new : List Tracklet64), startParser p = some p0 ∧
      q.mTracklets = p.mTracklets ++ new ∧
      new.map (fun t => (t.padrow, t.col, t.pos, t.slope)) =
        expectedFields rd none
          (events rd (regionLength p) p.mStartParse 0 0 p0) ∧
      new.length = ((events rd (regionLength p) p.mStartParse 0 0 p0).filter
        (fun e => decide (e.1 = PassKind.mcmData))).length ∧
      (∀ (j : Nat) (e : PassKind × Nat × Option Nat),
        (events rd (regionLength p) p.mStartParse 0 0 p0)[j]? = some e →
        (p.mData[p.mStartParse + j]?).map (normalize p.mByteOrderFix) = some e.2.1) ∧
      (∀ (j : Nat) (e : PassKind × Nat × Option Nat),
        (events rd (regionLength p) p.mStartParse 0 0 p0)[j]? = some e →
        (∀ i, i < j → ∀ e1, (events rd (regionLength p) p.mStartParse 0 0 p0)[i]? = some e1 →
          e1.1 ≠ PassKind.mcmHeader) →
        e.2.2 = staleHeader p p.mStartParse j) := by
  obtain ⟨p0, hs, ht, hdef⟩ := Parse_tracklets_of_events h
  obtain ⟨s1, s2, -⟩ := startParser_some hs
  have hstale : ∀ j, staleHeader p0 p.mStartParse j = staleHeader p p.mStartParse j := by
    intro j
    unfold staleHeader
    rw [startParser_header hs, s1, s2.2.2.2.2.1]
  refine ⟨p0, _, hs, ht, expectedFields_of_tracklets _ _ _ _ _,
    expectedTracklets_length _ _ _ _ _ hdef, fun j e he => ?_, fun j e he hb => ?_⟩
  · have := events_word rd _ _ _ _ _ j e he
    rw [s1, s2.2.2.2.2.1] at this
    exact this
  · rw [← hstale]
    exact events_stale rd _ _ _ _ _ j e he hb

/-- Witness for C14: `[H][M(count=1)][D0][M(count=2)][D1][D2][END][END]`
followed by one more word. -/
theorem Parse_one_tracklet_per_data_word_witness :
    (startParser (mkParser [0x800, 0x98000003, 0x00412345, 0xA2000005, 0x00854320,
        0x00C10000, 0x10001000, 0x10001000, 0] 0 8 2 false false 7 1)).map
      (fun p0 => (events sampleRawData 8 0 0 0 p0).map (fun e => (e.1, e.2.1)))
      = some [(PassKind.hcHeader, 0x800), (PassKind.mcmHeader, 0x98000003),
          (PassKind.mcmData, 0x00412345), (PassKind.mcmHeader, 0xA2000005),
          (PassKind.mcmData, 0x00854320), (PassKind.mcmData, 0x00C10000),
          (PassKind.endMarker, 0x10001000)] ∧
    (startParser (mkParser [0x800, 0x98000003, 0x00412345, 0xA2000005, 0x00854320,
        0x00C10000, 0x10001000, 0x10001000, 0] 0 8 2 false false 7 1)).map
      (fun p0 => expectedFields sampleRawData none (events sampleRawData 8 0 0 0 p0))
      = some [(3, 0, 1, 1), (4, 1, 2, 5), (4, 1, 3, 1)] ∧
    ∃ (q : TrackletsParser) (p0 : TrackletsParser) (new : List Tracklet64),
      Parse sampleRawData (mkParser [0x800, 0x98000003, 0x00412345, 0xA2000005, 0x00854320,
        0x00C10000, 0x10001000, 0x10001000, 0] 0 8 2 false false 7 1) = some (8, q) ∧
      startParser (mkParser [0x800, 0x98000003, 0x00412345, 0xA2000005, 0x00854320,
        0x00C10000, 0x10001000, 0x10001000, 0] 0 8 2 false false 7 1) = some p0 ∧
      q.mTracklets = [] ++ new ∧
      new.map (fun t => (t.padrow, t.col, t.pos, t.slope)) =
        expectedFields sampleRawData none (events sampleRawData 8 0 0 0 p0) := by
  refine ⟨by decide, by decide, ?_⟩
  have hq : (Parse sampleRawData (mkParser [0x800, 0x98000003, 0x00412345, 0xA2000005,
      0x00854320, 0x00C10000, 0x10001000, 0x10001000, 0] 0 8 2 false false 7 1)).isSome
      = true := by decide
  obtain ⟨⟨v, q⟩, hvq⟩ := Option.isSome_iff_exists.1 hq
  have hv : v = 8 := by
    have h8 : (Parse sampleRawData (mkParser [0x800, 0x98000003, 0x00412345, 0xA2000005,
      0x00854320, 0x00C10000, 0x10001000, 0x10001000, 0] 0 8 2 false false 7 1)).map
      (fun r => r.1) = some 8 := by decide
    rw [hvq] at h8
    simpa using h8
  subst hv
  obtain ⟨p0, new, a1, a2, a3, -, -, -⟩ :=
    Parse_one_tracklet_per_data_word sampleRawData _ q 8 hvq
  exact ⟨q, p0, new, hvq, a1, a2, a3⟩

/-- C15: the charges of the tracklets one call appends are, for the data pass
with index `i` under the active module header, `getQFromRaw(header, data, s, i)`
for the slots `s = 0, 1, 2`; the index is 0 after every pass that decodes a
module header and grows by one with every data pass.  The `switch` on the index
reads `pid0`, `pid1`, `pid2` for the indices 0, 1, 2 and takes its `default`
branch, the one that writes the warning, for every index from 3 on. -/
theorem Parse_charges_follow_index (rd : RawData) (p q : TrackletsParser) (v : Nat)
    (h : Parse rd p = some (v, q)) :
    (∃ (p0 : TrackletsParser) (new : List Tracklet64), startParser p = some p0 ∧
      q.mTracklets = p.mTracklets ++ new ∧
      new.map (fun t => (t.q0, t.q1, t.q2)) =
        expectedCharges rd none 0
          (events rd (regionLength p) p.mStartParse 0 0 p0)) ∧
    qaSelection 0 = some PidField.pid0 ∧ qaSelection 1 = some PidField.pid1 ∧
    qaSelection 2 = some PidField.pid2 ∧ ∀ i : Int, 3 ≤ i → qaSelection i = none := by
  obtain ⟨p0, hs, ht, -⟩ := Parse_tracklets_of_events h
  refine ⟨⟨p0, _, hs, ht, expectedCharges_of_tracklets _ _ _ _ _⟩, rfl, rfl, rfl, ?_⟩
  intro i hi
  unfold qaSelection
  rw [if_neg (by omega), if_neg (by omega), if_neg (by omega)]

/-- Witness for C15: `[M(count=3)][D0][D1][D2][D3][END][END]`, followed by one
more word, under policy 0; the four data words have the indices 0, 1, 2 and
3. -/
theorem Parse_charges_follow_index_witness :
    expectedCharges sampleRawData none 0 [(PassKind.mcmHeader, 0x80000007, none),
        (PassKind.mcmData, 0x2, some 0x80000007), (PassKind.mcmData, 0x4, some 0x80000007),
        (PassKind.mcmData, 0x6, some 0x80000007), (PassKind.mcmData, 0x8, some 0x80000007),
        (PassKind.endMarker, 0x10001000, some 0x80000007)]
      = [(sampleRawData.getQFromRaw 0x80000007 0x2 0 0, sampleRawData.getQFromRaw 0x80000007 0x2 1 0,
            sampleRawData.getQFromRaw 0x80000007 0x2 2 0),
          (sampleRawData.getQFromRaw 0x80000007 0x4 0 1, sampleRawData.getQFromRaw 0x80000007 0x4 1 1,
            sampleRawData.getQFromRaw 0x80000007 0x4 2 1),
          (sampleRawData.getQFromRaw 0x80000007 0x6 0 2, sampleRawData.getQFromRaw 0x80000007 0x6 1 2,
            sampleRawData.getQFromRaw 0x80000007 0x6 2 2),
          (sampleRawData.getQFromRaw 0x80000007 0x8 0 3, sampleRawData.getQFromRaw 0x80000007 0x8 1 3,
            sampleRawData.getQFromRaw 0x80000007 0x8 2 3)] ∧
    (Parse sampleRawData (mkParser [0x80000007, 0x2, 0x4, 0x6, 0x8, 0x10001000, 0x10001000, 0]
        0 7 0 false false 7 1)).map (fun r => r.2.mTracklets.map (fun t => (t.q0, t.q1, t.q2)))
      = some [(1, 1001, 2001), (100002, 101002, 102002), (200003, 201003, 202003),
          (300004, 301004, 302004)] ∧
    ∃ q : TrackletsParser,
      Parse sampleRawData (mkParser [0x80000007, 0x2, 0x4, 0x6, 0x8, 0x10001000, 0x10001000, 0]
        0 7 0 false false 7 1) = some (7, q) ∧
      ((∃ (p0 : TrackletsParser) (new : List Tracklet64),
          startParser (mkParser [0x80000007, 0x2, 0x4, 0x6, 0x8, 0x10001000, 0x10001000, 0]
            0 7 0 false false 7 1) = some p0 ∧
          q.mTracklets = [] ++ new ∧
          new.map (fun t => (t.q0, t.q1, t.q2)) =
            expectedCharges sampleRawData none 0 (events sampleRawData 7 0 0 0 p0)) ∧
        qaSelection 0 = some PidField.pid0 ∧ qaSelection 1 = some PidField.pid1 ∧
        qaSelection 2 = some PidField.pid2 ∧ ∀ i : Int, 3 ≤ i → qaSelection i = none) := by
  refine ⟨by decide, by decide, ?_⟩
  have hq : (Parse sampleRawData (mkParser [0x80000007, 0x2, 0x4, 0x6, 0x8, 0x10001000,
      0x10001000, 0] 0 7 0 false false 7 1)).isSome = true := by decide
  obtain ⟨⟨v, q⟩, hvq⟩ := Option.isSome_iff_exists.1 hq
  have hv : v = 7 := by
    have h7 : (Parse sampleRawData (mkParser [0x80000007, 0x2, 0x4, 0x6, 0x8, 0x10001000,
      0x10001000, 0] 0 7 0 false false 7 1)).map (fun r => r.1) = some 7 := by decide
    rw [hvq] at h7
    simpa using h7
  subst hv
  exact ⟨q, hvq, Parse_charges_follow_index sampleRawData _ q 7 hvq⟩

theorem nextState_ne_hcHeader (k : PassKind) (c h : Int) (nextraw : Nat) :
    nextState k c h nextraw ≠ TrackletParserState.StateTrackletHCHeader := by
  cases k <;> simp only [nextState] <;> (try split_ifs) <;> decide

/-- After at least one pass the state is not `StateTrackletHCHeader`. -/
theorem parseLoop_state_ne_hcHeader {rd : RawData} :
    ∀ (k word : Nat) (c h : Int) (p q : TrackletsParser) (c1 h1 : Int),
      parseLoop rd (k + 1) word c h p = some (Outcome.next q c1 h1) →
      q.mState ≠ TrackletParserState.StateTrackletHCHeader := by
  intro k
  induction k with
  | zero =>
    intro word c h p q c1 h1 hrun
    rw [parseLoop] at hrun
    cases hstep : parseWord rd p word c h with
    | none => simp [hstep] at hrun
    | some o =>
      cases o with
      | ret v p1 => simp [hstep] at hrun
      | next p1 c2 h2 =>
        simp only [hstep, parseLoop, Option.some.injEq, Outcome.next.injEq] at hrun
        obtain ⟨rfl, rfl, rfl⟩ := hrun
        obtain ⟨raw, nextraw, -, -, -, -, -, hst, -⟩ := parseWord_next_by_kind hstep
        rw [hst]
        exact nextState_ne_hcHeader _ _ _ _
  | succ k ih =>
    intro word c h p q c1 h1 hrun
    rw [parseLoop] at hrun
    cases hstep : parseWord rd p word c h with
    | none => simp [hstep] at hrun
    | some o =>
      cases o with
      | ret v p1 => simp [hstep] at hrun
      | next p1 c2 h2 =>
        simp only [hstep] at hrun
        exact ih _ _ _ _ _ _ _ hrun

/-- The pass behind the entry `j` of the list of passes: it is made in the
state the loop has after `j` passes. -/
theorem events_get (rd : RawData) :
    ∀ (r word : Nat) (c h : Int) (p : TrackletsParser) (j : Nat)
      (e : PassKind × Nat × Option Nat),
      (events rd r word c h p)[j]? = some e →
      ∃ (q : TrackletsParser) (c1 h1 : Int) (raw nextraw : Nat),
        parseLoop rd j word c h p = some (Outcome.next q c1 h1) ∧
        q.mData[word + j]? = some raw ∧ q.mData[word + j + 1]? = some nextraw ∧
        e = (passKind rd q (normalize q.mByteOrderFix raw) (normalize q.mByteOrderFix nextraw),
          normalize q.mByteOrderFix raw, activeHeader q (word + j)) := by
  intro r
  induction r with
  | zero =>
    intro word c h p j e he
    simp [events] at he
  | succ r ih =>
    intro word c h p j e he
    by_cases hfin : p.mState = TrackletParserState.StateFinished
    · rw [events, if_pos hfin] at he
      simp at he
    · cases hn : p.mData[word + 1]? with
      | none =>
        rw [events, if_neg hfin] at he
        simp [hn] at he
      | some nextraw =>
        cases hw : p.mData[word]? with
        | none =>
          rw [events, if_neg hfin] at he
          simp [hn, hw] at he
        | some raw =>
          rw [events_cons rd p r word raw nextraw c h hfin hw hn] at he
          cases j with
          | zero =>
            simp only [List.getElem?_cons_zero, Option.some.injEq] at he
            exact ⟨p, c, h, raw, nextraw, rfl, hw, hn, he.symm⟩
          | succ j =>
            simp only [List.getElem?_cons_succ] at he
            cases hstep : parseWord rd p word c h with
            | none => simp [hstep] at he
            | some o =>
              cases o with
              | ret v q => simp [hstep] at he
              | next q c1 h1 =>
                simp only [hstep] at he
                obtain ⟨q2, c2, h2, raw2, nextraw2, a1, a2, a3, a4⟩ :=
                  ih (word + 1) c1 h1 q j e he
                have e0 : word + (j + 1) = word + 1 + j := by omega
                refine ⟨q2, c2, h2, raw2, nextraw2, ?_, by rw [e0]; exact a2,
                  by rw [e0]; exact a3, by rw [e0]; exact a4⟩
                rw [parseLoop_step_next _ hstep]
                exact a1

/-- C18: in one call, after the first pass the state at the start of a pass is
never `StateTrackletHCHeader` again; so the branch that decodes a half-chamber
header can be taken by the first pass only, and only when the starting state
is `StateTrackletHCHeader`, the ignore flag is off and bit 11 of the examined
word is set.  At most one half-chamber header is decoded per call. -/
theorem Parse_hcHeader_first_pass_only (rd : RawData) (p p0 q : TrackletsParser)
    (k : Nat) (c h : Int)
    (hs : startParser p = some p0)
    (hrun : parseLoop rd k p.mStartParse 0 0 p0 = some (Outcome.next q c h)) :
    (1 ≤ k → q.mState ≠ TrackletParserState.StateTrackletHCHeader) ∧
    (p.mIgnoreTrackletHCHeader = true →
      ∀ w nextwordcopy, passKind rd q w nextwordcopy ≠ PassKind.hcHeader) ∧
    (∀ w nextwordcopy, passKind rd q w nextwordcopy = PassKind.hcHeader →
      k = 0 ∧ q = p0 ∧ p0.mState = TrackletParserState.StateTrackletHCHeader ∧
      p.mIgnoreTrackletHCHeader = false ∧ w &&& (0x1 <<< 11) ≠ 0) ∧
    (∀ (r j : Nat) (e : PassKind × Nat × Option Nat),
      (events rd r p.mStartParse 0 0 p0)[j]? = some e →
      e.1 = PassKind.hcHeader → j = 0) := by
  obtain ⟨-, s2, -⟩ := startParser_some hs
  obtain ⟨-, -, -, -, b5, -, -⟩ := parseLoop_next _ _ _ _ _ _ _ _ hrun
  have hign : q.mIgnoreTrackletHCHeader = p.mIgnoreTrackletHCHeader :=
    b5.2.2.2.1.trans s2.2.2.2.1
  have hlater : 1 ≤ k → q.mState ≠ TrackletParserState.StateTrackletHCHeader := by
    intro hk
    obtain ⟨k1, rfl⟩ : ∃ k1, k = k1 + 1 := ⟨k - 1, by omega⟩
    exact parseLoop_state_ne_hcHeader _ _ _ _ _ _ _ _ hrun
  have hcond : ∀ w nextwordcopy, passKind rd q w nextwordcopy = PassKind.hcHeader →
      w &&& (0x1 <<< 11) ≠ 0 ∧ q.mIgnoreTrackletHCHeader = false ∧
      q.mState = TrackletParserState.StateTrackletHCHeader := by
    intro w n hk
    unfold passKind at hk
    split_ifs at hk with h1 h2 h3 h4
    exact h3
  refine ⟨hlater, ?_, ?_, ?_⟩
  rotate_left 2
  · intro r j e he hk
    obtain ⟨q2, c2, h2, raw2, nextraw2, a1, -, -, a4⟩ := events_get rd r _ _ _ _ j e he
    by_contra hj
    obtain ⟨j1, rfl⟩ : ∃ j1, j = j1 + 1 := ⟨j - 1, by omega⟩
    have hne := parseLoop_state_ne_hcHeader _ _ _ _ _ _ _ _ a1
    rw [a4] at hk
    simp only at hk
    unfold passKind at hk
    split_ifs at hk with h1 h2 h3 h4
    exact hne h3.2.2
  · intro hi w n hk
    have := (hcond w n hk).2.1
    rw [hign, hi] at this
    cases this
  · intro w n hk
    obtain ⟨hb, hi, hst⟩ := hcond w n hk
    have hk0 : k = 0 := by
      by_contra hne
      exact hlater (by omega) hst
    subst hk0
    simp only [parseLoop, Option.some.injEq, Outcome.next.injEq] at hrun
    obtain ⟨rfl, -, -⟩ := hrun
    exact ⟨rfl, rfl, hst, by rw [← hign]; exact hi, hb⟩

/-- Witness for C18: the stream `[H][M][D][END][END]` under policy 2, whose
module header has bit 11 set as well; after the pass over `[H]` the state is
`StateTrackletMCMHeader` and `[M]` is taken as a module header. -/
theorem Parse_hcHeader_first_pass_only_witness :
    passKind sampleRawData
      { mkParser [0x800, 0x80000803, 0x12345, 0x10001000, 0x10001000] 0 5 2 false false 7 1
          with mState := TrackletParserState.StateTrackletHCHeader }
      0x800 0x80000803 = PassKind.hcHeader ∧
    passKind sampleRawData
      { mkParser [0x800, 0x80000803, 0x12345, 0x10001000, 0x10001000] 0 5 2 false false 7 1
          with mState := TrackletParserState.StateTrackletMCMHeader, mWordsRead := 1 }
      0x80000803 0x12345 = PassKind.mcmHeader ∧
    ((1 ≤ 1 →
        ({ mkParser [0x800, 0x80000803, 0x12345, 0x10001000, 0x10001000] 0 5 2 false false 7 1
            with mState := TrackletParserState.StateTrackletMCMHeader,
                 mWordsRead := 1 } : TrackletsParser).mState
          ≠ TrackletParserState.StateTrackletHCHeader) ∧
      ((mkParser [0x800, 0x80000803, 0x12345, 0x10001000, 0x10001000] 0 5 2
          false false 7 1).mIgnoreTrackletHCHeader = true →
        ∀ w nextwordcopy, passKind sampleRawData
          { mkParser [0x800, 0x80000803, 0x12345, 0x10001000, 0x10001000] 0 5 2 false false 7 1
            with mState := TrackletParserState.StateTrackletMCMHeader, mWordsRead := 1 }
          w nextwordcopy ≠ PassKind.hcHeader) ∧
      (∀ w nextwordcopy, passKind sampleRawData
          { mkParser [0x800, 0x80000803, 0x12345, 0x10001000, 0x10001000] 0 5 2 false false 7 1
            with mState := TrackletParserState.StateTrackletMCMHeader, mWordsRead := 1 }
          w nextwordcopy = PassKind.hcHeader →
        1 = 0 ∧
        ({ mkParser [0x800, 0x80000803, 0x12345, 0x10001000, 0x10001000] 0 5 2 false false 7 1
            with mState := TrackletParserState.StateTrackletMCMHeader,
                 mWordsRead := 1 } : TrackletsParser) =
          { mkParser [0x800, 0x80000803, 0x12345, 0x10001000, 0x10001000] 0 5 2 false false 7 1
            with mState := TrackletParserState.StateTrackletHCHeader } ∧
        ({ mkParser [0x800, 0x80000803, 0x12345, 0x10001000, 0x10001000] 0 5 2 false false 7 1
            with mState := TrackletParserState.StateTrackletHCHeader } : TrackletsParser).mState
          = TrackletParserState.StateTrackletHCHeader ∧
        (mkParser [0x800, 0x80000803, 0x12345, 0x10001000, 0x10001000] 0 5 2
          false false 7 1).mIgnoreTrackletHCHeader = false ∧ w &&& (0x1 <<< 11) ≠ 0) ∧
      (∀ (r j : Nat) (e : PassKind × Nat × Option Nat),
        (events sampleRawData r
          (mkParser [0x800, 0x80000803, 0x12345, 0x10001000, 0x10001000] 0 5 2
            false false 7 1).mStartParse 0 0
          { mkParser [0x800, 0x80000803, 0x12345, 0x10001000, 0x10001000] 0 5 2 false false 7 1
            with mState := TrackletParserState.StateTrackletHCHeader })[j]? = some e →
        e.1 = PassKind.hcHeader → j = 0)) :=
  ⟨by decide, by decide,
    Parse_hcHeader_first_pass_only sampleRawData
      (mkParser [0x800, 0x80000803, 0x12345, 0x10001000, 0x10001000] 0 5 2 false false 7 1)
      { mkParser [0x800, 0x80000803, 0x12345, 0x10001000, 0x10001000] 0 5 2 false false 7 1
        with mState := TrackletParserState.StateTrackletHCHeader }
      { mkParser [0x800, 0x80000803, 0x12345, 0x10001000, 0x10001000] 0 5 2 false false 7 1
        with mState := TrackletParserState.StateTrackletMCMHeader, mWordsRead := 1 }
      1 0 0 (by decide) (by decide)⟩

/-- C11: the state the loop is entered with.  Policy 0 gives
`StateTrackletMCMHeader`, policy 2 gives `StateTrackletHCHeader`, and under
policy 1, with `nextword` the word stored after the start cursor, the state is
`StateTrackletMCMHeader` if and only if `nextword` is the end marker, and
`StateTrackletHCHeader` otherwise. -/
theorem startParser_initial_state (p : TrackletsParser) :
    (p.mTrackletHCHeaderState = 0 → ∃ p0, startParser p = some p0 ∧
      p0.mState = TrackletParserState.StateTrackletMCMHeader) ∧
    (p.mTrackletHCHeaderState = 2 → ∃ p0, startParser p = some p0 ∧
      p0.mState = TrackletParserState.StateTrackletHCHeader) ∧
    (p.mTrackletHCHeaderState = 1 → ∀ nextword, p.mData[p.mStartParse + 1]? = some nextword →
      ∃ p0, startParser p = some p0 ∧
        (p0.mState = TrackletParserState.StateTrackletMCMHeader ↔
          nextword = constants.TRACKLETENDMARKER) ∧
        (nextword ≠ constants.TRACKLETENDMARKER →
          p0.mState = TrackletParserState.StateTrackletHCHeader)) := by
  refine ⟨fun h0 => ?_, fun h2 => startParser_always p h2, fun h1 nextword hn => ?_⟩
  · unfold startParser initialState
    simp [h0]
  · unfold startParser initialState
    simp only [h1, hn]
    by_cases he : nextword = constants.TRACKLETENDMARKER
    · simp [he]
    · simp [he]

/-- Witness for C11: the three policies on `[H][END][END]` and policy 1 on
`[H][M][D][END][END]`. -/
theorem startParser_initial_state_witness :
    (∃ p0, startParser (mkParser [0x800, 0x10001000, 0x10001000] 0 3 0 false false 7 1) = some p0 ∧
      p0.mState = TrackletParserState.StateTrackletMCMHeader) ∧
    (∃ p0, startParser (mkParser [0x800, 0x10001000, 0x10001000] 0 3 2 false false 7 1) = some p0 ∧
      p0.mState = TrackletParserState.StateTrackletHCHeader) ∧
    (∃ p0, startParser (mkParser [0x800, 0x10001000, 0x10001000] 0 3 1 false false 7 1) = some p0 ∧
      (p0.mState = TrackletParserState.StateTrackletMCMHeader ↔
        (0x10001000 : Nat) = constants.TRACKLETENDMARKER) ∧
      ((0x10001000 : Nat) ≠ constants.TRACKLETENDMARKER →
        p0.mState = TrackletParserState.StateTrackletHCHeader)) ∧
    (∃ p0, startParser (mkParser [0x800, 0x80000003, 0x12345, 0x10001000, 0x10001000] 0 5 1
        false false 7 1) = some p0 ∧
      (p0.mState = TrackletParserState.StateTrackletMCMHeader ↔
        (0x80000003 : Nat) = constants.TRACKLETENDMARKER) ∧
      ((0x80000003 : Nat) ≠ constants.TRACKLETENDMARKER →
        p0.mState = TrackletParserState.StateTrackletHCHeader)) :=
  ⟨(startParser_initial_state _).1 (by decide),
    (startParser_initial_state _).2.1 (by decide),
    (startParser_initial_state _).2.2 (by decide) 0x10001000 (by decide),
    (startParser_initial_state _).2.2 (by decide) 0x80000003 (by decide)⟩

/-- C12, evaluated where it fails: in `StateTrackletMCMHeader` the word
`0x00000003`, which has bit 0 set and bit 31 clear, and the word `0x80000002`,
which has bit 31 set and bit 0 clear, are taken as module headers: the pass
takes the header branch, no tracklet is made of the word, `mTrackletMCMHeader`
designates it, and the tracklet of the following data word carries it as its
header.  The regions are followed by one more word in the array. -/
theorem Parse_one_boundary_bit_is_header :
    ((0x00000003 : Nat) &&& 0x80000001 ≠ 0x80000001 ∧ (0x00000003 : Nat) &&& 0x80000001 ≠ 0) ∧
    ((0x80000002 : Nat) &&& 0x80000001 ≠ 0x80000001 ∧ (0x80000002 : Nat) &&& 0x80000001 ≠ 0) ∧
    (startParser (mkParser [0x00000003, 0x12345, 0x10001000, 0x10001000, 0] 0 4 0
        false false 7 1)).map (fun p0 => (p0.mState, passKind sampleRawData p0 0x00000003 0x12345))
      = some (TrackletParserState.StateTrackletMCMHeader, PassKind.mcmHeader) ∧
    (Parse sampleRawData (mkParser [0x00000003, 0x12345, 0x10001000, 0x10001000, 0] 0 4 0
        false false 7 1)).map (fun r => (r.1, r.2.mTracklets, r.2.mTrackletMCMHeader))
      = some (4, [trackletOf sampleRawData 15 0x00000003 0x12345 0], some 0) ∧
    (Parse sampleRawData (mkParser [0x80000002, 0x12345, 0x10001000, 0x10001000, 0] 0 4 0
        false false 7 1)).map (fun r => (r.1, r.2.mTracklets, r.2.mTrackletMCMHeader))
      = some (4, [trackletOf sampleRawData 15 0x80000002 0x12345 0], some 0) := by
  decide

/-- C17, evaluated where it fails, with `mByteOrderFix` set.  In the array
`[M(count=1)][D][END]..` (stored byte-swapped) the word after `D` is examined
as `END_MARKER`, yet after the pass over `D` the state is
`StateTrackletMCMHeader`; in the array whose word after `D` is stored as
`0x10001000` and so examined as `0x00100010`, the state after the pass over `D`
is `StateTrackletEndMarker`.  The test at line 234 compares the stored word. -/
theorem Parse_peek_compares_stored_word :
    normalize true 0x00100010 = 0x10001000 ∧
    (Parse sampleRawData (mkParser [0x03000080, 0x45230100, 0x00100010, 0x00100010] 0 2 0
        false true 7 1)).map (fun r => (r.1, r.2.mTracklets.length, r.2.mState))
      = some (2, 1, TrackletParserState.StateTrackletMCMHeader) ∧
    normalize true 0x10001000 ≠ 0x10001000 ∧
    (Parse sampleRawData (mkParser [0x03000080, 0x45230100, 0x10001000, 0x00000000] 0 2 0
        false true 7 1)).map (fun r => (r.1, r.2.mTracklets.length, r.2.mState))
      = some (2, 1, TrackletParserState.StateTrackletEndMarker) := by
  decide

/-- C16: in any state a call reaches, when the examined word at the cursor is
`PADDING` and is not the first word of an end-marker pair, the pass takes the
padding branch: one word is counted, no tracklet is appended, the module header
reference and the locals are unchanged, the state becomes `StatePadding`, and
the loop goes on with the next word (the next pass does not return at line 111
and has a result whenever the array holds the two words after its cursor and
the module header reference designates a word of the array). -/
theorem Parse_padding_pass (rd : RawData) (p p0 q0 : TrackletsParser) (k : Nat) (c0 h0 : Int)
    (raw nextraw : Nat)
    (hs : startParser p = some p0)
    (hrun : parseLoop rd k p.mStartParse 0 0 p0 = some (Outcome.next q0 c0 h0))
    (hw : p.mData[p.mStartParse + k]? = some raw)
    (hn : p.mData[p.mStartParse + k + 1]? = some nextraw)
    (hpad : normalize p.mByteOrderFix raw = rd.CRUPADDING32)
    (hpair : ¬ (normalize p.mByteOrderFix raw = 0x10001000 ∧
      normalize p.mByteOrderFix nextraw = 0x10001000)) :
    ∃ q, parseWord rd q0 (p.mStartParse + k) c0 h0 = some (Outcome.next q c0 h0) ∧
      passKind rd q0 (normalize p.mByteOrderFix raw) (normalize p.mByteOrderFix nextraw)
        = PassKind.padding ∧
      q.mWordsRead = q0.mWordsRead + 1 ∧ q.mWordsRead = k + 1 ∧
      q.mTracklets = q0.mTracklets ∧ q.mTrackletsFound = q0.mTrackletsFound ∧
      q.mTrackletMCMHeader = q0.mTrackletMCMHeader ∧
      q.mState = TrackletParserState.StatePadding ∧
      (∀ r, parseLoop rd (k + (r + 1)) p.mStartParse 0 0 p0 =
        parseLoop rd r (p.mStartParse + k + 1) c0 h0 q) ∧
      (p.mStartParse + k + 3 < p.mData.length → headerSet q →
        ∃ o, parseWord rd q (p.mStartParse + k + 1) c0 h0 = some o ∧
          o ≠ Outcome.ret q.mWordsRead q) := by
  obtain ⟨s1, s2, s3, -, -, s6, -⟩ := startParser_some hs
  obtain ⟨-, b2, -, b4, b5, b6, -⟩ := parseLoop_next _ _ _ _ _ _ _ _ hrun
  have hfix : q0.mByteOrderFix = p.mByteOrderFix := b5.2.2.2.2.1.trans s2.2.2.2.2.1
  have hw0 : q0.mData[p.mStartParse + k]? = some raw := by
    rw [Swept_getElem_ge b6 _ (le_refl _), s1]
    exact hw
  have hn0 : q0.mData[p.mStartParse + k + 1]? = some nextraw := by
    rw [Swept_getElem_ge b6 _ (by omega), s1]
    exact hn
  obtain ⟨q, e0, e1, e2, e3, e4, e5, e6, e7⟩ := parseWord_padding rd q0 (p.mStartParse + k)
    raw nextraw c0 h0 (b2 s6) hw0 hn0 (by rw [hfix]; exact hpair) (by rw [hfix]; exact hpad)
  refine ⟨q, e0, ?_, e2, by rw [e2, b4, s3]; omega, e5, e6, e7, e4, ?_, ?_⟩
  · unfold passKind
    rw [if_neg hpair, if_pos hpad]
  · intro r
    rw [parseLoop_add_next _ hrun, parseLoop_step_next _ e0]
  · intro hlen hset
    have hfinq : q.mState ≠ TrackletParserState.StateFinished := by rw [e4]; decide
    have hlenq : q.mData.length = p.mData.length := by
      rw [e1, bufferAfter_length, b6.1, s1]
    have hwq : q.mData[p.mStartParse + k + 1]? = some (q.mData[p.mStartParse + k + 1]) :=
      List.getElem?_eq_getElem (by omega)
    have hnq : q.mData[p.mStartParse + k + 1 + 1]?
        = some (q.mData[p.mStartParse + k + 1 + 1]) :=
      List.getElem?_eq_getElem (by omega)
    have hld : loadsDefined q (p.mStartParse + k + 1)
        (passKind rd q (normalize q.mByteOrderFix (q.mData[p.mStartParse + k + 1]))
          (normalize q.mByteOrderFix (q.mData[p.mStartParse + k + 1 + 1]))) := by
      generalize passKind rd q (normalize q.mByteOrderFix (q.mData[p.mStartParse + k + 1]))
          (normalize q.mByteOrderFix (q.mData[p.mStartParse + k + 1 + 1])) = kind
      cases kind
      case endMarker =>
        unfold loadsDefined
        rw [List.getElem?_eq_getElem (by omega)]
        simp
      case mcmData =>
        unfold loadsDefined activeHeader
        unfold headerSet headerWord at hset
        cases hi : q.mTrackletMCMHeader with
        | none =>
          rw [hi] at hset
          exact absurd rfl hset
        | some i =>
          rw [hi] at hset
          simp only at hset ⊢
          have hlt : i < q.mData.length := by
            by_contra hge
            exact hset (List.getElem?_eq_none (by omega))
          rw [List.getElem?_eq_getElem (by rw [bufferAfter_length]; exact hlt)]
          simp
      all_goals exact trivial
    rcases parseWord_defined rd q (p.mStartParse + k + 1) _ _ c0 h0 hfinq hwq hnq hld with
      ⟨_, q2, hq2⟩ | ⟨_, q2, c2, h2, hq2⟩
    · refine ⟨_, hq2, ?_⟩
      intro hx
      simp only [Outcome.ret.injEq] at hx
      omega
    · exact ⟨_, hq2, by intro hx; cases hx⟩

/-- Witness for C16: `[M(count=2)][D0][PADDING][D1][END][END]`, followed by one
more word, under policy 0;
the padding word is met after two passes and the word after it is still made
a tracklet. -/
theorem Parse_padding_pass_witness :
    (Parse sampleRawData (mkParser [0x80000005, 0x12345, 0xeeeeeeee, 0x54320, 0x10001000,
        0x10001000, 0] 0 6 0 false false 7 1)).map (fun r => (r.1, r.2.mTracklets.length))
      = some (6, 2) ∧
    ∃ q, parseWord sampleRawData
        { mkParser [0x80000005, 0x12345, 0xeeeeeeee, 0x54320, 0x10001000, 0x10001000, 0] 0 6 0
            false false 7 1 with
          mState := TrackletParserState.StateTrackletMCMData, mWordsRead := 2,
          mTrackletsFound := 1, mTrackletMCMHeader := some 0, mTrackletMCMData := some 1,
          mTracklets := [trackletOf sampleRawData 15 0x80000005 0x12345 0] }
        ((mkParser [0x80000005, 0x12345, 0xeeeeeeee, 0x54320, 0x10001000, 0x10001000, 0] 0 6 0
            false false 7 1).mStartParse + 2) 1 2 = some (Outcome.next q 1 2) ∧
      q.mState = TrackletParserState.StatePadding ∧ q.mWordsRead = 2 + 1 ∧
      q.mTracklets = [trackletOf sampleRawData 15 0x80000005 0x12345 0] := by
  refine ⟨by decide, ?_⟩
  obtain ⟨q, a1, -, -, a4, a5, -, -, a8, -⟩ := Parse_padding_pass sampleRawData
    (mkParser [0x80000005, 0x12345, 0xeeeeeeee, 0x54320, 0x10001000, 0x10001000, 0] 0 6 0
      false false 7 1)
    { mkParser [0x80000005, 0x12345, 0xeeeeeeee, 0x54320, 0x10001000, 0x10001000, 0] 0 6 0
        false false 7 1 with mState := TrackletParserState.StateTrackletMCMHeader }
    { mkParser [0x80000005, 0x12345, 0xeeeeeeee, 0x54320, 0x10001000, 0x10001000, 0] 0 6 0
        false false 7 1 with
      mState := TrackletParserState.StateTrackletMCMData, mWordsRead := 2,
      mTrackletsFound := 1, mTrackletMCMHeader := some 0, mTrackletMCMData := some 1,
      mTracklets := [trackletOf sampleRawData 15 0x80000005 0x12345 0] }
    2 1 2 0xeeeeeeee 0x54320 (by decide) (by decide) (by decide) (by decide) (by decide)
    (by decide)
  exact ⟨q, a1, a8, a4, a5⟩

theorem nonPaddingCount_congr (pad : Nat) (fix : Bool) (b1 b2 : List Nat) :
    ∀ (k word : Nat), (∀ j, word ≤ j → b1[j]? = b2[j]?) →
      nonPaddingCount pad fix b1 word k = nonPaddingCount pad fix b2 word k := by
  intro k
  induction k with
  | zero => intro word _; rfl
  | succ k ih =>
    intro word hb
    simp only [nonPaddingCount]
    rw [hb word (le_refl _), ih (word + 1) (fun j hj => hb j (by omega))]

theorem passKind_of_locked (rd : RawData) (p : TrackletsParser) (w nextwordcopy : Nat)
    (hst : p.mState = TrackletParserState.StateTrackletMCMData ∨
      p.mState = TrackletParserState.StatePadding) :
    passKind rd p w nextwordcopy = PassKind.endMarker ∨
    (passKind rd p w nextwordcopy = PassKind.padding ∧ w = rd.CRUPADDING32) ∨
    (passKind rd p w nextwordcopy = PassKind.mcmData ∧ w ≠ rd.CRUPADDING32) := by
  unfold passKind
  split_ifs with h1 h2 h3 h4
  · exact Or.inl rfl
  · exact Or.inr (Or.inl ⟨rfl, h2⟩)
  · rcases hst with hs | hs <;> rw [hs] at h3 <;> exact absurd h3.2.2 (by decide)
  · rcases hst with hs | hs <;> rw [hs] at h4 <;> exact absurd h4.2 (by decide)
  · exact Or.inr (Or.inr ⟨rfl, h2⟩)

/-- One pass from a state that is locked in data mode. -/
theorem parseWord_locked {rd : RawData} {p q : TrackletsParser} {word : Nat}
    {c h c1 h1 : Int} (hlock : lockedIn p c h)
    (hstep : parseWord rd p word c h = some (Outcome.next q c1 h1)) :
    lockedIn q c1 h1 ∧ h1 = h ∧ q.mTrackletMCMHeader = p.mTrackletMCMHeader ∧
    q.mTracklets.length = p.mTracklets.length +
      (if (p.mData[word]?).map (normalize p.mByteOrderFix) = some rd.CRUPADDING32
        then 0 else 1) := by
  obtain ⟨raw, nextraw, hw, hn, hk, hc1, hh1, hst, htr, hhd, hld⟩ :=
    parseWord_next_by_kind hstep
  rcases passKind_of_locked rd p (normalize p.mByteOrderFix raw)
    (normalize p.mByteOrderFix nextraw) hlock.2 with hk1 | ⟨hk1, hpad⟩ | ⟨hk1, hpad⟩
  · exact absurd hk1 hk
  · rw [hk1] at hc1 hh1 hst htr hhd
    simp only [nextCount, nextDeclared, nextState, emitted, nextHeader,
      List.append_nil] at hc1 hh1 hst htr hhd
    rw [hc1, hh1]
    refine ⟨⟨hlock.1, Or.inr hst⟩, rfl, hhd, ?_⟩
    rw [htr, hw]
    simp [hpad]
  · rw [hk1] at hc1 hh1 hst htr hhd hld
    obtain ⟨header, hheader⟩ : ∃ header, activeHeader p word = some header := by
      unfold loadsDefined at hld
      cases hx : activeHeader p word with
      | none => exact absurd hx hld
      | some header => exact ⟨header, rfl⟩
    rw [hheader] at htr
    simp only [nextCount, nextDeclared, nextState, emitted, nextHeader] at hc1 hh1 hst htr hhd
    rw [hc1, hh1]
    have hne : ¬ (c + 1 = h) := by
      have := hlock.1
      omega
    rw [if_neg hne] at hst
    refine ⟨⟨by have := hlock.1; omega, Or.inl hst⟩, rfl, hhd, ?_⟩
    rw [htr, hw]
    simp [hpad]

/-- Any number of passes from a state that is locked in data mode. -/
theorem parseLoop_locked {rd : RawData} :
    ∀ (k word : Nat) (c h : Int) (p q : TrackletsParser) (c1 h1 : Int),
      lockedIn p c h →
      parseLoop rd k word c h p = some (Outcome.next q c1 h1) →
      lockedIn q c1 h1 ∧ h1 = h ∧ q.mTrackletMCMHeader = p.mTrackletMCMHeader ∧
      q.mTracklets.length = p.mTracklets.length +
        nonPaddingCount rd.CRUPADDING32 p.mByteOrderFix p.mData word k := by
  intro k
  induction k with
  | zero =>
    intro word c h p q c1 h1 hlock hrun
    simp only [parseLoop, Option.some.injEq, Outcome.next.injEq] at hrun
    obtain ⟨rfl, rfl, rfl⟩ := hrun
    exact ⟨hlock, rfl, rfl, rfl⟩
  | succ k ih =>
    intro word c h p q c1 h1 hlock hrun
    rw [parseLoop] at hrun
    cases hstep : parseWord rd p word c h with
    | none => simp [hstep] at hrun
    | some o =>
      cases o with
      | ret v p1 => simp [hstep] at hrun
      | next p1 c2 h2 =>
        simp only [hstep] at hrun
        obtain ⟨a1, a2, a3, a4⟩ := parseWord_locked hlock hstep
        obtain ⟨-, -, -, -, n5, -, n7, -⟩ := parseWord_next hstep
        obtain ⟨b1, b2, b3, b4⟩ := ih (word + 1) c2 h2 p1 q c1 h1 a1 hrun
        refine ⟨b1, b2.trans a2, b3.trans a3, ?_⟩
        rw [b4, a4, n7.2.2.2.2.1]
        simp only [nonPaddingCount]
        rw [nonPaddingCount_congr rd.CRUPADDING32 p.mByteOrderFix p1.mData p.mData k (word + 1)
          (fun j hj => by
            rw [n5, bufferAfter_getElem]
            have c0 : ¬ (word ≤ j ∧ j < word + 1) := by omega
            rw [if_neg (fun hx => c0 hx.2)])]
        omega

/-- C19: a pass that decodes a module header declaring zero tracklets, and
more generally a data pass made when the per-module counter has already reached
the declared count, leaves the loop locked in data mode; and from a state that
is locked in data mode, whatever number of passes follows, the loop stays
locked, the state is never `StateTrackletMCMHeader`, the declared count and the
module header reference do not change, no pass takes a header branch, and every
word passed that is not examined as `PADDING` is made a tracklet. -/
theorem Parse_zero_count_locks_data_mode (rd : RawData) :
    (∀ (p q : TrackletsParser) (word : Nat) (c h c1 h1 : Int) (raw nextraw : Nat),
      parseWord rd p word c h = some (Outcome.next q c1 h1) →
      p.mData[word]? = some raw → p.mData[word + 1]? = some nextraw →
      ((passKind rd p (normalize p.mByteOrderFix raw) (normalize p.mByteOrderFix nextraw)
            = PassKind.mcmHeader ∧
          rd.getNumberofTracklets (normalize p.mByteOrderFix raw) = 0) ∨
        (passKind rd p (normalize p.mByteOrderFix raw) (normalize p.mByteOrderFix nextraw)
            = PassKind.mcmData ∧ h ≤ c)) →
      lockedIn q c1 h1) ∧
    (∀ (k word : Nat) (c h : Int) (p q : TrackletsParser) (c1 h1 : Int),
      lockedIn p c h →
      parseLoop rd k word c h p = some (Outcome.next q c1 h1) →
      lockedIn q c1 h1 ∧ h1 = h ∧
      q.mState ≠ TrackletParserState.StateTrackletMCMHeader ∧
      q.mTrackletMCMHeader = p.mTrackletMCMHeader ∧
      q.mTracklets.length = p.mTracklets.length +
        nonPaddingCount rd.CRUPADDING32 p.mByteOrderFix p.mData word k ∧
      ∀ w nextwordcopy,
        passKind rd q w nextwordcopy = PassKind.endMarker ∨
        (passKind rd q w nextwordcopy = PassKind.padding ∧ w = rd.CRUPADDING32) ∨
        (passKind rd q w nextwordcopy = PassKind.mcmData ∧ w ≠ rd.CRUPADDING32)) := by
  constructor
  · intro p q word c h c1 h1 raw nextraw hstep hw hn hkind
    obtain ⟨raw1, nextraw1, hw1, hn1, hk, hc1, hh1, hst, -, -⟩ := parseWord_next_by_kind hstep
    rw [hw] at hw1
    rw [hn] at hn1
    obtain rfl := Option.some.inj hw1
    obtain rfl := Option.some.inj hn1
    rcases hkind with ⟨hk1, hz⟩ | ⟨hk1, hle⟩
    · rw [hk1] at hc1 hh1 hst
      simp only [nextCount, nextDeclared, nextState] at hc1 hh1 hst
      rw [hc1, hh1, hz]
      exact ⟨le_refl _, Or.inl hst⟩
    · rw [hk1] at hc1 hh1 hst
      simp only [nextCount, nextDeclared, nextState] at hc1 hh1 hst
      rw [if_neg (by omega)] at hst
      rw [hc1, hh1]
      exact ⟨by omega, Or.inl hst⟩
  · intro k word c h p q c1 h1 hlock hrun
    obtain ⟨b1, b2, b3, b4⟩ := parseLoop_locked k word c h p q c1 h1 hlock hrun
    refine ⟨b1, b2, ?_, b3, b4, fun w n => passKind_of_locked rd q w n b1.2⟩
    rcases b1.2 with hs | hs <;> rw [hs] <;> decide

/-- Witness for C19: `[M(count=0)][M(count=1)][PADDING][D]` under policy 0.  The
pass over the first header locks the loop; of the next three words the two
that are not padding are made tracklets, the second header among them. -/
theorem Parse_zero_count_locks_data_mode_witness :
    lockedIn
      { mkParser [0x80000001, 0x80000003, 0xeeeeeeee, 0x54320, 0, 0] 0 4 0 false false 7 1 with
        mState := TrackletParserState.StateTrackletMCMData, mWordsRead := 1,
        mTrackletMCMHeader := some 0 } 0 0 ∧
    (lockedIn
        { mkParser [0x80000001, 0x80000003, 0xeeeeeeee, 0x54320, 0, 0] 0 4 0 false false 7 1 with
          mState := TrackletParserState.StateTrackletMCMData, mWordsRead := 4,
          mTrackletsFound := 2, mTrackletMCMHeader := some 0, mTrackletMCMData := some 3,
          mTracklets := [trackletOf sampleRawData 15 0x80000001 0x80000003 0,
            trackletOf sampleRawData 15 0x80000001 0x54320 1] } 2 0 ∧
      (0 : Int) = 0 ∧
      ({ mkParser [0x80000001, 0x80000003, 0xeeeeeeee, 0x54320, 0, 0] 0 4 0 false false 7 1 with
          mState := TrackletParserState.StateTrackletMCMData, mWordsRead := 4,
          mTrackletsFound := 2, mTrackletMCMHeader := some 0, mTrackletMCMData := some 3,
          mTracklets := [trackletOf sampleRawData 15 0x80000001 0x80000003 0,
            trackletOf sampleRawData 15 0x80000001 0x54320 1] } : TrackletsParser).mState
        ≠ TrackletParserState.StateTrackletMCMHeader ∧
      (some 0 : Option Nat) = some 0 ∧
      2 = 0 + nonPaddingCount sampleRawData.CRUPADDING32 false
        [0x80000001, 0x80000003, 0xeeeeeeee, 0x54320, 0, 0] 1 3) := by
  have h := Parse_zero_count_locks_data_mode sampleRawData
  refine ⟨h.1
    { mkParser [0x80000001, 0x80000003, 0xeeeeeeee, 0x54320, 0, 0] 0 4 0 false false 7 1 with
      mState := TrackletParserState.StateTrackletMCMHeader }
    _ 0 0 0 0 0 0x80000001 0x80000003 (by decide) (by decide) (by decide)
    (Or.inl (by decide)), ?_⟩
  obtain ⟨a1, a2, a3, a4, a5, -⟩ := h.2 3 1 0 0
    { mkParser [0x80000001, 0x80000003, 0xeeeeeeee, 0x54320, 0, 0] 0 4 0 false false 7 1 with
      mState := TrackletParserState.StateTrackletMCMData, mWordsRead := 1,
      mTrackletMCMHeader := some 0 }
    { mkParser [0x80000001, 0x80000003, 0xeeeeeeee, 0x54320, 0, 0] 0 4 0 false false 7 1 with
      mState := TrackletParserState.StateTrackletMCMData, mWordsRead := 4,
      mTrackletsFound := 2, mTrackletMCMHeader := some 0, mTrackletMCMData := some 3,
      mTracklets := [trackletOf sampleRawData 15 0x80000001 0x80000003 0,
        trackletOf sampleRawData 15 0x80000001 0x54320 1] }
    2 0 (by decide) (by decide)
  exact ⟨a1, a2, a3, a4, a5⟩

/-! ## Two runs -/

theorem passKind_congr (rd : RawData) (p p1 : TrackletsParser) (w nextwordcopy : Nat)
    (hi : p1.mIgnoreTrackletHCHeader = p.mIgnoreTrackletHCHeader)
    (hs : p1.mState = p.mState) :
    passKind rd p1 w nextwordcopy = passKind rd p w nextwordcopy := by
  unfold passKind
  rw [hi, hs]

theorem bufferAfter_congr (p p1 : TrackletsParser) (word : Nat)
    (hd : p1.mData = p.mData) (hf : p1.mByteOrderFix = p.mByteOrderFix) :
    bufferAfter p1 word = bufferAfter p word := by
  unfold bufferAfter
  rw [hd, hf]

/-- Whether the further load of a pass succeeds, in the data branch, is
whether the read through the module header reference has a result. -/
theorem loadsDefined_congr (p p1 : TrackletsParser) (word : Nat) (k : PassKind)
    (hd : p1.mData = p.mData)
    (hh : k = PassKind.mcmData → (activeHeader p1 word = none ↔ activeHeader p word = none)) :
    loadsDefined p1 word k ↔ loadsDefined p word k := by
  cases k
  case endMarker =>
    unfold loadsDefined
    rw [hd]
  case mcmData =>
    unfold loadsDefined
    rw [not_iff_not]
    exact hh rfl
  all_goals exact Iff.rfl

/-- One pass of two runs that agree: when both passes have a result they
return alike or go on alike, and when the runs started with the same module
header reference one pass has a result when the other has. -/
theorem parseWord_agree (rd : RawData) {E : Prop} {a b : List Tracklet64}
    {p p1 : TrackletsParser} (word : Nat) (c h : Int) (hag : Agree E a b p p1) :
    (E → (parseWord rd p word c h = none ↔ parseWord rd p1 word c h = none)) ∧
    (∀ o o1, parseWord rd p word c h = some o → parseWord rd p1 word c h = some o1 →
      (∃ v q q1, o = Outcome.ret v q ∧ o1 = Outcome.ret v q1 ∧ Agree E a b q q1) ∨
      (∃ q q1 c1 h1, o = Outcome.next q c1 h1 ∧ o1 = Outcome.next q1 c1 h1 ∧
        Agree E a b q q1)) := by
  obtain ⟨g1, g2, g3, g4, g5, g6⟩ := hag
  by_cases hfin : p.mState = TrackletParserState.StateFinished
  · have e0 := parseWord_finished rd p word c h hfin
    have e1 := parseWord_finished rd p1 word c h (g3.trans hfin)
    refine ⟨fun _ => by rw [e0, e1]; simp, fun o o1 ho ho1 => ?_⟩
    rw [e0] at ho
    rw [e1] at ho1
    simp only [Option.some.injEq] at ho ho1
    subst ho
    subst ho1
    exact Or.inl ⟨p.mWordsRead, p, p1, rfl, by rw [g4], ⟨g1, g2, g3, g4, g5, g6⟩⟩
  · have hfin1 : p1.mState ≠ TrackletParserState.StateFinished := by rw [g3]; exact hfin
    cases hw : p.mData[word]? with
    | none =>
      have e0 : parseWord rd p word c h = none :=
        parseWord_none_of_load hfin (Or.inl hw)
      have e1 : parseWord rd p1 word c h = none :=
        parseWord_none_of_load hfin1 (Or.inl (by rw [g1]; exact hw))
      refine ⟨fun _ => by rw [e0, e1], fun o o1 ho _ => ?_⟩
      rw [e0] at ho
      cases ho
    | some raw =>
      cases hn : p.mData[word + 1]? with
      | none =>
        have e0 : parseWord rd p word c h = none :=
          parseWord_none_of_load hfin (Or.inr hn)
        have e1 : parseWord rd p1 word c h = none :=
          parseWord_none_of_load hfin1 (Or.inr (by rw [g1]; exact hn))
        refine ⟨fun _ => by rw [e0, e1], fun o o1 ho _ => ?_⟩
        rw [e0] at ho
        cases ho
      | some nextraw =>
        have hf : p1.mByteOrderFix = p.mByteOrderFix := g2.2.2.2.2.1
        have hdet : p1.mDetector = p.mDetector := g2.2.2.2.2.2.1
        have hrob : p1.mRobSide = p.mRobSide := g2.2.2.2.2.2.2
        have hkind := passKind_congr rd p p1 (normalize p.mByteOrderFix raw)
          (normalize p.mByteOrderFix nextraw) g2.2.2.2.1 g3
        have hact : E → activeHeader p1 word = activeHeader p word := by
          intro hE
          unfold activeHeader
          rw [(g6 hE).1, bufferAfter_congr p p1 word g1 hf]
        have hA := parseWord_by_kind rd p word raw nextraw c h hfin hw hn
        have hB := parseWord_by_kind rd p1 word raw nextraw c h hfin1 (by rw [g1]; exact hw)
          (by rw [g1]; exact hn)
        rw [hf, hkind, hdet, hrob, g4, g5] at hB
        generalize passKind rd p (normalize p.mByteOrderFix raw)
          (normalize p.mByteOrderFix nextraw) = k at hA hB
        refine ⟨fun hE => ?_, fun o o1 ho ho1 => ?_⟩
        · have hld := loadsDefined_congr p p1 word k g1 (fun _ => by rw [hact hE])
          rcases hA with ⟨hA1, hA2⟩ | ⟨hA1, q, -, -, -, -, -, -, hA7⟩
          · rcases hB with ⟨-, hB2⟩ | ⟨hB1, -⟩
            · rw [hA2, hB2]
            · exact absurd (hld.1 hB1) hA1
          · rcases hB with ⟨hB1, -⟩ | ⟨-, q1, -, -, -, -, -, -, hB7⟩
            · exact absurd (hld.2 hA1) hB1
            · have n0 : parseWord rd p word c h ≠ none := by
                rcases hA7 with ⟨-, -, heq⟩ | ⟨-, -, heq⟩ <;> rw [heq] <;> simp
              have n1 : parseWord rd p1 word c h ≠ none := by
                rcases hB7 with ⟨-, -, heq⟩ | ⟨-, -, heq⟩ <;> rw [heq] <;> simp
              exact ⟨fun hx => absurd hx n0, fun hx => absurd hx n1⟩
        · rcases hA with ⟨-, hA2⟩ | ⟨hA1, q, a1, a2, a3, a4, a5, a6, a7⟩
          · rw [hA2] at ho
            cases ho
          · rcases hB with ⟨-, hB2⟩ | ⟨hB1, q1, b1, b2, b3, b4, b5, b6, b7⟩
            · rw [hB2] at ho1
              cases ho1
            · have hq : q1.mWordsRead = q.mWordsRead → Agree E a b q q1 := by
                intro hwr
                refine ⟨by rw [b1, a1, bufferAfter_congr p p1 word g1 hf], ?_, by rw [b3, a3],
                  hwr, ?_, ?_⟩
                · obtain ⟨x1, x2, x3, x4, x5, x6, x7⟩ := a2
                  obtain ⟨y1, y2, y3, y4, y5, y6, y7⟩ := b2
                  obtain ⟨z1, z2, z3, z4, z5, z6, z7⟩ := g2
                  exact ⟨by rw [y1, z1, x1], by rw [y2, z2, x2], by rw [y3, z3, x3],
                    by rw [y4, z4, x4], by rw [y5, z5, x5], by rw [y6, z6, x6],
                    by rw [y7, z7, x7]⟩
                · rw [b5, a5, emitted_length, emitted_length]
                  cases k
                  case mcmData =>
                    unfold loadsDefined at hA1 hB1
                    simp [hA1, hB1]
                  all_goals simp
                · intro hE
                  obtain ⟨e1, new, e2, e3⟩ := g6 hE
                  rw [hact hE] at b4
                  rw [e1] at b6
                  refine ⟨by rw [b6, a6], new ++ emitted rd (p.mDetector * 2 + p.mRobSide) k
                    (activeHeader p word) (normalize p.mByteOrderFix raw) c, ?_, ?_⟩
                  · rw [a4, e2, List.append_assoc]
                  · rw [b4, e3, List.append_assoc]
              rcases a7 with ⟨hk, hwa, heq⟩ | ⟨hk, hwa, heq⟩
              · rcases b7 with ⟨-, hwb, heq1⟩ | ⟨hk1, -, -⟩
                · rw [heq] at ho
                  rw [heq1] at ho1
                  simp only [Option.some.injEq] at ho ho1
                  exact Or.inl ⟨_, q, q1, ho.symm, ho1.symm, hq (by rw [hwb, hwa])⟩
                · exact absurd hk hk1
              · rcases b7 with ⟨hk1, -, -⟩ | ⟨-, hwb, heq1⟩
                · exact absurd hk1 hk
                · rw [heq] at ho
                  rw [heq1] at ho1
                  simp only [Option.some.injEq] at ho ho1
                  exact Or.inr ⟨q, q1, _, _, ho.symm, ho1.symm, hq (by rw [hwb, hwa])⟩

/-- The loop of two runs that agree. -/
theorem parseLoop_agree (rd : RawData) {E : Prop} {a b : List Tracklet64} :
    ∀ (r word : Nat) (c h : Int) (p p1 : TrackletsParser), Agree E a b p p1 →
      (E → (parseLoop rd r word c h p = none ↔ parseLoop rd r word c h p1 = none)) ∧
      (∀ o o1, parseLoop rd r word c h p = some o → parseLoop rd r word c h p1 = some o1 →
        (∃ v q q1, o = Outcome.ret v q ∧ o1 = Outcome.ret v q1 ∧ Agree E a b q q1) ∨
        (∃ q q1 c1 h1, o = Outcome.next q c1 h1 ∧ o1 = Outcome.next q1 c1 h1 ∧
          Agree E a b q q1)) := by
  intro r
  induction r with
  | zero =>
    intro word c h p p1 hag
    refine ⟨fun _ => by simp [parseLoop], fun o o1 ho ho1 => ?_⟩
    simp only [parseLoop, Option.some.injEq] at ho ho1
    exact Or.inr ⟨p, p1, c, h, ho.symm, ho1.symm, hag⟩
  | succ r ih =>
    intro word c h p p1 hag
    obtain ⟨w1, w2⟩ := parseWord_agree rd word c h hag
    cases hs : parseWord rd p word c h with
    | none =>
      refine ⟨fun hE => ?_, fun o o1 ho _ => ?_⟩
      · have := (w1 hE).1 hs
        rw [parseLoop, parseLoop, hs, this]
      · rw [parseLoop, hs] at ho
        cases ho
    | some x =>
      cases hs1 : parseWord rd p1 word c h with
      | none =>
        refine ⟨fun hE => ?_, fun o o1 _ ho1 => ?_⟩
        · have := (w1 hE).2 hs1
          rw [hs] at this
          cases this
        · rw [parseLoop, hs1] at ho1
          cases ho1
      | some x1 =>
        rcases w2 x x1 hs hs1 with ⟨v, q, q1, rfl, rfl, hq⟩ | ⟨q, q1, c1, h1, rfl, rfl, hq⟩
        · rw [parseLoop_step_ret _ hs, parseLoop_step_ret _ hs1]
          refine ⟨fun _ => by simp, fun o o1 ho ho1 => ?_⟩
          simp only [Option.some.injEq] at ho ho1
          exact Or.inl ⟨v, q, q1, ho.symm, ho1.symm, hq⟩
        · rw [parseLoop_step_next _ hs, parseLoop_step_next _ hs1]
          exact ih (word + 1) c1 h1 q q1 hq

/-- Lines 77-100 in two runs over the same array with the same configuration. -/
theorem startParser_agree (p p1 : TrackletsParser)
    (hdata : p1.mData = p.mData) (hsetup : sameSetup p p1) :
    (startParser p = none ∧ startParser p1 = none) ∨
    ∃ p0 p0', startParser p = some p0 ∧ startParser p1 = some p0' ∧
      Agree (p1.mTrackletMCMHeader = p.mTrackletMCMHeader) p.mTracklets p1.mTracklets p0 p0' := by
  obtain ⟨z1, z2, z3, z4, z5, z6, z7⟩ := hsetup
  have hinit : initialState { p1 with mCurrentLink := 0, mWordsRead := 0, mTrackletsFound := 0 }
      = initialState { p with mCurrentLink := 0, mWordsRead := 0, mTrackletsFound := 0 } := by
    unfold initialState
    simp only [z1, z3, hdata]
  unfold startParser
  simp only [hinit]
  cases initialState { p with mCurrentLink := 0, mWordsRead := 0, mTrackletsFound := 0 } with
  | none => exact Or.inl ⟨rfl, rfl⟩
  | some st =>
    right
    refine ⟨_, _, rfl, rfl, hdata, ⟨z1, z2, z3, z4, z5, z6, z7⟩, rfl, rfl, rfl, fun hE => ?_⟩
    exact ⟨hE, [], by simp, by simp⟩

/-- A call in terms of its loop. -/
theorem Parse_of_startParser (rd : RawData) {p p0 : TrackletsParser}
    (hs : startParser p = some p0) :
    Parse rd p = if p.mEndParse < p.mStartParse then none else
      match parseLoop rd (p.mEndParse - p.mStartParse) p.mStartParse 0 0 p0 with
      | some (Outcome.ret value y) => some (value, y)
      | some (Outcome.next y _ _) => some (y.mWordsRead, y)
      | none => none := by
  have e1 : p0.mStartParse = p.mStartParse := (startParser_some hs).2.1.1
  have e2 : p0.mEndParse = p.mEndParse := (startParser_some hs).2.1.2.1
  unfold Parse
  simp only [hs, e1, e2]

/-- The tracklets a call appends are counted by `mTrackletsFound`. -/
theorem Parse_emitted {rd : RawData} {p q : TrackletsParser} {v : Nat}
    (h : Parse rd p = some (v, q)) :
    ∃ new : List Tracklet64, q.mTracklets = p.mTracklets ++ new ∧
      q.mTrackletsFound = new.length := by
  obtain ⟨-, -, -, a4⟩ := Parse_spec h
  rcases a4 with ⟨i, -, -, -, -, -, -, -, new, e1, -, e3, -⟩ |
    ⟨-, -, -, -, new, e1, -, e3, -⟩
  · exact ⟨new, e1, e3⟩
  · exact ⟨new, e1, e3⟩

/-- Two calls on the same array with the same configuration, from any two
prior states: when both have a result they agree. -/
theorem Parse_agree (rd : RawData) (p p1 : TrackletsParser)
    (hdata : p1.mData = p.mData) (hsetup : sameSetup p p1) :
    (p1.mTrackletMCMHeader = p.mTrackletMCMHeader →
      (Parse rd p = none ↔ Parse rd p1 = none)) ∧
    (∀ v v1 q q1, Parse rd p = some (v, q) → Parse rd p1 = some (v1, q1) →
      v1 = v ∧ Agree (p1.mTrackletMCMHeader = p.mTrackletMCMHeader) p.mTracklets
        p1.mTracklets q q1) := by
  rcases startParser_agree p p1 hdata hsetup with ⟨s1, s2⟩ | ⟨p0, p0', s1, s2, hag⟩
  · have n0 : Parse rd p = none := by
      unfold Parse
      rw [s1]
    have n1 : Parse rd p1 = none := by
      unfold Parse
      rw [s2]
    refine ⟨fun _ => by rw [n0, n1], fun v v1 q q1 hq _ => ?_⟩
    rw [n0] at hq
    cases hq
  · have hP := Parse_of_startParser rd s1
    have hP1 := Parse_of_startParser rd s2
    rw [hsetup.1, hsetup.2.1] at hP1
    by_cases hle : p.mEndParse < p.mStartParse
    · rw [if_pos hle] at hP hP1
      refine ⟨fun _ => by rw [hP, hP1], fun v v1 q q1 hq _ => ?_⟩
      rw [hP] at hq
      cases hq
    · rw [if_neg hle] at hP hP1
      obtain ⟨w1, w2⟩ := parseLoop_agree rd (p.mEndParse - p.mStartParse) p.mStartParse 0 0
        p0 p0' hag
      constructor
      · intro hE
        have hiff := w1 hE
        rw [hP, hP1]
        cases hr : parseLoop rd (p.mEndParse - p.mStartParse) p.mStartParse 0 0 p0 with
        | none =>
          rw [hiff.1 hr]
        | some o =>
          cases hr1 : parseLoop rd (p.mEndParse - p.mStartParse) p.mStartParse 0 0 p0' with
          | none =>
            have := hiff.2 hr1
            rw [hr] at this
            cases this
          | some o1 =>
            cases o <;> cases o1 <;> simp
      · intro v v1 q q1 hq hq1
        rw [hP] at hq
        rw [hP1] at hq1
        cases hr : parseLoop rd (p.mEndParse - p.mStartParse) p.mStartParse 0 0 p0 with
        | none =>
          rw [hr] at hq
          cases hq
        | some o =>
          cases hr1 : parseLoop rd (p.mEndParse - p.mStartParse) p.mStartParse 0 0 p0' with
          | none =>
            rw [hr1] at hq1
            cases hq1
          | some o1 =>
            rw [hr] at hq
            rw [hr1] at hq1
            rcases w2 o o1 hr hr1 with ⟨x, y, y1, rfl, rfl, hy⟩ | ⟨y, y1, c1, h1, rfl, rfl, hy⟩
            · simp only [Option.some.injEq, Prod.mk.injEq] at hq hq1
              obtain ⟨rfl, rfl⟩ := hq
              obtain ⟨rfl, rfl⟩ := hq1
              exact ⟨rfl, hy⟩
            · simp only [Option.some.injEq, Prod.mk.injEq] at hq hq1
              obtain ⟨rfl, rfl⟩ := hq
              obtain ⟨rfl, rfl⟩ := hq1
              exact ⟨hy.2.2.2.1, hy⟩

/-- C13 does not hold as stated: `Parse` clears neither `mTracklets` nor the
module header reference. On `[H][M(count=1)][D][END][END]` a parser that
already holds one tracklet ends with two while `mTrackletsFound` is 1. On a
region that starts with a data word under policy 0, `[D][END][END]` followed by
the words `0x88000001` and `0x90000001`, a new parser (whose module header
reference designates no word) has no defined result, a parser whose reference
designates the word at index 3 returns 3 with a tracklet of pad row 1, and one
whose reference designates the word at index 4 returns 3 with a tracklet of pad
row 2. With `mByteOrderFix` set and the reference left on the word at index 1
of the region `[D][D][END][END]`, the first tracklet takes its pad row from
that word as stored (0) and the second from the same word after the call has
swapped it in place (2). -/
theorem Parse_prior_state_counterexample :
    (Parse sampleRawData
      { mkParser [0x800, 0x80000003, 0x12345, 0x10001000, 0x10001000, 0] 0 5 2 false false 7 1
        with mTracklets := [trackletOf sampleRawData 3 0x80000003 0x54320 0] }).map
      (fun r => (r.2.mTracklets.length, r.2.mTrackletsFound)) = some (2, 1) ∧
    Parse sampleRawData
      (mkParser [0x12344, 0x10001000, 0x10001000, 0x88000001, 0x90000001] 0 3 0
        false false 7 1) = none ∧
    (Parse sampleRawData
      { mkParser [0x12344, 0x10001000, 0x10001000, 0x88000001, 0x90000001] 0 3 0
          false false 7 1
        with mTrackletMCMHeader := some 3 }).map
      (fun r => (r.1, r.2.mTracklets.map (fun t => t.padrow))) = some (3, [1]) ∧
    (Parse sampleRawData
      { mkParser [0x12344, 0x10001000, 0x10001000, 0x88000001, 0x90000001] 0 3 0
          false false 7 1
        with mTrackletMCMHeader := some 4 }).map
      (fun r => (r.1, r.2.mTracklets.map (fun t => t.padrow))) = some (3, [2]) ∧
    (Parse sampleRawData
      { mkParser [0x02000000, 0x04000010, 0x00100010, 0x00100010, 0] 0 4 0 false true 7 1
        with mTrackletMCMHeader := some 1 }).map
      (fun r => (r.1, r.2.mTracklets.map (fun t => t.padrow))) = some (4, [0, 2]) := by
  decide

/-- C13, amended: take two calls on the same array, cursors and configuration,
made from any two prior parser states. When the two prior states hold the same
module header reference, either both calls have no defined result or both
return the same value, leave the same `mTrackletsFound` and append the same
tracklets, whose number is `mTrackletsFound`, to the sequence each found. From
any two prior states, when both calls have a result they return the same value
and leave the same `mTrackletsFound`, and each leaves the tracklet sequence it
found followed by the tracklets of the call, whose number is
`mTrackletsFound`. -/
theorem Parse_prior_state (rd : RawData) (p p1 : TrackletsParser)
    (hdata : p1.mData = p.mData) (hsetup : sameSetup p p1) :
    (p1.mTrackletMCMHeader = p.mTrackletMCMHeader →
      (Parse rd p = none ∧ Parse rd p1 = none) ∨
      ∃ (v : Nat) (q q1 : TrackletsParser) (new : List Tracklet64),
        Parse rd p = some (v, q) ∧ Parse rd p1 = some (v, q1) ∧
        q1.mTrackletsFound = q.mTrackletsFound ∧
        q.mTracklets = p.mTracklets ++ new ∧ q1.mTracklets = p1.mTracklets ++ new ∧
        new.length = q.mTrackletsFound) ∧
    (∀ (v v1 : Nat) (q q1 : TrackletsParser),
      Parse rd p = some (v, q) → Parse rd p1 = some (v1, q1) →
      v1 = v ∧ q1.mTrackletsFound = q.mTrackletsFound ∧
      ∃ (new new1 : List Tracklet64),
        q.mTracklets = p.mTracklets ++ new ∧ q1.mTracklets = p1.mTracklets ++ new1 ∧
        new.length = q.mTrackletsFound ∧ new1.length = q.mTrackletsFound) := by
  obtain ⟨w1, w2⟩ := Parse_agree rd p p1 hdata hsetup
  have hboth : ∀ (v v1 : Nat) (q q1 : TrackletsParser),
      Parse rd p = some (v, q) → Parse rd p1 = some (v1, q1) →
      v1 = v ∧ q1.mTrackletsFound = q.mTrackletsFound ∧
      ∃ (new new1 : List Tracklet64),
        q.mTracklets = p.mTracklets ++ new ∧ q1.mTracklets = p1.mTracklets ++ new1 ∧
        new.length = q.mTrackletsFound ∧ new1.length = q.mTrackletsFound := by
    intro v v1 q q1 hq hq1
    obtain ⟨hv, hag⟩ := w2 v v1 q q1 hq hq1
    obtain ⟨new, n1, n2⟩ := Parse_emitted hq
    obtain ⟨new1, m1, m2⟩ := Parse_emitted hq1
    exact ⟨hv, hag.2.2.2.2.1, new, new1, n1, m1, n2.symm, by rw [← hag.2.2.2.2.1, m2]⟩
  refine ⟨fun hE => ?_, hboth⟩
  cases hq : Parse rd p with
  | none => exact Or.inl ⟨rfl, (w1 hE).1 hq⟩
  | some r =>
    cases hq1 : Parse rd p1 with
    | none =>
      have := (w1 hE).2 hq1
      rw [hq] at this
      cases this
    | some r1 =>
      right
      obtain ⟨v, q⟩ := r
      obtain ⟨v1, q1⟩ := r1
      obtain ⟨hv, hag⟩ := w2 v v1 q q1 hq hq1
      subst hv
      obtain ⟨new, n1, n2⟩ := Parse_emitted hq
      obtain ⟨-, new0, e2, e3⟩ := hag.2.2.2.2.2 hE
      rw [n1] at e2
      have hnew : new0 = new := (List.append_cancel_left e2).symm
      subst hnew
      exact ⟨v1, q, q1, new0, rfl, rfl, hag.2.2.2.2.1, n1, e3, n2.symm⟩

/-- Witness for C13: the stream `[H][M(count=1)][D][END][END]` parsed from a
new parser and from one that holds another state, other counters, a tracklet
and a data word reference from an earlier call; the module header reference
designates no word in both. -/
theorem Parse_prior_state_witness :
    (Parse sampleRawData
        (mkParser [0x800, 0x80000003, 0x12345, 0x10001000, 0x10001000, 0] 0 5 2
          false false 7 1)).map (fun r => (r.1, r.2.mTracklets.length, r.2.mTrackletsFound))
      = some (5, 1, 1) ∧
    (Parse sampleRawData
        { mkParser [0x800, 0x80000003, 0x12345, 0x10001000, 0x10001000, 0] 0 5 2
            false false 7 1
          with mState := TrackletParserState.StatePadding, mWordsRead := 9,
               mTrackletsFound := 4, mTrackletMCMData := some 2,
               mTracklets := [trackletOf sampleRawData 3 0x80000003 0x54320 0] }).map
        (fun r => (r.1, r.2.mTracklets.length, r.2.mTrackletsFound))
      = some (5, 2, 1) ∧
    (((none : Option Nat) = none →
      (Parse sampleRawData (mkParser [0x800, 0x80000003, 0x12345, 0x10001000, 0x10001000, 0]
          0 5 2 false false 7 1) = none ∧
        Parse sampleRawData
          { mkParser [0x800, 0x80000003, 0x12345, 0x10001000, 0x10001000, 0] 0 5 2
              false false 7 1
            with mState := TrackletParserState.StatePadding, mWordsRead := 9,
                 mTrackletsFound := 4, mTrackletMCMData := some 2,
                 mTracklets := [trackletOf sampleRawData 3 0x80000003 0x54320 0] } = none) ∨
      ∃ (v : Nat) (q q1 : TrackletsParser) (new : List Tracklet64),
        Parse sampleRawData (mkParser [0x800, 0x80000003, 0x12345, 0x10001000, 0x10001000, 0]
          0 5 2 false false 7 1) = some (v, q) ∧
        Parse sampleRawData
          { mkParser [0x800, 0x80000003, 0x12345, 0x10001000, 0x10001000, 0] 0 5 2
              false false 7 1
            with mState := TrackletParserState.StatePadding, mWordsRead := 9,
                 mTrackletsFound := 4, mTrackletMCMData := some 2,
                 mTracklets := [trackletOf sampleRawData 3 0x80000003 0x54320 0] }
          = some (v, q1) ∧
        q1.mTrackletsFound = q.mTrackletsFound ∧
        q.mTracklets = [] ++ new ∧
        q1.mTracklets = [trackletOf sampleRawData 3 0x80000003 0x54320 0] ++ new ∧
        new.length = q.mTrackletsFound) ∧
    (∀ (v v1 : Nat) (q q1 : TrackletsParser),
      Parse sampleRawData (mkParser [0x800, 0x80000003, 0x12345, 0x10001000, 0x10001000, 0]
          0 5 2 false false 7 1) = some (v, q) →
      Parse sampleRawData
          { mkParser [0x800, 0x80000003, 0x12345, 0x10001000, 0x10001000, 0] 0 5 2
              false false 7 1
            with mState := TrackletParserState.StatePadding, mWordsRead := 9,
                 mTrackletsFound := 4, mTrackletMCMData := some 2,
                 mTracklets := [trackletOf sampleRawData 3 0x80000003 0x54320 0] }
          = some (v1, q1) →
      v1 = v ∧ q1.mTrackletsFound = q.mTrackletsFound ∧
      ∃ (new new1 : List Tracklet64),
        q.mTracklets = [] ++ new ∧
        q1.mTracklets = [trackletOf sampleRawData 3 0x80000003 0x54320 0] ++ new1 ∧
        new.length = q.mTrackletsFound ∧ new1.length = q.mTrackletsFound)) :=
  ⟨by decide, by decide,
    Parse_prior_state sampleRawData
      (mkParser [0x800, 0x80000003, 0x12345, 0x10001000, 0x10001000, 0] 0 5 2 false false 7 1)
      { mkParser [0x800, 0x80000003, 0x12345, 0x10001000, 0x10001000, 0] 0 5 2 false false 7 1
        with mState := TrackletParserState.StatePadding, mWordsRead := 9,
             mTrackletsFound := 4, mTrackletMCMData := some 2,
             mTracklets := [trackletOf sampleRawData 3 0x80000003 0x54320 0] }
      rfl ⟨rfl, rfl, rfl, rfl, rfl, rfl, rfl⟩⟩

/-! ## Byte order in two runs -/

/-- The branch of a pass does not tell `StateTrackletEndMarker` from
`StateTrackletMCMHeader` when the examined word has neither boundary bit. -/
theorem passKind_inStep (rd : RawData) (pA pB : TrackletsParser) (w nextwordcopy : Nat)
    (hi : pB.mIgnoreTrackletHCHeader = pA.mIgnoreTrackletHCHeader)
    (hs : pB.mState = pA.mState ∨
      ((pA.mState = TrackletParserState.StateTrackletEndMarker ∨
          pA.mState = TrackletParserState.StateTrackletMCMHeader) ∧
        (pB.mState = TrackletParserState.StateTrackletEndMarker ∨
          pB.mState = TrackletParserState.StateTrackletMCMHeader) ∧
        w &&& 0x80000001 = 0)) :
    passKind rd pB w nextwordcopy = passKind rd pA w nextwordcopy := by
  rcases hs with hs | ⟨ha, hb, hbits⟩
  · exact passKind_congr rd pA pB w nextwordcopy hi hs
  · have hA : pA.mState ≠ TrackletParserState.StateTrackletHCHeader := by
      rcases ha with h | h <;> rw [h] <;> decide
    have hB : pB.mState ≠ TrackletParserState.StateTrackletHCHeader := by
      rcases hb with h | h <;> rw [h] <;> decide
    unfold passKind
    simp [hA, hB, hbits]

/-- The state after a pass, with the stored lookahead `x` in one run and `y` in
the other: the same, or one of `StateTrackletEndMarker` and
`StateTrackletMCMHeader` in each run with `x` or `y` the end marker. -/
theorem nextState_inStep (k : PassKind) (c h : Int) (x y : Nat) :
    nextState k c h y = nextState k c h x ∨
    ((nextState k c h x = TrackletParserState.StateTrackletEndMarker ∨
        nextState k c h x = TrackletParserState.StateTrackletMCMHeader) ∧
      (nextState k c h y = TrackletParserState.StateTrackletEndMarker ∨
        nextState k c h y = TrackletParserState.StateTrackletMCMHeader) ∧
      (x = constants.TRACKLETENDMARKER ∨ y = constants.TRACKLETENDMARKER)) := by
  cases k
  case mcmData =>
    unfold nextState
    by_cases hc : c + 1 = h
    · by_cases hx : x = constants.TRACKLETENDMARKER
      · by_cases hy : y = constants.TRACKLETENDMARKER
        · left
          simp [hc, hx, hy]
        · right
          simp [hc, hx, hy]
      · by_cases hy : y = constants.TRACKLETENDMARKER
        · right
          simp [hc, hx, hy]
        · left
          simp [hc, hx, hy]
    · left
      simp [hc]
  all_goals exact Or.inl rfl

/-- A read through the module header reference gives the same word in two runs
in step. -/
theorem activeHeader_inStep {pA pB : TrackletsParser} {word : Nat}
    (hin : InStep word pA pB) : activeHeader pB word = activeHeader pA word := by
  obtain ⟨fA, fB, hd, hi, hdet, hrob, hwr, hfound, htr, hhdr, hptr, hst⟩ := hin
  unfold activeHeader
  rw [hhdr]
  cases hp : pA.mTrackletMCMHeader with
  | none => rfl
  | some i =>
    obtain ⟨hlt, heq⟩ := hptr i hp
    simp only
    rw [bufferAfter_getElem, bufferAfter_getElem, if_neg (by omega), if_neg (by omega)]
    exact heq

/-- One pass of a normalizing run and of a run over the byte-swapped words. -/
theorem parseWord_inStep (rd : RawData) {pA pB : TrackletsParser} (word : Nat) (c h : Int)
    (hin : InStep word pA pB) :
    (parseWord rd pA word c h = none ∧ parseWord rd pB word c h = none) ∨
    (∃ v qA qB, parseWord rd pA word c h = some (Outcome.ret v qA) ∧
      parseWord rd pB word c h = some (Outcome.ret v qB) ∧
      qB.mTracklets = qA.mTracklets ∧ qB.mTrackletsFound = qA.mTrackletsFound) ∨
    (∃ qA qB c1 h1, parseWord rd pA word c h = some (Outcome.next qA c1 h1) ∧
      parseWord rd pB word c h = some (Outcome.next qB c1 h1) ∧ InStep (word + 1) qA qB) := by
  have hact := activeHeader_inStep hin
  obtain ⟨fA, fB, hd, hi, hdet, hrob, hwr, hfound, htr, hhdr, hptr, hst⟩ := hin
  by_cases hfin : pA.mState = TrackletParserState.StateFinished
  · have hfinB : pB.mState = TrackletParserState.StateFinished := by
      rcases hst with hs | ⟨ha, -, -⟩
      · rw [hs, hfin]
      · rcases ha with ha | ha <;> rw [hfin] at ha <;> cases ha
    right; left
    refine ⟨pA.mWordsRead, pA, pB, parseWord_finished rd pA word c h hfin, ?_, htr, hfound⟩
    rw [parseWord_finished rd pB word c h hfinB, hwr]
  · have hfinB : pB.mState ≠ TrackletParserState.StateFinished := by
      rcases hst with hs | ⟨-, hb, -⟩
      · rw [hs]
        exact hfin
      · rcases hb with hb | hb <;> rw [hb] <;> decide
    cases hw : pA.mData[word]? with
    | none =>
      left
      exact ⟨parseWord_none_of_load hfin (Or.inl hw),
        parseWord_none_of_load hfinB (Or.inl (by rw [hd word (le_refl _), hw]; rfl))⟩
    | some raw =>
      cases hn : pA.mData[word + 1]? with
      | none =>
        left
        exact ⟨parseWord_none_of_load hfin (Or.inr hn),
          parseWord_none_of_load hfinB (Or.inr (by rw [hd (word + 1) (by omega), hn]; rfl))⟩
      | some nextraw =>
        have hwB : pB.mData[word]? = some (swapByteOrder raw) := by
          rw [hd word (le_refl _), hw]
          rfl
        have hnB : pB.mData[word + 1]? = some (swapByteOrder nextraw) := by
          rw [hd (word + 1) (by omega), hn]
          rfl
        have nA1 : normalize pA.mByteOrderFix raw = swapByteOrder raw := by
          rw [fA]
          rfl
        have nA2 : normalize pA.mByteOrderFix nextraw = swapByteOrder nextraw := by
          rw [fA]
          rfl
        have nB1 : normalize pB.mByteOrderFix (swapByteOrder raw) = swapByteOrder raw := by
          rw [fB]
          rfl
        have nB2 : normalize pB.mByteOrderFix (swapByteOrder nextraw)
            = swapByteOrder nextraw := by
          rw [fB]
          rfl
        have hkind : passKind rd pB (swapByteOrder raw) (swapByteOrder nextraw)
            = passKind rd pA (swapByteOrder raw) (swapByteOrder nextraw) := by
          apply passKind_inStep rd pA pB _ _ hi
          rcases hst with hs | ⟨ha, hb, hbits⟩
          · exact Or.inl hs
          · exact Or.inr ⟨ha, hb, hbits _ hwB⟩
        have hA := parseWord_by_kind rd pA word raw nextraw c h hfin hw hn
        have hB := parseWord_by_kind rd pB word (swapByteOrder raw) (swapByteOrder nextraw) c h
          hfinB hwB hnB
        rw [nA1, nA2] at hA
        rw [nB1, nB2, hkind, hdet, hrob, hhdr, hact] at hB
        have hld : loadsDefined pB word (passKind rd pA (swapByteOrder raw)
              (swapByteOrder nextraw))
            ↔ loadsDefined pA word (passKind rd pA (swapByteOrder raw)
              (swapByteOrder nextraw)) := by
          generalize passKind rd pA (swapByteOrder raw) (swapByteOrder nextraw) = k
          cases k
          case endMarker =>
            unfold loadsDefined
            rw [hd (word + 2) (by omega)]
            cases pA.mData[word + 2]? <;> simp
          case mcmData =>
            unfold loadsDefined
            rw [hact]
          all_goals exact Iff.rfl
        rcases hA with ⟨hA1, hA2⟩ | ⟨hA1, qA, a1, a2, a3, a4, a5, a6, a7⟩
        · rcases hB with ⟨-, hB2⟩ | ⟨hB1, -⟩
          · exact Or.inl ⟨hA2, hB2⟩
          · exact absurd (hld.1 hB1) hA1
        · rcases hB with ⟨hB1, -⟩ | ⟨-, qB, b1, b2, b3, b4, b5, b6, b7⟩
          · exact absurd (hld.2 hA1) hB1
          · right
            have htrq : qB.mTracklets = qA.mTracklets := by rw [b4, a4, htr]
            have hfq : qB.mTrackletsFound = qA.mTrackletsFound := by rw [b5, a5, hfound]
            have hstep : qB.mWordsRead = qA.mWordsRead → InStep (word + 1) qA qB := by
              intro hwq
              obtain ⟨x1, x2, x3, x4, x5, x6, x7⟩ := a2
              obtain ⟨y1, y2, y3, y4, y5, y6, y7⟩ := b2
              have hqBdata : ∀ j : Nat, qB.mData[j]? = pB.mData[j]? := by
                intro j
                rw [b1, bufferAfter_getElem]
                simp [fB]
              refine ⟨by rw [x5, fA], by rw [y5, fB], ?_, by rw [y4, x4, hi],
                by rw [y6, x6, hdet], by rw [y7, x7, hrob], hwq, hfq, htrq, by rw [b6, a6],
                ?_, ?_⟩
              · intro j hj
                rw [hqBdata, a1, bufferAfter_getElem, if_neg (by omega)]
                exact hd j (by omega)
              · intro i hi1
                rw [a6] at hi1
                by_cases hk : passKind rd pA (swapByteOrder raw) (swapByteOrder nextraw)
                    = PassKind.mcmHeader
                · rw [hk] at hi1
                  simp only [nextHeader, Option.some.injEq] at hi1
                  subst hi1
                  refine ⟨by omega, ?_⟩
                  rw [hqBdata, a1, bufferAfter_getElem, if_pos ⟨fA, le_refl _, by omega⟩,
                    hwB, hw]
                  rfl
                · have hsame : nextHeader (passKind rd pA (swapByteOrder raw)
                      (swapByteOrder nextraw)) pA.mTrackletMCMHeader word
                      = pA.mTrackletMCMHeader := by
                    generalize passKind rd pA (swapByteOrder raw) (swapByteOrder nextraw) = k
                      at hk
                    cases k <;> first | rfl | exact absurd rfl hk
                  rw [hsame] at hi1
                  obtain ⟨hlt, heq⟩ := hptr i hi1
                  refine ⟨by omega, ?_⟩
                  rw [hqBdata, a1, bufferAfter_getElem, if_neg (by omega)]
                  exact heq
              · rw [b3, a3]
                rcases nextState_inStep (passKind rd pA (swapByteOrder raw)
                  (swapByteOrder nextraw)) c h nextraw (swapByteOrder nextraw)
                  with hs | ⟨ha, hb, hend⟩
                · exact Or.inl hs
                · refine Or.inr ⟨ha, hb, ?_⟩
                  intro w hwq1
                  rw [hqBdata, hnB] at hwq1
                  cases hwq1
                  rcases hend with he | he
                  · rw [he]
                    decide
                  · rw [he]
                    decide
            rcases a7 with ⟨hk, hwa, heq⟩ | ⟨hk, hwa, heq⟩
            · rcases b7 with ⟨-, hwb, heq1⟩ | ⟨hk1, -, -⟩
              · left
                rw [hwr] at heq1
                exact ⟨_, qA, qB, heq, heq1, htrq, hfq⟩
              · exact absurd hk hk1
            · rcases b7 with ⟨hk1, -, -⟩ | ⟨-, hwb, heq1⟩
              · exact absurd hk1 hk
              · right
                exact ⟨qA, qB, _, _, heq, heq1, hstep (by rw [hwb, hwa, hwr])⟩

/-- The loop of a normalizing run and of a run over the byte-swapped words. -/
theorem parseLoop_inStep (rd : RawData) :
    ∀ (r word : Nat) (c h : Int) (pA pB : TrackletsParser), InStep word pA pB →
      (parseLoop rd r word c h pA = none ∧ parseLoop rd r word c h pB = none) ∨
      (∃ v qA qB, parseLoop rd r word c h pA = some (Outcome.ret v qA) ∧
        parseLoop rd r word c h pB = some (Outcome.ret v qB) ∧
        qB.mTracklets = qA.mTracklets ∧ qB.mTrackletsFound = qA.mTrackletsFound) ∨
      (∃ qA qB c1 h1, parseLoop rd r word c h pA = some (Outcome.next qA c1 h1) ∧
        parseLoop rd r word c h pB = some (Outcome.next qB c1 h1) ∧
        qB.mWordsRead = qA.mWordsRead ∧
        qB.mTracklets = qA.mTracklets ∧ qB.mTrackletsFound = qA.mTrackletsFound) := by
  intro r
  induction r with
  | zero =>
    intro word c h pA pB hin
    obtain ⟨-, -, -, -, -, -, hwr, hfound, htr, -, -, -⟩ := hin
    exact Or.inr (Or.inr ⟨pA, pB, c, h, rfl, rfl, hwr, htr, hfound⟩)
  | succ r ih =>
    intro word c h pA pB hin
    rcases parseWord_inStep rd word c h hin with ⟨e1, e2⟩ | ⟨v, qA, qB, e1, e2, e3⟩ |
      ⟨qA, qB, c1, h1, e1, e2, e3⟩
    · left
      rw [parseLoop, parseLoop, e1, e2]
      exact ⟨rfl, rfl⟩
    · right; left
      exact ⟨v, qA, qB, parseLoop_step_ret _ e1, parseLoop_step_ret _ e2, e3⟩
    · rw [parseLoop_step_next _ e1, parseLoop_step_next _ e2]
      exact ih (word + 1) c1 h1 qA qB e3

/-- Lines 77-100 under a policy other than 1 do not load from the array: the
two runs start in step. -/
theorem startParser_inStep (p : TrackletsParser) (swapped : List Nat)
    (hpol : p.mTrackletHCHeaderState ≠ 1)
    (hdata : ∀ j, p.mStartParse ≤ j → swapped[j]? = (p.mData[j]?).map swapByteOrder)
    (hptr : ∀ i, p.mTrackletMCMHeader = some i →
      i < p.mStartParse ∧ swapped[i]? = p.mData[i]?) :
    ∃ pA pB, startParser { p with mByteOrderFix := true } = some pA ∧
      startParser { p with mByteOrderFix := false, mData := swapped } = some pB ∧
      InStep p.mStartParse pA pB ∧
      pA.mStartParse = p.mStartParse ∧ pA.mEndParse = p.mEndParse ∧
      pB.mStartParse = p.mStartParse ∧ pB.mEndParse = p.mEndParse := by
  unfold startParser initialState
  by_cases h0 : p.mTrackletHCHeaderState = 0
  · simp only [h0, if_true]
    exact ⟨_, _, rfl, rfl, ⟨rfl, rfl, hdata, rfl, rfl, rfl, rfl, rfl, rfl, rfl, hptr,
      Or.inl rfl⟩, rfl, rfl, rfl, rfl⟩
  · simp only [h0, hpol, if_false]
    exact ⟨_, _, rfl, rfl, ⟨rfl, rfl, hdata, rfl, rfl, rfl, rfl, rfl, rfl, rfl, hptr,
      Or.inl rfl⟩, rfl, rfl, rfl, rfl⟩

/-- C20: byte-order normalization is transparent under the header policies
that do not probe the array (every policy value other than 1, so 0 "never" and
2 "always").  Take any array, region and prior state, and a second array whose
words from the start of the region on, the words after the region included,
are the byte-swapped words of the first; the module header reference of the
prior state designates no word (as in a new parser) or a word before the
region that the two arrays hold alike.  Then `Parse` with `mByteOrderFix` set
on the first array has a result exactly when `Parse` without it on the second
has one, and then the return values, the tracklet sequences (the tracklets
held before the call followed by the emitted ones) and the tracklets-found
counters are the same.  The peek at line 234 compares the stored word and can
leave a different `mState` in the two runs, but only before a word that has
neither bit of `0x80000001`, where that difference does not select another
branch. -/
theorem Parse_byte_order_transparent (rd : RawData) (p : TrackletsParser)
    (swapped : List Nat)
    (hpol : p.mTrackletHCHeaderState ≠ 1)
    (hdata : ∀ j, p.mStartParse ≤ j → swapped[j]? = (p.mData[j]?).map swapByteOrder)
    (hptr : ∀ i, p.mTrackletMCMHeader = some i →
      i < p.mStartParse ∧ swapped[i]? = p.mData[i]?) :
    (Parse rd { p with mByteOrderFix := false, mData := swapped }).map
        (fun r => (r.1, r.2.mTracklets, r.2.mTrackletsFound))
      = (Parse rd { p with mByteOrderFix := true }).map
        (fun r => (r.1, r.2.mTracklets, r.2.mTrackletsFound)) := by
  obtain ⟨pA, pB, sA, sB, hin, a1, a2, b1, b2⟩ := startParser_inStep p swapped hpol hdata hptr
  unfold Parse
  simp only [sA, sB, a1, a2, b1, b2]
  by_cases hle : p.mEndParse < p.mStartParse
  · simp [hle]
  · simp only [if_neg hle]
    rcases parseLoop_inStep rd (p.mEndParse - p.mStartParse) p.mStartParse 0 0 pA pB hin with
      ⟨r1, r2⟩ | ⟨v, qA, qB, r1, r2, r3, r4⟩ | ⟨qA, qB, c1, h1, r1, r2, r3, r4, r5⟩
    · rw [r1, r2]
    · rw [r1, r2]
      simp [r3, r4]
    · rw [r1, r2]
      simp [r3, r4, r5]

/-- Witness for C20: a new parser on the stored words `[0x03000080, 0x45230100,
0x00100010, 0x00100010]` followed by one word, which normalize to
`[M(count=1)][D][END][END]`, and the second array made of every word
byte-swapped.  After the data word the normalizing run is in
`StateTrackletMCMHeader` and the run over the swapped words in
`StateTrackletEndMarker`; both return 4 with one tracklet.  Then a parser whose
module header reference was left on the word at index 0 by an earlier call, on
the region of the three words after it, `[D][END][END]` once normalized: both
runs return 3 with one tracklet made from the word at index 0. -/
theorem Parse_byte_order_transparent_witness :
    (Parse sampleRawData
        { mkParser [0x03000080, 0x45230100, 0x00100010, 0x00100010, 0] 0 4 0 false false 7 1
          with mByteOrderFix := true }).map (fun r => (r.1, r.2.mTracklets.length))
      = some (4, 1) ∧
    (Parse sampleRawData
        { mkParser [0x03000080, 0x45230100, 0x00100010, 0x00100010, 0] 0 4 0 false false 7 1
          with mByteOrderFix := false,
               mData := [0x80000003, 0x00012345, 0x10001000, 0x10001000, 0] }).map
        (fun r => (r.1, r.2.mTracklets.length))
      = some (4, 1) ∧
    (Parse sampleRawData
        { mkParser [0x03000080, 0x45230100, 0x00100010, 0x00100010, 0] 0 4 0 false false 7 1
          with mByteOrderFix := false,
               mData := [0x03000080, 0x45230100, 0x00100010, 0x00100010, 0].map
                 swapByteOrder }).map
        (fun r => (r.1, r.2.mTracklets, r.2.mTrackletsFound))
      = (Parse sampleRawData
        { mkParser [0x03000080, 0x45230100, 0x00100010, 0x00100010, 0] 0 4 0 false false 7 1
          with mByteOrderFix := true }).map
        (fun r => (r.1, r.2.mTracklets, r.2.mTrackletsFound)) ∧
    (Parse sampleRawData
        { mkParser [0x80000003, 0x44230100, 0x00100010, 0x00100010, 0] 1 4 0 false true 7 1
          with mTrackletMCMHeader := some 0 }).map
        (fun r => (r.1, r.2.mTracklets)) = some (3, [trackletOf sampleRawData 15 0x80000003
          0x12344 0]) ∧
    (Parse sampleRawData
        { mkParser [0x80000003, 0x44230100, 0x00100010, 0x00100010, 0] 1 4 0 false true 7 1
          with mTrackletMCMHeader := some 0, mByteOrderFix := false,
               mData := [0x80000003, 0x00012344, 0x10001000, 0x10001000, 0] }).map
        (fun r => (r.1, r.2.mTracklets, r.2.mTrackletsFound))
      = (Parse sampleRawData
        { mkParser [0x80000003, 0x44230100, 0x00100010, 0x00100010, 0] 1 4 0 false true 7 1
          with mTrackletMCMHeader := some 0, mByteOrderFix := true }).map
        (fun r => (r.1, r.2.mTracklets, r.2.mTrackletsFound)) :=
  ⟨by decide, by decide,
    Parse_byte_order_transparent sampleRawData
      (mkParser [0x03000080, 0x45230100, 0x00100010, 0x00100010, 0] 0 4 0 false false 7 1)
      ([0x03000080, 0x45230100, 0x00100010, 0x00100010, 0].map swapByteOrder)
      (by decide) (fun j _ => List.getElem?_map swapByteOrder _ j)
      (fun i hi => Option.noConfusion hi),
    by decide,
    Parse_byte_order_transparent sampleRawData
      { mkParser [0x80000003, 0x44230100, 0x00100010, 0x00100010, 0] 1 4 0 false true 7 1
        with mTrackletMCMHeader := some 0 }
      [0x80000003, 0x00012344, 0x10001000, 0x10001000, 0]
      (by decide)
      (fun j hj => match j, hj with
        | 0, h => absurd h (by decide)
        | 1, _ => by decide
        | 2, _ => by decide
        | 3, _ => by decide
        | 4, _ => by decide
        | _ + 5, _ => rfl)
      (fun i hi => Option.some.inj hi ▸ ⟨by decide, rfl⟩)⟩

end o2.trd
